import Mathlib

/-
  Verification of the `spire::ecs` entity–component system
  (sparse-set component pools, registry with deferred destruction,
  version-cached views).

  The C++ source is shallowly embedded as follows:
  * `u32`/`u64` values are `Nat`; the pool `version` counter is a `u64`
    and is advanced modulo `2 ^ 64` (`bump`).
  * A pool's paged sparse array maps an entity to a dense index or
    `INVALID_INDEX`; a page that was never allocated reads as
    `INVALID_INDEX` in every slot.  Both are modelled as an association
    list `List (Nat × Nat)` read through `flookup`: `none` stands for
    "absent page or `INVALID_INDEX`", `some i` for a dense index `i`.
  * `std::vector` is `List`; `std::queue` is a `List` whose head is the
    queue front and whose back is the push end.
  * Fatal paths (`std::terminate` on an unregistered component type or
    on component-id exhaustion) make an operation return `none`.
-/

namespace SpireEcs

/-! ## Finite maps as association lists -/

def flookup {κ β : Type} [DecidableEq κ] : List (κ × β) → κ → Option β
  | [], _ => none
  | (k, v) :: l, k' => if k' = k then some v else flookup l k'

def ferase {κ β : Type} [DecidableEq κ] : List (κ × β) → κ → List (κ × β)
  | [], _ => []
  | (k, v) :: l, k' => if k' = k then ferase l k' else (k, v) :: ferase l k'

def fset {κ β : Type} [DecidableEq κ] (l : List (κ × β)) (k : κ) (v : β) :
    List (κ × β) :=
  (k, v) :: ferase l k

/-! ## Constants (from the source) -/

def INVALID_INDEX : Nat := 2 ^ 32 - 1
def NONE_ID : Nat := 2 ^ 32 - 1
def MAX_ENTITIES : Nat := 1000000
def MAX_COMPONENTS : Nat := 64
def U64_MOD : Nat := 2 ^ 64
def U64_MAX : Nat := 2 ^ 64 - 1

/-- `u64` increment: `++m_version` on a 64-bit counter. -/
def bump (v : Nat) : Nat := (v + 1) % U64_MOD

/-! ## Component pool (`ComponentPool<C>` from the source) -/

structure Pool (V : Type) where
  version : Nat
  components : List V
  entities : List Nat
  sparse : List (Nat × Nat)
deriving DecidableEq

def Pool.empty {V : Type} : Pool V := ⟨0, [], [], []⟩

/-- `ComponentPool::add`. -/
def Pool.add {V : Type} (p : Pool V) (e : Nat) (c : V) : Pool V :=
  match flookup p.sparse e with
  | none =>
      { version := bump p.version
        components := p.components ++ [c]
        entities := p.entities ++ [e]
        sparse := fset p.sparse e p.components.length }
  | some i =>
      { p with components := p.components.set i c }

/-- `ComponentPool::remove` (swap-and-pop). -/
def Pool.remove {V : Type} (p : Pool V) (e : Nat) : Pool V :=
  match flookup p.sparse e with
  | none => p
  | some k =>
      let last := p.components.length - 1
      let p1 : Pool V :=
        if k = last then p
        else
          match p.components[last]?, p.entities[last]? with
          | some cv, some me =>
              { p with
                components := p.components.set k cv
                entities := p.entities.set k me
                sparse := fset p.sparse me k }
          | _, _ => p
      { version := bump p1.version
        components := p1.components.dropLast
        entities := p1.entities.dropLast
        sparse := ferase p1.sparse e }

/-- `ComponentPool::clear`. -/
def Pool.clear {V : Type} (p : Pool V) : Pool V :=
  { version := bump p.version
    components := []
    entities := []
    sparse := p.entities.foldl (fun s e => ferase s e) p.sparse }

/-- `ComponentPool::get` (a null pointer is `none`). -/
def Pool.get {V : Type} (p : Pool V) (e : Nat) : Option V :=
  match flookup p.sparse e with
  | none => none
  | some i => p.components[i]?

/-- Presence test: the sparse slot of `e` holds a dense index. -/
def Pool.contains {V : Type} (p : Pool V) (e : Nat) : Bool :=
  (flookup p.sparse e).isSome

/-! ## Views (`View<Cs...>` from the source)

A view over component types `Cs...` is identified in `Registry::m_views`
by its key (signature, ordered list of component ids).  Its mutable state
is the sampled version vector and the cached tuples; a cached component
pointer `&pool.components[i]` is modelled as the dense index `i` (`none`
is a null pointer), dereferenced against the pool at use time. -/

structure ViewSt where
  versions : List Nat
  cache : List (Nat × List (Option Nat))
deriving DecidableEq

/-- `View::View`: every stored version starts at `u64` max. -/
def ViewSt.init (n : Nat) : ViewSt := ⟨List.replicate n U64_MAX, []⟩

/-- `getSignature<Cs...>()`: fold of `s |= 1 << id(C)`. -/
def sigOf (order : List Nat) : Nat :=
  order.foldl (fun s c => s ||| (1 <<< c)) 0

/-! ## Registry (`Registry` from the source) -/

structure Reg (V : Type) where
  pools : List (Option (Pool V))
  available : List Nat
  destroyQ : List Nat
  alive : List Nat
  signatures : List (Nat × Nat)
  indices : List (Nat × Nat)
  views : List ((Nat × List Nat) × ViewSt)
deriving DecidableEq

/-- A fresh registry: `m_available = [0, …, me−1]`, everything else empty.
The source fixes `me = MAX_ENTITIES`; `me` is the compile-time constant. -/
def initReg (V : Type) (me : Nat) : Reg V :=
  { pools := []
    available := List.range me
    destroyQ := []
    alive := []
    signatures := []
    indices := []
    views := [] }

/-- `m_signatures[e]` (array of length `MAX_ENTITIES`, initially all 0). -/
def Reg.sig {V : Type} (r : Reg V) (e : Nat) : Nat :=
  (flookup r.signatures e).getD 0

/-- `m_indices[e]`: `none` is `INVALID_INDEX`. -/
def Reg.idx {V : Type} (r : Reg V) (e : Nat) : Option Nat :=
  flookup r.indices e

/-- The pool slot for component id `c` (`none`: missing or null slot). -/
def Reg.poolAt {V : Type} (r : Reg V) (c : Nat) : Option (Pool V) :=
  r.pools.getD c none

/-- `Registry::valid`. -/
def Reg.valid {V : Type} (me : Nat) (r : Reg V) (e : Nat) : Bool :=
  decide (e < me) && (r.idx e).isSome

/-- `Registry::create`: returns the id wrapped by the `Entity` handle
(`NONE_ID` when `m_available` is exhausted) and the new state. -/
def Reg.create {V : Type} (r : Reg V) : Nat × Reg V :=
  match r.available with
  | [] => (NONE_ID, r)
  | e :: rest =>
      (e, { r with
              available := rest
              indices := fset r.indices e r.alive.length
              alive := r.alive ++ [e] })

/-- `Registry::registerComponent` / `ComponentManager::registerComponent`.
`none` models `std::terminate()` on component-id exhaustion. -/
def Reg.registerC {V : Type} (r : Reg V) (c : Nat) : Option (Reg V) :=
  if MAX_COMPONENTS ≤ c then none
  else
    let ps :=
      if r.pools.length ≤ c then
        r.pools ++ List.replicate (c + 1 - r.pools.length) none
      else r.pools
    some { r with pools :=
            if (ps.getD c none).isSome then ps
            else ps.set c (some Pool.empty) }

/-- `Registry::addComponent` (`none` models `std::terminate()` in
`ComponentManager::pool<C>` when the pool is unregistered). -/
def Reg.addComp {V : Type} (me : Nat) (r : Reg V) (c e : Nat) (v : V) :
    Option (Reg V) :=
  if r.valid me e then
    match r.poolAt c with
    | none => none
    | some p =>
        some { r with
                pools := r.pools.set c (some (p.add e v))
                signatures := fset r.signatures e (r.sig e ||| (1 <<< c)) }
  else some r

/-- `Registry::removeComponent`. -/
def Reg.removeComp {V : Type} (me : Nat) (r : Reg V) (c e : Nat) :
    Option (Reg V) :=
  if r.valid me e then
    match r.poolAt c with
    | none => none
    | some p =>
        some { r with
                pools := r.pools.set c (some (p.remove e))
                signatures :=
                  fset r.signatures e (r.sig e &&& (U64_MAX ^^^ (1 <<< c))) }
  else some r

/-- `Registry::clear<C>`. -/
def Reg.clearComp {V : Type} (r : Reg V) (c : Nat) : Option (Reg V) :=
  match r.poolAt c with
  | none => none
  | some p => some { r with pools := r.pools.set c (some p.clear) }

/-- `Registry::getComponent` (observation; `none` is a null pointer). -/
def Reg.getComp {V : Type} (me : Nat) (r : Reg V) (c e : Nat) : Option V :=
  if r.valid me e then
    match r.poolAt c with
    | none => none
    | some p => p.get e
  else none

/-- `Registry::destroy`: queue `e` if it is valid. -/
def Reg.destroySubmit {V : Type} (me : Nat) (r : Reg V) (e : Nat) : Reg V :=
  if r.valid me e then { r with destroyQ := r.destroyQ ++ [e] } else r

/-- One iteration of the `Registry::update` loop.  When `m_alive` is
empty and the slot is nonetheless set (unreachable from a well-formed
state, undefined behaviour in the source) the moved id defaults to 0. -/
def destroyOne {V : Type} (r : Reg V) (e : Nat) : Reg V :=
  match r.idx e with
  | none => r
  | some ie =>
      let last := r.alive.length - 1
      let moved := r.alive.getD last 0
      { r with
          alive := (r.alive.set ie moved).dropLast
          indices := ferase (fset r.indices moved ie) e
          signatures := fset r.signatures e 0
          pools := r.pools.map (Option.map (fun p => p.remove e))
          available := r.available ++ [e] }

/-- `Registry::update`. -/
def Reg.updateR {V : Type} (r : Reg V) : Reg V :=
  { r.destroyQ.foldl destroyOne r with destroyQ := [] }

/-- `Registry::reset`. -/
def Reg.resetR {V : Type} (me : Nat) (r : Reg V) : Reg V :=
  (r.alive.foldl (fun r' e => r'.destroySubmit me e) r).updateR

/-! ## View update and iteration -/

/-- Sequencing of a C++ parameter-pack expansion whose members may hit
a fatal path: all results, or `none` if any member fails. -/
def omap {A B : Type} (f : A → Option B) : List A → Option (List B)
  | [] => some []
  | a :: l =>
      match f a with
      | none => none
      | some b =>
          match omap f l with
          | none => none
          | some bs => some (b :: bs)

/-- The version vector sampled by `View::update`
(`m_reg->version<Cs>()...`; `none` models the `std::terminate()` in
`pool<C>` for an unregistered type). -/
def sampleVersions {V : Type} (r : Reg V) (order : List Nat) :
    Option (List Nat) :=
  omap (fun c => (r.poolAt c).map Pool.version) order

/-- The cached "pointer" produced by `m_reg->getComponent<C>(e)` at
rebuild time: the dense index of `e` in the pool of `c`. -/
def ptrOf {V : Type} (me : Nat) (r : Reg V) (c e : Nat) : Option Nat :=
  if r.valid me e then
    match r.poolAt c with
    | none => none
    | some p => flookup p.sparse e
  else none

/-- The rebuild loop of `View::update`: pick the smallest pool as the
driver, filter by signature, collect component pointers. -/
def buildCache {V : Type} (me : Nat) (r : Reg V) (order : List Nat) :
    Option (List (Nat × List (Option Nat))) :=
  match omap (fun c => (r.poolAt c).map Pool.entities) order with
  | none => none
  | some entsArr =>
    match entsArr with
    | [] => none
    | e0 :: rest =>
        let driver := (e0 :: rest).foldl
          (fun sm x => if x.length < sm.length then x else sm) e0
        let vsig := sigOf order
        some (driver.filterMap (fun e =>
          if r.sig e &&& vsig = vsig then
            some (e, order.map (fun c => ptrOf me r c e))
          else none))

/-- `Registry::view<Cs...>()` followed by `View::update` (the common
prefix of `each` and `entities`): fetch or create the view for the key,
sample versions, rebuild on mismatch.  Returns the new registry and the
view state the read operation iterates over. -/
def stepView {V : Type} (me : Nat) (r : Reg V) (order : List Nat) :
    Option (Reg V × ViewSt) :=
  if order.isEmpty then none
  else
    match sampleVersions r order with
    | none => none
    | some sampled =>
        match flookup r.views (sigOf order, order) with
        | some v0 =>
            if v0.versions = sampled then some (r, v0)
            else
              match buildCache me r order with
              | none => none
              | some b =>
                  some
                    ({ r with
                        views := fset r.views (sigOf order, order)
                          ⟨sampled, b⟩ },
                      (⟨sampled, b⟩ : ViewSt))
        | none =>
            if (ViewSt.init order.length).versions = sampled then
              some
                ({ r with
                    views := fset r.views (sigOf order, order)
                      (ViewSt.init order.length) },
                  ViewSt.init order.length)
            else
              match buildCache me r order with
              | none => none
              | some b =>
                  some
                    ({ r with
                        views := fset r.views (sigOf order, order)
                          ⟨sampled, b⟩ },
                      (⟨sampled, b⟩ : ViewSt))

/-- Dereference a cached component pointer at use time. -/
def derefPtr {V : Type} (r : Reg V) (c : Nat) (ptr : Option Nat) :
    Option V :=
  match ptr with
  | none => none
  | some i =>
      match r.poolAt c with
      | none => none
      | some p => p.components[i]?

/-- The tuples yielded by `View::each` (entity id together with the
dereferenced component pointers, in cache order). -/
def eachOut {V : Type} (me : Nat) (r : Reg V) (order : List Nat) :
    Option (List (Nat × List (Option V))) :=
  (stepView me r order).map (fun rv =>
    rv.2.cache.map (fun pr =>
      (pr.1, (order.zip pr.2).map (fun cp => derefPtr rv.1 cp.1 cp.2))))

/-- The ids returned by `View::entities`. -/
def entitiesOut {V : Type} (me : Nat) (r : Reg V) (order : List Nat) :
    Option (List Nat) :=
  (stepView me r order).map (fun rv => rv.2.cache.map Prod.fst)

/-! ## Operation sequences -/

inductive Op (V : Type) where
  | register (c : Nat)
  | create
  | addC (c e : Nat) (v : V)
  | removeC (c e : Nat)
  | clearC (c : Nat)
  | destroy (e : Nat)
  | update
  | reset
  | veach (order : List Nat)
deriving DecidableEq

def step {V : Type} (me : Nat) (r : Reg V) : Op V → Option (Reg V)
  | .register c => r.registerC c
  | .create => some (r.create).2
  | .addC c e v => r.addComp me c e v
  | .removeC c e => r.removeComp me c e
  | .clearC c => r.clearComp c
  | .destroy e => some (r.destroySubmit me e)
  | .update => some r.updateR
  | .reset => some (r.resetR me)
  | .veach order => (stepView me r order).map Prod.fst

def run {V : Type} (me : Nat) (l : List (Op V)) (r : Reg V) :
    Option (Reg V) :=
  match l with
  | [] => some r
  | op :: l' =>
      match step me r op with
      | none => none
      | some r' => run me l' r'

/-! ## Shape of the initial id queue -/

/-! ## Concrete operation sequences used by the counterexamples -/

/-- Register component 0, create entity 0, attach component 0, then
`clear<C>` the pool. -/
def c1CexOps : List (Op Nat) :=
  [Op.register 0, Op.create, Op.addC 0 0 1, Op.clearC 0]

/-- Observations for C1: the signature bit of entity 0 for component 0,
and whether the pool of component 0 contains entity 0. -/
def obsC1 (o : Option (Reg Nat)) : Option (Bool × Option Bool) :=
  o.map (fun r => (Nat.testBit (r.sig 0) 0, (r.poolAt 0).map (fun p => p.contains 0)))

/-- S1 scenario prefix: register `Name` (component id 0), create entity
0, attach the name "Tom". -/
def c3OpsA : List (Op String) :=
  [Op.register 0, Op.create, Op.addC 0 0 "Tom"]

/-- S1 scenario: the prefix followed by `destroy(0); update()`. -/
def c3Ops : List (Op String) :=
  c3OpsA ++ [Op.destroy 0, Op.update]

/-- Sequence for the C2 counterexample: entity 0 owns components 0 and
1, then the pool of component 0 is cleared (stale signature bit). -/
def c2CexOps : List (Op Nat) :=
  [Op.register 0, Op.register 1, Op.create, Op.addC 0 0 1, Op.addC 1 0 2,
   Op.clearC 0]

/-- Observations for C2: the tuples yielded by `view<0,1>().each`, the
liveness of entity 0, and its masked signature against the view
signature. -/
def obsC2 (o : Option (Reg Nat)) :
    Option (Option (List (Nat × List (Option Nat))) × Bool × Nat × Nat) :=
  o.map (fun r =>
    (eachOut MAX_ENTITIES r [0, 1], r.valid MAX_ENTITIES 0,
     r.sig 0 &&& sigOf [0, 1], sigOf [0, 1]))

/-- Observation: the id returned by the next `create()` after running
`l` on a fresh registry over string components. -/
def obsNextCreate (l : List (Op String)) : Option Nat :=
  (run MAX_ENTITIES l (initReg String MAX_ENTITIES)).map (fun r => (r.create).1)


/-- A small `clear`-free run used as a C1 witness: register component 0,
create entity 0, attach component 0 with value 5 (entity bound 4). -/
def c1WitOps : List (Op Nat) :=
  [Op.register 0, Op.create, Op.addC 0 0 5]

/-- The registry reached by `c1WitOps` on `initReg Nat 4`. -/
def c1WitReg : Reg Nat :=
  { pools := [some ⟨1, [5], [0], [(0, 0)]⟩]
    available := [1, 2, 3]
    destroyQ := []
    alive := [0]
    signatures := [(0, 1)]
    indices := [(0, 0)]
    views := [] }

/-- A registry with a pending destroy queue `[0, 0]` (entity 0 was
submitted to `destroy` twice before `update()`), used as a C6 witness. -/
def c6WitReg : Reg Nat :=
  { pools := [some ⟨1, [5], [0], [(0, 0)]⟩]
    available := [1, 2, 3]
    destroyQ := [0, 0]
    alive := [0]
    signatures := [(0, 1)]
    indices := [(0, 0)]
    views := [] }

/-! ## Pool operation sequences (for the pool-level claims) -/

inductive PoolOp (V : Type) where
  | padd (e : Nat) (v : V)
  | premove (e : Nat)
  | pclear
deriving DecidableEq

def pstep {V : Type} (p : Pool V) : PoolOp V → Pool V
  | .padd e v => p.add e v
  | .premove e => p.remove e
  | .pclear => p.clear

def prun {V : Type} (l : List (PoolOp V)) (p : Pool V) : Pool V :=
  l.foldl pstep p

/-- The sparse-set coherence invariant of a pool: parallel dense arrays,
every sparse slot points at the dense cell holding its entity, and every
dense cell is pointed at by its entity's sparse slot. -/
def PoolWF {V : Type} (p : Pool V) : Prop :=
  p.components.length = p.entities.length ∧
  (∀ pr ∈ p.sparse, pr.2 < p.entities.length ∧ p.entities[pr.2]? = some pr.1) ∧
  (∀ i, i < p.entities.length → flookup p.sparse (p.entities.getD i 0) = some i)

instance poolWFDecidable {V : Type} (p : Pool V) : Decidable (PoolWF p) :=
  decidable_of_iff
    (p.components.length = p.entities.length ∧
     (∀ pr ∈ p.sparse,
        pr.2 < p.entities.length ∧ p.entities[pr.2]? = some pr.1) ∧
     (∀ i, i < p.entities.length →
        flookup p.sparse (p.entities.getD i 0) = some i))
    Iff.rfl

/-- The events under which a pool bumps its version: insertion of a new
entity, removal of a present one, or a clear. -/
def poolChange {V : Type} (p : Pool V) : PoolOp V → Prop
  | .padd e _ => p.contains e = false
  | .premove e => p.contains e = true
  | .pclear => True

instance {V : Type} (p : Pool V) (op : PoolOp V) :
    Decidable (poolChange p op) := by
  cases op with
  | padd e v => exact instDecidableEqBool _ _
  | premove e => exact instDecidableEqBool _ _
  | pclear => exact instDecidableTrue

/-- `k` pairs of `add 0; remove 0`, each of which returns the pool to
its previous contents while bumping the version twice. -/
def pairsP : Nat → List (PoolOp Nat)
  | 0 => []
  | k + 1 => PoolOp.padd 0 0 :: PoolOp.premove 0 :: pairsP k

/-- The pool-op sequence of the C5 counterexample: `2 ^ 63 − 1` add/
remove pairs followed by one more add drive the `u64` version counter to
its maximum value. -/
def c5CexOps : List (PoolOp Nat) :=
  pairsP (2 ^ 63 - 1) ++ [PoolOp.padd 0 0]

/-! ## Registry invariants -/

/-- The per-pool-slot part of the registry invariant: a registered pool
is coherent and every entity it stores has a live `indices` slot. -/
def poolInv {V : Type} (ind : List (Nat × Nat)) (op : Option (Pool V)) :
    Prop :=
  match op with
  | none => True
  | some p => PoolWF p ∧ ∀ e ∈ p.entities, (flookup ind e).isSome = true

instance poolInvDecidable {V : Type} (ind : List (Nat × Nat))
    (op : Option (Pool V)) : Decidable (poolInv ind op) := by
  cases op with
  | none => exact instDecidableTrue
  | some p => exact instDecidableAnd

/-- The structural invariant of a registry: `alive` and `indices` are
mutually inverse and in range, at most 64 pool slots, each registered
pool coherent with members live, signature words in `u64` range, and an
id queue of fresh distinct non-live ids below the bound. -/
def RegWF0 {V : Type} (me : Nat) (r : Reg V) : Prop :=
  (∀ pr ∈ r.indices,
     pr.2 < r.alive.length ∧ r.alive[pr.2]? = some pr.1 ∧ pr.1 < me) ∧
  (∀ i, i < r.alive.length → flookup r.indices (r.alive.getD i 0) = some i) ∧
  r.pools.length ≤ MAX_COMPONENTS ∧
  (∀ op ∈ r.pools, poolInv r.indices op) ∧
  (∀ pr ∈ r.signatures, pr.2 < U64_MOD) ∧
  (∀ a ∈ r.available, a < me) ∧
  (∀ a ∈ r.available, flookup r.indices a = none) ∧
  r.available.Nodup

instance regWF0Decidable {V : Type} (me : Nat) (r : Reg V) :
    Decidable (RegWF0 me r) := by
  unfold RegWF0
  infer_instance

/-- Invariant 4 of the spec: bit `c` of an entity's signature is set
exactly when the (then necessarily registered) pool for `c` contains the
entity. -/
def SigAgree {V : Type} (r : Reg V) : Prop :=
  ∀ e c, Nat.testBit (r.sig e) c = true ↔
    ∃ p, r.poolAt c = some p ∧ p.contains e = true

def isClear {V : Type} : Op V → Bool
  | .clearC _ => true
  | _ => false

/-- Operation sequences that never call `Registry::clear<C>`. -/
def NoClear {V : Type} (l : List (Op V)) : Prop :=
  ∀ op ∈ l, isClear op = false

instance noClearDecidable {V : Type} (l : List (Op V)) :
    Decidable (NoClear l) := by
  unfold NoClear
  infer_instance

/-! ## View-layer invariants -/

/-- A fuel bound on the registry: every registered pool's version
counter, plus the pending destroy queue and the live population, is at
most `B`.  Each public operation raises the bound by at most one, so a
run of `n` operations from a fresh registry satisfies `VBound r n` —
in particular no `u64` version counter can wrap before `2 ^ 64 - 1`
operations. -/
def VBound {V : Type} (r : Reg V) (B : Nat) : Prop :=
  r.destroyQ.length + r.alive.length ≤ B ∧
  ∀ c p, r.poolAt c = some p →
    p.version + r.destroyQ.length + r.alive.length ≤ B

/-- The structural invariant of the stored view states: every entry of
`m_views` is keyed by its signature and component order, its pools are
registered, its stored version vector is pointwise at most the current
pool versions, and some participating pool (the driver at build time)
still contains every cached entity as long as its version has not moved
past the stored one. -/
def ViewBase {V : Type} (r : Reg V) : Prop :=
  ∀ s ord vs, flookup r.views (s, ord) = some vs →
    s = sigOf ord ∧ ord ≠ [] ∧
    ∃ sampled, sampleVersions r ord = some sampled ∧
      vs.versions.length = ord.length ∧
      (∀ i, vs.versions.getD i 0 ≤ sampled.getD i 0) ∧
      (∃ i, i < ord.length ∧ ∃ p, r.poolAt (ord.getD i 0) = some p ∧
        (vs.versions.getD i 0 = p.version →
          ∀ pr ∈ vs.cache, p.contains pr.1 = true))

/-- The semantic invariant of the stored view states: whenever a stored
version vector coincides with the currently sampled one, the stored
cache is exactly what a rebuild against the current registry would
produce. -/
def ViewFull {V : Type} (me : Nat) (r : Reg V) : Prop :=
  ∀ s ord vs, flookup r.views (s, ord) = some vs →
    ∀ sampled, sampleVersions r ord = some sampled →
      vs.versions = sampled →
      ∃ b, buildCache me r ord = some b ∧ vs.cache = b

/-- Per-pool evolution of one registry operation: registered pools stay
registered, their version counters never decrease, and a pool whose
version is unchanged kept its dense entity array and its sparse map
(only component values may have been overwritten). -/
def PoolsMono {V : Type} (r r2 : Reg V) : Prop :=
  ∀ c p, r.poolAt c = some p → ∃ p2, r2.poolAt c = some p2 ∧
    p.version ≤ p2.version ∧
    (p2.version = p.version → p2.entities = p.entities ∧ p2.sparse = p.sparse)

/-! ## Concrete states for the view claims -/

/-- Register component 0, create entity 0, attach component 0 with
value 5: the starting run of the view-claim witnesses. -/
def viewWitOps : List (Op Nat) :=
  [Op.register 0, Op.create, Op.addC 0 0 5]

/-- The registry reached by `viewWitOps` on `initReg Nat 4`. -/
def viewWitReg : Reg Nat :=
  { pools := [some ⟨1, [5], [0], [(0, 0)]⟩]
    available := [1, 2, 3]
    destroyQ := []
    alive := [0]
    signatures := [(0, 1)]
    indices := [(0, 0)]
    views := [] }

/-- `k` pairs of `removeComponent(0); addComponent(0, 5)` on entity 0:
each pair restores the pool contents and the signature while bumping
the pool version twice. -/
def pumpOpsA : Nat → List (Op Nat)
  | 0 => []
  | k + 1 => Op.removeC 0 0 :: Op.addC 0 0 5 :: pumpOpsA k

/-- The registry family traversed by `pumpOpsA`: entity 0 alive and
owning component 0 (value 5), pool version `v`; `A` and `W` are the
untouched id queue and view map. -/
def RA (A : List Nat) (W : List ((Nat × List Nat) × ViewSt)) (v : Nat) :
    Reg Nat :=
  { pools := [some ⟨v, [5], [0], [(0, 0)]⟩]
    available := A
    destroyQ := []
    alive := [0]
    signatures := [(0, 1)]
    indices := [(0, 0)]
    views := W }

/-- Prefix of the C4 counterexample: register, create entity 0, attach
component 0. -/
def c4StartOps : List (Op Nat) :=
  [Op.register 0, Op.create, Op.addC 0 0 5]

/-- Observations for C4: the view map, the tuples yielded by
`view<C>().each`, the cache a rebuild would produce, and the liveness
of entity 0. -/
def obsC4 (o : Option (Reg Nat)) :
    Option (List ((Nat × List Nat) × ViewSt) ×
      Option (List (Nat × List (Option Nat))) ×
      Option (List (Nat × List (Option Nat))) × Bool) :=
  o.map (fun r =>
    (r.views, eachOut MAX_ENTITIES r [0], buildCache MAX_ENTITIES r [0],
     r.valid MAX_ENTITIES 0))

/-- `k` pairs of `removeComponent(1); addComponent(1, 5)` on entity 1
(the C10 pump). -/
def pumpOpsB : Nat → List (Op Nat)
  | 0 => []
  | k + 1 => Op.removeC 0 1 :: Op.addC 0 1 5 :: pumpOpsB k

/-- The registry family traversed by `pumpOpsB`: entity 0 destroyed and
recycled, entity 1 alive and owning component 0, pool version `v`, and
a stored view over component 0 whose cache still lists entity 0 at
stored version 1. -/
def RB (A : List Nat) (v : Nat) : Reg Nat :=
  { pools := [some ⟨v, [5], [1], [(1, 0)]⟩]
    available := A
    destroyQ := []
    alive := [1]
    signatures := [(1, 1), (0, 0)]
    indices := [(1, 0)]
    views := [((1, [0]), ⟨[1], [(0, [some 0])]⟩)] }

/-- Prefix of the C10 counterexample: build a view cache over entity 0,
destroy and recycle entity 0, create entity 1 and give it component 0. -/
def c10StartOps : List (Op Nat) :=
  [Op.register 0, Op.create, Op.addC 0 0 5, Op.veach [0],
   Op.destroy 0, Op.update, Op.create, Op.addC 0 1 5]

/-- Observations for C10: the ids yielded by `view<C>().entities` and
the liveness of entity 0. -/
def obsC10 (o : Option (Reg Nat)) : Option (Option (List Nat) × Bool) :=
  o.map (fun r => (entitiesOut MAX_ENTITIES r [0], r.valid MAX_ENTITIES 0))

/-! ## General lemmas -/

@[simp] theorem flookup_nil {κ β : Type} [DecidableEq κ] (k' : κ) :
    flookup ([] : List (κ × β)) k' = none := rfl

@[simp] theorem flookup_cons {κ β : Type} [DecidableEq κ]
    (a : κ) (b : β) (l : List (κ × β)) (k' : κ) :
    flookup ((a, b) :: l) k' = if k' = a then some b else flookup l k' := rfl

theorem ferase_cons {κ β : Type} [DecidableEq κ]
    (a : κ) (b : β) (l : List (κ × β)) (k : κ) :
    ferase ((a, b) :: l) k =
      if k = a then ferase l k else (a, b) :: ferase l k := rfl

@[simp] theorem flookup_ferase {κ β : Type} [DecidableEq κ]
    (l : List (κ × β)) (k k' : κ) :
    flookup (ferase l k) k' = if k' = k then none else flookup l k' := by
  induction l with
  | nil =>
    show (none : Option β) = if k' = k then none else none
    by_cases h : k' = k
    · rw [if_pos h]
    · rw [if_neg h]
  | cons p l ih =>
    obtain ⟨a, b⟩ := p
    rw [ferase_cons]
    by_cases hka : k = a
    · rw [if_pos hka, ih]
      by_cases h : k' = k
      · rw [if_pos h, if_pos h]
      · have hk'a : ¬k' = a := fun hh => h (hh.trans hka.symm)
        rw [if_neg h, if_neg h, flookup_cons, if_neg hk'a]
    · rw [if_neg hka, flookup_cons, flookup_cons]
      by_cases h : k' = a
      · have hk'k : ¬k' = k := fun hh => hka (hh.symm.trans h)
        rw [if_pos h, if_pos h, if_neg hk'k]
      · rw [if_neg h, if_neg h, ih]

@[simp] theorem flookup_fset {κ β : Type} [DecidableEq κ]
    (l : List (κ × β)) (k k' : κ) (v : β) :
    flookup (fset l k v) k' = if k' = k then some v else flookup l k' := by
  show flookup ((k, v) :: ferase l k) k' = _
  rw [flookup_cons]
  by_cases h : k' = k
  · rw [if_pos h, if_pos h]
  · rw [if_neg h, if_neg h, flookup_ferase, if_neg h]

theorem flookup_mem {κ β : Type} [DecidableEq κ] {l : List (κ × β)}
    {k : κ} {v : β} (h : flookup l k = some v) : (k, v) ∈ l := by
  induction l with
  | nil => exact Option.noConfusion h
  | cons p l ih =>
    obtain ⟨a, b⟩ := p
    rw [flookup_cons] at h
    by_cases hk : k = a
    · rw [if_pos hk] at h
      subst hk
      rw [Option.some.inj h]
      exact List.mem_cons_self _ _
    · rw [if_neg hk] at h
      exact List.mem_cons_of_mem _ (ih h)

theorem mem_ferase {κ β : Type} [DecidableEq κ] {l : List (κ × β)}
    {k : κ} {pr : κ × β} : pr ∈ ferase l k ↔ pr ∈ l ∧ pr.1 ≠ k := by
  induction l with
  | nil => simp [ferase]
  | cons p l ih =>
    obtain ⟨a, b⟩ := p
    rw [ferase_cons]
    by_cases hk : k = a
    · rw [if_pos hk, ih]
      constructor
      · rintro ⟨h1, h2⟩
        exact ⟨List.mem_cons_of_mem _ h1, h2⟩
      · rintro ⟨h1, h2⟩
        rcases List.mem_cons.mp h1 with h | h
        · exact absurd ((by rw [h] : pr.1 = a).trans hk.symm) h2
        · exact ⟨h, h2⟩
    · rw [if_neg hk, List.mem_cons, List.mem_cons, ih]
      constructor
      · rintro (h | ⟨h1, h2⟩)
        · exact ⟨Or.inl h, by rw [h]; exact fun hh => hk hh.symm⟩
        · exact ⟨Or.inr h1, h2⟩
      · rintro ⟨h1 | h1, h2⟩
        · exact Or.inl h1
        · exact Or.inr ⟨h1, h2⟩

theorem mem_fset {κ β : Type} [DecidableEq κ] {l : List (κ × β)}
    {k : κ} {v : β} {pr : κ × β} :
    pr ∈ fset l k v ↔ pr = (k, v) ∨ (pr ∈ l ∧ pr.1 ≠ k) := by
  show pr ∈ (k, v) :: ferase l k ↔ _
  rw [List.mem_cons, mem_ferase]

theorem flookup_foldl_ferase {β : Type} (es : List Nat)
    (s : List (Nat × β)) (e : Nat) :
    flookup (es.foldl (fun s e => ferase s e) s) e =
      if e ∈ es then none else flookup s e := by
  induction es generalizing s with
  | nil => simp
  | cons a es ih =>
    rw [List.foldl_cons, ih]
    by_cases ha : e = a
    · subst ha
      rw [if_pos (List.mem_cons_self _ _)]
      by_cases hm : e ∈ es
      · rw [if_pos hm]
      · rw [if_neg hm, flookup_ferase, if_pos rfl]
    · by_cases hm : e ∈ es
      · rw [if_pos hm, if_pos (List.mem_cons_of_mem a hm)]
      · rw [if_neg hm, if_neg (fun h => (List.mem_cons.mp h).elim ha hm),
          flookup_ferase, if_neg ha]

theorem mem_foldl_ferase {β : Type} {es : List Nat}
    {s : List (Nat × β)} {pr : Nat × β}
    (h : pr ∈ es.foldl (fun s e => ferase s e) s) :
    pr ∈ s ∧ pr.1 ∉ es := by
  induction es generalizing s with
  | nil => exact ⟨h, List.not_mem_nil _⟩
  | cons a es ih =>
    obtain ⟨h1, h2⟩ := ih h
    obtain ⟨h3, h4⟩ := mem_ferase.mp h1
    exact ⟨h3, fun hm => (List.mem_cons.mp hm).elim h4 h2⟩

/-! ## Pool lemmas -/

theorem PoolWF.len_eq {V : Type} {p : Pool V} (h : PoolWF p) :
    p.components.length = p.entities.length := h.1

theorem PoolWF.lookup_lt {V : Type} {p : Pool V} (hwf : PoolWF p)
    {e k : Nat} (h : flookup p.sparse e = some k) :
    k < p.entities.length ∧ p.entities[k]? = some e :=
  hwf.2.1 (e, k) (flookup_mem h)

theorem PoolWF.dense_lookup {V : Type} {p : Pool V} (hwf : PoolWF p)
    {i e : Nat} (h : p.entities[i]? = some e) :
    flookup p.sparse e = some i := by
  have hi : i < p.entities.length := by
    by_contra hc
    rw [List.getElem?_eq_none (Nat.le_of_not_lt hc)] at h
    exact Option.noConfusion h
  have := hwf.2.2 i hi
  rwa [List.getD_eq_getElem?_getD, h] at this

theorem PoolWF.lookup_inj {V : Type} {p : Pool V} (hwf : PoolWF p)
    {e e' k : Nat} (h : flookup p.sparse e = some k)
    (h' : flookup p.sparse e' = some k) : e = e' := by
  have h1 := (hwf.lookup_lt h).2
  have h2 := (hwf.lookup_lt h').2
  rw [h1] at h2
  exact Option.some.inj h2

theorem poolWF_empty {V : Type} : PoolWF (Pool.empty : Pool V) := by
  refine ⟨rfl, ?_, ?_⟩
  · intro pr hpr
    exact absurd hpr (List.not_mem_nil pr)
  · intro i hi
    exact absurd hi (Nat.not_lt_zero i)

theorem pool_add_new {V : Type} {p : Pool V} {e : Nat} {v : V}
    (h : flookup p.sparse e = none) :
    p.add e v = ⟨bump p.version, p.components ++ [v], p.entities ++ [e],
      fset p.sparse e p.components.length⟩ := by
  simp only [Pool.add, h]

theorem pool_add_old {V : Type} {p : Pool V} {e : Nat} {v : V} {i : Nat}
    (h : flookup p.sparse e = some i) :
    p.add e v = { p with components := p.components.set i v } := by
  simp only [Pool.add, h]

theorem pool_lookup_add_ne {V : Type} {p : Pool V} {e e2 : Nat} {v : V}
    (h : e2 ≠ e) :
    flookup (p.add e v).sparse e2 = flookup p.sparse e2 := by
  cases hl : flookup p.sparse e with
  | none => rw [pool_add_new hl]; exact (flookup_fset _ _ _ _).trans (if_neg h)
  | some i => rw [pool_add_old hl]

theorem pool_contains_add_self {V : Type} (p : Pool V) (e : Nat) (v : V) :
    (p.add e v).contains e = true := by
  cases hl : flookup p.sparse e with
  | none =>
    rw [Pool.contains, pool_add_new hl]
    show (flookup (fset p.sparse e p.components.length) e).isSome = true
    rw [flookup_fset, if_pos rfl]
    rfl
  | some i =>
    rw [Pool.contains, pool_add_old hl]
    show (flookup p.sparse e).isSome = true
    rw [hl]
    rfl

theorem pool_version_add {V : Type} (p : Pool V) (e : Nat) (v : V) :
    (p.add e v).version =
      if p.contains e then p.version else bump p.version := by
  cases hl : flookup p.sparse e with
  | none =>
    rw [pool_add_new hl, Pool.contains, hl]
    rfl
  | some i =>
    rw [pool_add_old hl, Pool.contains, hl]
    rfl

theorem pool_entities_add {V : Type} (p : Pool V) (e : Nat) (v : V) :
    (p.add e v).entities =
      if p.contains e then p.entities else p.entities ++ [e] := by
  cases hl : flookup p.sparse e with
  | none =>
    rw [pool_add_new hl, Pool.contains, hl]
    rfl
  | some i =>
    rw [pool_add_old hl, Pool.contains, hl]
    rfl

theorem pool_get_add_self {V : Type} {p : Pool V} (hwf : PoolWF p)
    (e : Nat) (v : V) : (p.add e v).get e = some v := by
  cases hl : flookup p.sparse e with
  | none =>
    rw [Pool.get, pool_add_new hl]
    show (match flookup (fset p.sparse e p.components.length) e with
          | none => none
          | some i => (p.components ++ [v])[i]?) = some v
    rw [flookup_fset, if_pos rfl]
    exact List.getElem?_concat_length p.components v
  | some i =>
    rw [Pool.get, pool_add_old hl]
    show (match flookup p.sparse e with
          | none => none
          | some j => (p.components.set i v)[j]?) = some v
    rw [hl]
    have hi : i < p.components.length := by
      rw [hwf.len_eq]
      exact (hwf.lookup_lt hl).1
    exact List.getElem?_set_self hi

theorem pool_get_add_ne {V : Type} {p : Pool V} (hwf : PoolWF p)
    {e e2 : Nat} (v : V) (h : e2 ≠ e) :
    (p.add e v).get e2 = p.get e2 := by
  cases hl : flookup p.sparse e with
  | none =>
    rw [Pool.get, Pool.get, pool_add_new hl]
    show (match flookup (fset p.sparse e p.components.length) e2 with
          | none => none
          | some i => (p.components ++ [v])[i]?) = _
    rw [flookup_fset, if_neg h]
    cases hl2 : flookup p.sparse e2 with
    | none => rfl
    | some j =>
      have hj : j < p.components.length := by
        rw [hwf.len_eq]
        exact (hwf.lookup_lt hl2).1
      exact List.getElem?_append_left hj
  | some i =>
    rw [Pool.get, Pool.get, pool_add_old hl]
    show (match flookup p.sparse e2 with
          | none => none
          | some j => (p.components.set i v)[j]?) = _
    cases hl2 : flookup p.sparse e2 with
    | none => rfl
    | some j =>
      have hij : i ≠ j := fun hh =>
        h (hwf.lookup_inj (hh ▸ hl) hl2).symm
      exact List.getElem?_set_ne hij

theorem poolWF_add {V : Type} {p : Pool V} (hwf : PoolWF p)
    (e : Nat) (v : V) : PoolWF (p.add e v) := by
  cases hl : flookup p.sparse e with
  | none =>
    rw [pool_add_new hl]
    refine ⟨?_, ?_, ?_⟩
    · show (p.components ++ [v]).length = (p.entities ++ [e]).length
      rw [List.length_append, List.length_append, hwf.len_eq]
      rfl
    · intro pr hpr
      show pr.2 < (p.entities ++ [e]).length ∧
        (p.entities ++ [e])[pr.2]? = some pr.1
      rw [List.length_append, List.length_singleton]
      rcases mem_fset.mp hpr with hpr | ⟨hpr, hne⟩
      · rw [hpr]
        show p.components.length < p.entities.length + 1 ∧
          (p.entities ++ [e])[p.components.length]? = some e
        rw [hwf.len_eq]
        exact ⟨Nat.lt_succ_self _, List.getElem?_concat_length p.entities e⟩
      · obtain ⟨h1, h2⟩ := hwf.2.1 pr hpr
        rw [List.getElem?_append_left h1]
        exact ⟨Nat.lt_succ_of_lt h1, h2⟩
    · intro i hi
      show flookup (fset p.sparse e p.components.length)
        ((p.entities ++ [e]).getD i 0) = some i
      have hi' : i < p.entities.length + 1 := by
        have := hi
        rw [List.length_append, List.length_singleton] at this
        exact this
      rcases Nat.lt_or_ge i p.entities.length with hlt | hge
      · have hgd : (p.entities ++ [e]).getD i 0 = p.entities.getD i 0 := by
          rw [List.getD_eq_getElem?_getD, List.getD_eq_getElem?_getD,
            List.getElem?_append_left hlt]
        rw [hgd, flookup_fset]
        have hold := hwf.2.2 i hlt
        have hne : p.entities.getD i 0 ≠ e := fun hh => by
          rw [hh, hl] at hold
          exact Option.noConfusion hold
        rw [if_neg hne]
        exact hold
      · have hieq : i = p.entities.length := Nat.le_antisymm
          (Nat.lt_succ_iff.mp hi') hge
        rw [hieq]
        have hgd : (p.entities ++ [e]).getD p.entities.length 0 = e := by
          rw [List.getD_eq_getElem?_getD, List.getElem?_concat_length]
          rfl
        rw [hgd, flookup_fset, if_pos rfl, hwf.len_eq]
  | some i =>
    rw [pool_add_old hl]
    refine ⟨?_, hwf.2.1, hwf.2.2⟩
    show (p.components.set i v).length = p.entities.length
    rw [List.length_set]
    exact hwf.len_eq

theorem getElem?_dropLast {A : Type} (l : List A) (i : Nat)
    (h : i < l.length - 1) : l.dropLast[i]? = l[i]? := by
  rw [List.dropLast_eq_take, List.getElem?_take_of_lt h]

theorem pool_remove_absent {V : Type} {p : Pool V} {e : Nat}
    (h : flookup p.sparse e = none) : p.remove e = p := by
  simp only [Pool.remove, h]

theorem pool_remove_eq_last {V : Type} {p : Pool V} {e k : Nat}
    (h : flookup p.sparse e = some k)
    (hcase : k = p.components.length - 1) :
    p.remove e = ⟨bump p.version, p.components.dropLast,
      p.entities.dropLast, ferase p.sparse e⟩ := by
  simp only [Pool.remove, h, if_pos hcase]

theorem pool_remove_eq_swap {V : Type} {p : Pool V} {e k : Nat}
    {cv : V} {mv : Nat} (h : flookup p.sparse e = some k)
    (hcase : ¬k = p.components.length - 1)
    (hcv : p.components[p.components.length - 1]? = some cv)
    (hmv : p.entities[p.components.length - 1]? = some mv) :
    p.remove e = ⟨bump p.version,
      (p.components.set k cv).dropLast,
      (p.entities.set k mv).dropLast,
      ferase (fset p.sparse mv k) e⟩ := by
  simp only [Pool.remove, h, if_neg hcase, hcv, hmv]

theorem pool_remove_spec {V : Type} {p : Pool V} {e k : Nat}
    (hwf : PoolWF p) (h : flookup p.sparse e = some k) :
    (p.remove e).version = bump p.version ∧
    (p.remove e).entities.length = p.entities.length - 1 ∧
    (p.remove e).components.length = p.components.length - 1 ∧
    flookup (p.remove e).sparse e = none ∧
    (∀ e2, e2 ≠ e → (p.remove e).contains e2 = p.contains e2) ∧
    (∀ e2, e2 ≠ e → (p.remove e).get e2 = p.get e2) ∧
    PoolWF (p.remove e) := by
  obtain ⟨hk_lt, hk_ent⟩ := hwf.lookup_lt h
  have hlen := hwf.len_eq
  by_cases hcase : k = p.components.length - 1
  · rw [pool_remove_eq_last h hcase]
    have hkn : k = p.entities.length - 1 := by rw [hcase, hlen]
    refine ⟨rfl, List.length_dropLast _, List.length_dropLast _, ?_, ?_, ?_, ?_, ?_, ?_⟩
    · show flookup (ferase p.sparse e) e = none
      rw [flookup_ferase, if_pos rfl]
    · intro e2 he2
      show (flookup (ferase p.sparse e) e2).isSome = _
      rw [flookup_ferase, if_neg he2]
      rfl
    · intro e2 he2
      show (match flookup (ferase p.sparse e) e2 with
            | none => none
            | some j => p.components.dropLast[j]?) = p.get e2
      rw [flookup_ferase, if_neg he2, Pool.get]
      cases hl2 : flookup p.sparse e2 with
      | none => rfl
      | some j =>
        obtain ⟨hj_lt, hj_ent⟩ := hwf.lookup_lt hl2
        have hjk : j ≠ k := fun hh =>
          he2 (hwf.lookup_inj hl2 (hh ▸ h))
        have hj : j < p.components.length - 1 := by
          rw [hlen]
          omega
        exact getElem?_dropLast _ _ hj
    · show p.components.dropLast.length = p.entities.dropLast.length
      rw [List.length_dropLast, List.length_dropLast, hlen]
    · intro pr hpr
      obtain ⟨hpr, hne⟩ := mem_ferase.mp hpr
      obtain ⟨h1, h2⟩ := hwf.2.1 pr hpr
      have hprk : pr.2 ≠ k := fun hh => by
        rw [hh, hk_ent] at h2
        exact hne (Option.some.inj h2).symm
      have h1' : pr.2 < p.entities.length - 1 := by omega
      show pr.2 < p.entities.dropLast.length ∧
        p.entities.dropLast[pr.2]? = some pr.1
      rw [List.length_dropLast, getElem?_dropLast _ _ h1']
      exact ⟨h1', h2⟩
    · intro i hi
      rw [List.length_dropLast] at hi
      show flookup (ferase p.sparse e) (p.entities.dropLast.getD i 0) = some i
      have hgd : p.entities.dropLast.getD i 0 = p.entities.getD i 0 := by
        rw [List.getD_eq_getElem?_getD, List.getD_eq_getElem?_getD,
          getElem?_dropLast _ _ hi]
      rw [hgd, flookup_ferase]
      have hold := hwf.2.2 i (by omega)
      have hne : p.entities.getD i 0 ≠ e := fun hh => by
        rw [hh, h] at hold
        have := Option.some.inj hold
        omega
      rw [if_neg hne]
      exact hold
  · have hlast_lt : p.components.length - 1 < p.components.length := by
      rw [hlen]
      omega
    have hlast_lt_e : p.components.length - 1 < p.entities.length := by
      rw [← hlen]
      exact hlast_lt
    obtain ⟨cv, hcv⟩ : ∃ cv, p.components[p.components.length - 1]? = some cv :=
      ⟨_, List.getElem?_eq_getElem hlast_lt⟩
    obtain ⟨mv, hmv⟩ : ∃ mv, p.entities[p.components.length - 1]? = some mv :=
      ⟨_, List.getElem?_eq_getElem hlast_lt_e⟩
    have hmv_lookup : flookup p.sparse mv = some (p.entities.length - 1) := by
      rw [hlen] at hmv
      exact hwf.dense_lookup hmv
    have hkn : k < p.entities.length - 1 := by
      rw [hlen] at hcase
      omega
    have hmv_ne : mv ≠ e := fun hh => by
      rw [hh, h] at hmv_lookup
      have := Option.some.inj hmv_lookup
      omega
    rw [pool_remove_eq_swap h hcase hcv hmv]
    have hset_len : (p.entities.set k mv).length = p.entities.length :=
      List.length_set _ _ _
    refine ⟨rfl, ?_, ?_, ?_, ?_, ?_, ?_, ?_, ?_⟩
    · show (p.entities.set k mv).dropLast.length = p.entities.length - 1
      rw [List.length_dropLast, hset_len]
    · show (p.components.set k cv).dropLast.length = p.components.length - 1
      rw [List.length_dropLast, List.length_set]
    · show flookup (ferase (fset p.sparse mv k) e) e = none
      rw [flookup_ferase, if_pos rfl]
    · intro e2 he2
      show (flookup (ferase (fset p.sparse mv k) e) e2).isSome = _
      rw [flookup_ferase, if_neg he2, flookup_fset]
      by_cases hm : e2 = mv
      · rw [if_pos hm, Pool.contains, hm, hmv_lookup]
        rfl
      · rw [if_neg hm]
        rfl
    · intro e2 he2
      show (match flookup (ferase (fset p.sparse mv k) e) e2 with
            | none => none
            | some j => (p.components.set k cv).dropLast[j]?) = p.get e2
      rw [flookup_ferase, if_neg he2, flookup_fset, Pool.get]
      by_cases hm : e2 = mv
      · rw [if_pos hm]
        show (p.components.set k cv).dropLast[k]? =
          (match flookup p.sparse e2 with
           | none => none
           | some j => p.components[j]?)
        rw [hm, hmv_lookup]
        show (p.components.set k cv).dropLast[k]? =
          p.components[p.entities.length - 1]?
        have hk_lt' : k < (p.components.set k cv).length - 1 := by
          rw [List.length_set, hlen]
          exact hkn
        rw [getElem?_dropLast _ _ hk_lt',
          List.getElem?_set_self (by rw [hlen]; omega)]
        rw [hlen] at hcv
        rw [hcv]
      · rw [if_neg hm]
        cases hl2 : flookup p.sparse e2 with
        | none => rfl
        | some j =>
          obtain ⟨hj_lt, hj_ent⟩ := hwf.lookup_lt hl2
          have hjk : j ≠ k := fun hh =>
            he2 (hwf.lookup_inj hl2 (hh ▸ h))
          have hjlast : j ≠ p.entities.length - 1 := fun hh => by
            rw [hh] at hj_ent
            rw [hlen] at hmv
            rw [hmv] at hj_ent
            exact hm (Option.some.inj hj_ent).symm
          have hj : j < (p.components.set k cv).length - 1 := by
            rw [List.length_set, hlen]
            omega
          show (p.components.set k cv).dropLast[j]? = p.components[j]?
          rw [getElem?_dropLast _ _ hj,
            List.getElem?_set_ne (fun hh => hjk hh.symm)]
    · show (p.components.set k cv).dropLast.length =
        (p.entities.set k mv).dropLast.length
      rw [List.length_dropLast, List.length_dropLast, List.length_set,
        List.length_set, hlen]
    · intro pr hpr
      obtain ⟨hpr, hne⟩ := mem_ferase.mp hpr
      show pr.2 < (p.entities.set k mv).dropLast.length ∧
        (p.entities.set k mv).dropLast[pr.2]? = some pr.1
      rw [List.length_dropLast, hset_len]
      rcases mem_fset.mp hpr with hpr | ⟨hpr, hprm⟩
      · rw [hpr]
        show k < p.entities.length - 1 ∧
          (p.entities.set k mv).dropLast[k]? = some mv
        refine ⟨hkn, ?_⟩
        rw [getElem?_dropLast _ _ (by rw [hset_len]; exact hkn),
          List.getElem?_set_self (by omega)]
      · obtain ⟨h1, h2⟩ := hwf.2.1 pr hpr
        have hprk : pr.2 ≠ k := fun hh => by
          rw [hh, hk_ent] at h2
          exact hne (Option.some.inj h2).symm
        have hprlast : pr.2 ≠ p.entities.length - 1 := fun hh => by
          rw [hh] at h2
          rw [hlen] at hmv
          rw [hmv] at h2
          exact hprm (Option.some.inj h2).symm
        have h1' : pr.2 < p.entities.length - 1 := by omega
        rw [getElem?_dropLast _ _ (by rw [hset_len]; exact h1'),
          List.getElem?_set_ne (fun hh => hprk hh.symm)]
        exact ⟨h1', h2⟩
    · intro i hi
      rw [List.length_dropLast, hset_len] at hi
      show flookup (ferase (fset p.sparse mv k) e)
        ((p.entities.set k mv).dropLast.getD i 0) = some i
      have hgd : (p.entities.set k mv).dropLast.getD i 0 =
          (p.entities.set k mv).getD i 0 := by
        rw [List.getD_eq_getElem?_getD, List.getD_eq_getElem?_getD,
          getElem?_dropLast _ _ (by rw [hset_len]; exact hi)]
      rw [hgd]
      by_cases hik : i = k
      · have : (p.entities.set k mv).getD i 0 = mv := by
          rw [hik, List.getD_eq_getElem?_getD,
            List.getElem?_set_self (by omega)]
          rfl
        rw [this, flookup_ferase, if_neg hmv_ne, flookup_fset, if_pos rfl,
          hik]
      · have hgd2 : (p.entities.set k mv).getD i 0 = p.entities.getD i 0 := by
          rw [List.getD_eq_getElem?_getD, List.getD_eq_getElem?_getD,
            List.getElem?_set_ne (fun hh => hik hh.symm)]
        rw [hgd2]
        have hold := hwf.2.2 i (by omega)
        have hne : p.entities.getD i 0 ≠ e := fun hh => by
          rw [hh, h] at hold
          exact hik (Option.some.inj hold).symm
        have hnm : p.entities.getD i 0 ≠ mv := fun hh => by
          rw [hh, hmv_lookup] at hold
          have := Option.some.inj hold
          omega
        rw [flookup_ferase, if_neg hne, flookup_fset, if_neg hnm]
        exact hold

theorem pool_version_remove {V : Type} (p : Pool V) (e : Nat) :
    (p.remove e).version =
      if p.contains e then bump p.version else p.version := by
  cases h : flookup p.sparse e with
  | none =>
    rw [pool_remove_absent h, Pool.contains, h]
    rfl
  | some k =>
    rw [Pool.contains, h]
    by_cases hcase : k = p.components.length - 1
    · rw [pool_remove_eq_last h hcase]
      rfl
    · cases hcv : p.components[p.components.length - 1]? with
      | none =>
        show (match flookup p.sparse e with
              | none => p
              | some k => _).version = _
        rw [h]
        simp only [if_neg hcase, hcv]
        rfl
      | some cv =>
        cases hmv : p.entities[p.components.length - 1]? with
        | none =>
          show (match flookup p.sparse e with
                | none => p
                | some k => _).version = _
          rw [h]
          simp only [if_neg hcase, hcv, hmv]
          rfl
        | some mv =>
          rw [pool_remove_eq_swap h hcase hcv hmv]
          rfl

theorem pool_clear_spec {V : Type} {p : Pool V} (hwf : PoolWF p) :
    (p.clear).version = bump p.version ∧
    (p.clear).entities = [] ∧
    (p.clear).components = [] ∧
    (∀ e, flookup (p.clear).sparse e = none) ∧
    PoolWF p.clear := by
  refine ⟨rfl, rfl, rfl, ?_, rfl, ?_, ?_⟩
  · intro e
    show flookup (p.entities.foldl (fun s e => ferase s e) p.sparse) e = none
    rw [flookup_foldl_ferase]
    by_cases hm : e ∈ p.entities
    · rw [if_pos hm]
    · rw [if_neg hm]
      cases hl : flookup p.sparse e with
      | none => rfl
      | some j =>
        obtain ⟨hj_lt, hj_ent⟩ := hwf.lookup_lt hl
        exact absurd (List.getElem?_mem hj_ent) hm
  · intro pr hpr
    obtain ⟨hpr, hprm⟩ := mem_foldl_ferase hpr
    obtain ⟨h1, h2⟩ := hwf.2.1 pr hpr
    exact absurd (List.getElem?_mem h2) hprm
  · intro i hi
    exact absurd hi (Nat.not_lt_zero i)


theorem run_append {V : Type} (me : Nat) (l1 l2 : List (Op V)) (r : Reg V) :
    run me (l1 ++ l2) r =
      match run me l1 r with
      | none => none
      | some r' => run me l2 r' := by
  induction l1 generalizing r with
  | nil => rfl
  | cons op l1 ih =>
    show run me (op :: (l1 ++ l2)) r = _
    cases h : step me r op with
    | none => simp only [run, h]
    | some r' => simp only [run, h]; exact ih r'

theorem initReg_eq_cons (V : Type) :
    initReg V MAX_ENTITIES =
      { pools := []
        available := 0 :: List.range' 1 999999
        destroyQ := []
        alive := []
        signatures := []
        indices := []
        views := [] } := by
  rw [initReg, MAX_ENTITIES, List.range_eq_range']
  rfl

theorem range'_1_999999 : List.range' 1 999999 = 1 :: List.range' 2 999998 :=
  List.range'_succ 1 999998 1

theorem range'_2_999998 : List.range' 2 999998 = 2 :: List.range' 3 999997 :=
  List.range'_succ 2 999997 1

theorem c1CexOps_run :
    run MAX_ENTITIES c1CexOps (initReg Nat MAX_ENTITIES) =
      some { pools := [some ⟨2, [], [], []⟩]
             available := List.range' 1 999999
             destroyQ := []
             alive := [0]
             signatures := [(0, 1)]
             indices := [(0, 0)]
             views := [] } := by
  rw [initReg_eq_cons]
  rfl

theorem c3OpsA_run :
    run MAX_ENTITIES c3OpsA (initReg String MAX_ENTITIES) =
      some { pools := [some ⟨1, ["Tom"], [0], [(0, 0)]⟩]
             available := List.range' 1 999999
             destroyQ := []
             alive := [0]
             signatures := [(0, 1)]
             indices := [(0, 0)]
             views := [] } := by
  rw [initReg_eq_cons]
  rfl

theorem c3Ops_run :
    run MAX_ENTITIES c3Ops (initReg String MAX_ENTITIES) =
      some { pools := [some ⟨2, [], [], []⟩]
             available := List.range' 1 999999 ++ [0]
             destroyQ := []
             alive := []
             signatures := [(0, 0)]
             indices := []
             views := [] } := by
  rw [c3Ops, run_append, c3OpsA_run]
  rfl

theorem c2CexOps_run :
    run MAX_ENTITIES c2CexOps (initReg Nat MAX_ENTITIES) =
      some { pools := [some ⟨2, [], [], []⟩, some ⟨1, [2], [0], [(0, 0)]⟩]
             available := List.range' 1 999999
             destroyQ := []
             alive := [0]
             signatures := [(0, 3)]
             indices := [(0, 0)]
             views := [] } := by
  rw [initReg_eq_cons]
  rfl


theorem bump_of_lt {v : Nat} (h : v < U64_MAX) : bump v = v + 1 := by
  rw [bump]
  exact Nat.mod_eq_of_lt (by rw [U64_MAX] at h; rw [U64_MOD]; omega)

theorem bump_le (v : Nat) : bump v ≤ v + 1 := Nat.mod_le _ _

theorem pstep_version_le {V : Type} (p : Pool V) (op : PoolOp V) :
    (pstep p op).version ≤ p.version + 1 := by
  cases op with
  | padd e v =>
    show (p.add e v).version ≤ _
    rw [pool_version_add]
    by_cases hc : p.contains e
    · rw [if_pos hc]
      omega
    · rw [if_neg hc]
      exact bump_le _
  | premove e =>
    show (p.remove e).version ≤ _
    rw [pool_version_remove]
    by_cases hc : p.contains e
    · rw [if_pos hc]
      exact bump_le _
    · rw [if_neg hc]
      omega
  | pclear => exact bump_le _

theorem prun_append {V : Type} (l1 l2 : List (PoolOp V)) (p : Pool V) :
    prun (l1 ++ l2) p = prun l2 (prun l1 p) :=
  List.foldl_append _ _ _ _

theorem prun_version_le {V : Type} (l : List (PoolOp V)) (p : Pool V) :
    (prun l p).version ≤ p.version + l.length := by
  induction l generalizing p with
  | nil => exact Nat.le_add_right _ _
  | cons op l ih =>
    show (prun l (pstep p op)).version ≤ _
    calc (prun l (pstep p op)).version
        ≤ (pstep p op).version + l.length := ih _
      _ ≤ (p.version + 1) + l.length :=
          Nat.add_le_add_right (pstep_version_le p op) _
      _ = p.version + (op :: l).length := by
          rw [List.length_cons]
          omega

theorem pstep_version_ge {V : Type} (p : Pool V) (op : PoolOp V)
    (h : p.version < U64_MAX) : p.version ≤ (pstep p op).version := by
  cases op with
  | padd e v =>
    show p.version ≤ (p.add e v).version
    rw [pool_version_add]
    by_cases hc : p.contains e
    · rw [if_pos hc]
    · rw [if_neg hc, bump_of_lt h]
      omega
  | premove e =>
    show p.version ≤ (p.remove e).version
    rw [pool_version_remove]
    by_cases hc : p.contains e
    · rw [if_pos hc, bump_of_lt h]
      omega
    · rw [if_neg hc]
  | pclear =>
    show p.version ≤ bump p.version
    rw [bump_of_lt h]
    omega

theorem prun_version_mono {V : Type} (l : List (PoolOp V)) (p : Pool V)
    (h : p.version + l.length < U64_MAX) :
    p.version ≤ (prun l p).version := by
  induction l generalizing p with
  | nil => exact Nat.le_refl _
  | cons op l ih =>
    show p.version ≤ (prun l (pstep p op)).version
    have h1 : p.version < U64_MAX := by
      rw [List.length_cons] at h
      omega
    refine Nat.le_trans (pstep_version_ge p op h1) (ih _ ?_)
    have := pstep_version_le p op
    rw [List.length_cons] at h
    omega

theorem prun_pairsP (k : Nat) (v0 : Nat) (h : v0 < U64_MOD) :
    prun (pairsP k) ⟨v0, [], [], []⟩ =
      (⟨(v0 + 2 * k) % U64_MOD, [], [], []⟩ : Pool Nat) := by
  induction k generalizing v0 with
  | zero =>
    show (⟨v0, [], [], []⟩ : Pool Nat) = _
    rw [Nat.mul_zero, Nat.add_zero, Nat.mod_eq_of_lt h]
  | succ k ih =>
    show prun (PoolOp.padd 0 0 :: PoolOp.premove 0 :: pairsP k) _ = _
    have h1 : pstep (⟨v0, [], [], []⟩ : Pool Nat) (PoolOp.padd 0 0) =
        ⟨(v0 + 1) % U64_MOD, [0], [0], [(0, 0)]⟩ := rfl
    have h2 : pstep (⟨(v0 + 1) % U64_MOD, [0], [0], [(0, 0)]⟩ : Pool Nat)
        (PoolOp.premove 0) = ⟨((v0 + 1) % U64_MOD + 1) % U64_MOD, [], [], []⟩ := rfl
    show prun (pairsP k)
      (pstep (pstep (⟨v0, [], [], []⟩ : Pool Nat) (PoolOp.padd 0 0))
        (PoolOp.premove 0)) = _
    rw [h1, h2, Nat.mod_add_mod]
    rw [ih ((v0 + 1 + 1) % U64_MOD) (Nat.mod_lt _ (by decide))]
    have harith : v0 + 1 + 1 + 2 * k = v0 + 2 * (k + 1) := by omega
    rw [Nat.mod_add_mod, harith]

/-! ## Claim theorems -/

/-! ## Registry invariant lemmas -/

theorem RegWF0.idx_spec {V : Type} {me : Nat} {r : Reg V}
    (h : RegWF0 me r) {e i : Nat} (hi : r.idx e = some i) :
    i < r.alive.length ∧ r.alive[i]? = some e ∧ e < me :=
  h.1 (e, i) (flookup_mem hi)

theorem RegWF0.alive_idx {V : Type} {me : Nat} {r : Reg V}
    (h : RegWF0 me r) {i e : Nat} (hi : r.alive[i]? = some e) :
    r.idx e = some i := by
  have hlt : i < r.alive.length := by
    by_contra hc
    rw [List.getElem?_eq_none (Nat.le_of_not_lt hc)] at hi
    exact Option.noConfusion hi
  have := h.2.1 i hlt
  rwa [List.getD_eq_getElem?_getD, hi] at this

theorem RegWF0.mem_alive_iff {V : Type} {me : Nat} {r : Reg V}
    (h : RegWF0 me r) (e : Nat) :
    e ∈ r.alive ↔ (r.idx e).isSome = true := by
  constructor
  · intro hm
    obtain ⟨i, hi⟩ := List.mem_iff_getElem?.mp hm
    rw [h.alive_idx hi]
    rfl
  · intro hs
    obtain ⟨i, hi⟩ := Option.isSome_iff_exists.mp hs
    obtain ⟨h1, h2, h3⟩ := h.idx_spec hi
    exact List.mem_iff_getElem?.mpr ⟨i, h2⟩

theorem RegWF0.poolAt_inv {V : Type} {me : Nat} {r : Reg V}
    (h : RegWF0 me r) {c : Nat} {p : Pool V} (hp : r.poolAt c = some p) :
    PoolWF p ∧ ∀ e ∈ p.entities, (flookup r.indices e).isSome = true := by
  have hc : c < r.pools.length := by
    by_contra hcc
    rw [Reg.poolAt, List.getD_eq_getElem?_getD,
      List.getElem?_eq_none (Nat.le_of_not_lt hcc)] at hp
    exact Option.noConfusion hp
  have hmem : (some p) ∈ r.pools := by
    rw [Reg.poolAt, List.getD_eq_getElem?_getD] at hp
    cases hq : r.pools[c]? with
    | none => rw [hq] at hp; exact Option.noConfusion hp
    | some op =>
      rw [hq] at hp
      show some p ∈ r.pools
      have : op = some p := hp
      rw [← this]
      exact List.getElem?_mem hq
  exact h.2.2.2.1 (some p) hmem

theorem sigAgree_bit_lt {V : Type} {r : Reg V} (hs : SigAgree r)
    {e c : Nat} (hb : Nat.testBit (r.sig e) c = true) :
    ∃ p, r.poolAt c = some p ∧ p.contains e = true :=
  (hs e c).mp hb

/-! ## Per-operation invariant preservation -/

theorem poolAt_set {V : Type} (r : Reg V) (c : Nat) (op : Option (Pool V))
    (hc : c < r.pools.length) (c2 : Nat) :
    ({ r with pools := r.pools.set c op } : Reg V).poolAt c2 =
      if c2 = c then op else r.poolAt c2 := by
  show (r.pools.set c op).getD c2 none = _
  by_cases h : c2 = c
  · rw [if_pos h, h, List.getD_eq_getElem?_getD, List.getElem?_set_self hc]
    rfl
  · rw [if_neg h, List.getD_eq_getElem?_getD,
      List.getElem?_set_ne (fun hh => h hh.symm), Reg.poolAt,
      List.getD_eq_getElem?_getD]

theorem valid_spec {V : Type} {me : Nat} {r : Reg V} {e : Nat}
    (h : r.valid me e = true) :
    e < me ∧ (r.idx e).isSome = true := by
  rw [Reg.valid, Bool.and_eq_true] at h
  exact ⟨of_decide_eq_true h.1, h.2⟩

theorem registerC_poolAt {V : Type} {r : Reg V} {c : Nat} {r2 : Reg V}
    (h : r.registerC c = some r2) :
    c < MAX_COMPONENTS ∧
    r2.pools.length ≤ max r.pools.length (c + 1) ∧
    (r2.poolAt c = r.poolAt c ∨
      (r.poolAt c = none ∧ r2.poolAt c = some Pool.empty)) ∧
    (∀ c2, c2 ≠ c → r2.poolAt c2 = r.poolAt c2) ∧
    r2.available = r.available ∧ r2.alive = r.alive ∧
    r2.indices = r.indices ∧ r2.signatures = r.signatures ∧
    r2.destroyQ = r.destroyQ ∧ r2.views = r.views ∧
    (∀ op ∈ r2.pools, op = some Pool.empty ∨ op ∈ r.pools ∨ op = none) := by
  simp only [Reg.registerC] at h
  by_cases hc : MAX_COMPONENTS ≤ c
  · rw [if_pos hc] at h
    exact Option.noConfusion h
  · rw [if_neg hc] at h
    refine ⟨Nat.lt_of_not_le hc, ?_⟩
    set ps := if r.pools.length ≤ c then
        r.pools ++ List.replicate (c + 1 - r.pools.length) none
      else r.pools with hps
    have hps_len : ps.length = max r.pools.length (c + 1) := by
      rw [hps]
      by_cases hl : r.pools.length ≤ c
      · rw [if_pos hl, List.length_append, List.length_replicate]
        omega
      · rw [if_neg hl]
        omega
    have hps_at : ∀ c2, ps.getD c2 none = r.poolAt c2 := by
      intro c2
      rw [hps]
      by_cases hl : r.pools.length ≤ c
      · rw [if_pos hl, Reg.poolAt, List.getD_eq_getElem?_getD,
          List.getD_eq_getElem?_getD]
        rcases Nat.lt_or_ge c2 r.pools.length with h2 | h2
        · rw [List.getElem?_append_left h2]
        · rw [List.getElem?_eq_none h2]
          cases hq : (r.pools ++ List.replicate (c + 1 - r.pools.length)
              none)[c2]? with
          | none => rfl
          | some op =>
            have hm := List.getElem?_mem hq
            rcases List.mem_append.mp hm with hm | hm
            · have := List.getElem?_eq_none (le_refl r.pools.length)
              rcases List.mem_iff_getElem?.mp hm with ⟨j, hj⟩
              have hjl : j < r.pools.length := by
                by_contra hcc
                rw [List.getElem?_eq_none (Nat.le_of_not_lt hcc)] at hj
                exact Option.noConfusion hj
              -- op appears in the appended list only past the original
              -- length, so it must come from the replicate part
              have hq2 := hq
              rw [List.getElem?_append_right h2, List.getElem?_replicate] at hq2
              by_cases hr : c2 - r.pools.length < c + 1 - r.pools.length
              · rw [if_pos hr] at hq2
                rw [← Option.some.inj hq2]
                rfl
              · rw [if_neg hr] at hq2
                exact Option.noConfusion hq2
            · have := List.eq_of_mem_replicate hm
              rw [this]
              rfl
      · rw [if_neg hl]
        rfl
    by_cases hs : (ps.getD c none).isSome
    · rw [if_pos hs] at h
      have hr2 : r2.pools = ps := by
        have := Option.some.inj h
        rw [← this]
      refine ⟨?_, ?_, ?_, ?_⟩
      · rw [hr2, hps_len]
      · left
        show r2.pools.getD c none = _
        rw [hr2, hps_at]
      · intro c2 _
        show r2.pools.getD c2 none = _
        rw [hr2, hps_at]
      · rw [← Option.some.inj h]
        refine ⟨rfl, rfl, rfl, rfl, rfl, rfl, ?_⟩
        intro op hop
        replace hop : op ∈ ps := hop
        rw [hps] at hop
        by_cases hl : r.pools.length ≤ c
        · rw [if_pos hl] at hop
          rcases List.mem_append.mp hop with hm | hm
          · exact Or.inr (Or.inl hm)
          · exact Or.inr (Or.inr (List.eq_of_mem_replicate hm))
        · rw [if_neg hl] at hop
          exact Or.inr (Or.inl hop)
    · rw [if_neg hs] at h
      have hr2 : r2.pools = ps.set c (some Pool.empty) := by
        have := Option.some.inj h
        rw [← this]
      have hclt : c < ps.length := by
        rw [hps_len]
        omega
      refine ⟨?_, ?_, ?_, ?_⟩
      · rw [hr2, List.length_set, hps_len]
      · right
        constructor
        · rw [← hps_at c]
          exact Option.not_isSome_iff_eq_none.mp hs
        · show r2.pools.getD c none = _
          rw [hr2, List.getD_eq_getElem?_getD, List.getElem?_set_self hclt]
          rfl
      · intro c2 h2
        show r2.pools.getD c2 none = _
        rw [hr2, List.getD_eq_getElem?_getD,
          List.getElem?_set_ne (fun hh => h2 hh.symm), ← hps_at c2,
          List.getD_eq_getElem?_getD]
      · rw [← Option.some.inj h]
        refine ⟨rfl, rfl, rfl, rfl, rfl, rfl, ?_⟩
        intro op hop
        replace hop : op ∈ ps.set c (some Pool.empty) := hop
        rcases List.mem_or_eq_of_mem_set hop with hm | hm
        · rw [hps] at hm
          by_cases hl : r.pools.length ≤ c
          · rw [if_pos hl] at hm
            rcases List.mem_append.mp hm with hm2 | hm2
            · exact Or.inr (Or.inl hm2)
            · exact Or.inr (Or.inr (List.eq_of_mem_replicate hm2))
          · rw [if_neg hl] at hm
            exact Or.inr (Or.inl hm)
        · exact Or.inl hm

theorem sig_fset_self {V : Type} (r : Reg V) (e v : Nat) :
    ({ r with signatures := fset r.signatures e v } : Reg V).sig e = v := by
  show (flookup (fset r.signatures e v) e).getD 0 = v
  rw [flookup_fset, if_pos rfl]
  rfl

theorem sig_fset_ne {V : Type} (r : Reg V) (e v e2 : Nat) (h : e2 ≠ e) :
    ({ r with signatures := fset r.signatures e v } : Reg V).sig e2 =
      r.sig e2 := by
  show (flookup (fset r.signatures e v) e2).getD 0 = _
  rw [flookup_fset, if_neg h]
  rfl

theorem inv_registerC {V : Type} {me : Nat} {r r2 : Reg V} {c : Nat}
    (hw : RegWF0 me r) (h : r.registerC c = some r2) :
    RegWF0 me r2 ∧ (SigAgree r → SigAgree r2) := by
  obtain ⟨hc, hlen, hat, hne, hav, hal, hind, hsig, hq, hv, hmem⟩ :=
    registerC_poolAt h
  constructor
  · refine ⟨?_, ?_, ?_, ?_, ?_, ?_, ?_, ?_⟩
    · rw [hind, hal]
      exact hw.1
    · rw [hind, hal]
      exact hw.2.1
    · refine Nat.le_trans hlen ?_
      have := hw.2.2.1
      rw [MAX_COMPONENTS] at this ⊢
      rw [MAX_COMPONENTS] at hc
      omega
    · intro op hop
      rw [hind]
      rcases hmem op hop with hm | hm | hm
      · rw [hm]
        exact ⟨poolWF_empty, fun e he => absurd he (List.not_mem_nil e)⟩
      · exact hw.2.2.2.1 op hm
      · rw [hm]
        trivial
    · rw [hsig]
      exact hw.2.2.2.2.1
    · rw [hav]
      exact hw.2.2.2.2.2.1
    · rw [hav, hind]
      exact hw.2.2.2.2.2.2.1
    · rw [hav]
      exact hw.2.2.2.2.2.2.2
  · intro hs e c2
    have hsigeq : r2.sig e = r.sig e := by
      rw [Reg.sig, Reg.sig, hsig]
    rw [hsigeq]
    by_cases h2 : c2 = c
    · subst h2
      rcases hat with hat | ⟨hnone, hat⟩
      · rw [hat]
        exact hs e c2
      · rw [hat]
        constructor
        · intro hb
          obtain ⟨p, hp, hcp⟩ := (hs e c2).mp hb
          rw [hnone] at hp
          exact Option.noConfusion hp
        · rintro ⟨p, hp, hcp⟩
          have : p = Pool.empty := (Option.some.inj hp).symm
          rw [this] at hcp
          exact Bool.noConfusion hcp
    · rw [hne c2 h2]
      exact hs e c2

theorem inv_create {V : Type} {me : Nat} {r : Reg V}
    (hw : RegWF0 me r) :
    RegWF0 me (r.create).2 ∧ (SigAgree r → SigAgree (r.create).2) := by
  cases hav : r.available with
  | nil =>
    rw [Reg.create, hav]
    exact ⟨hw, fun hs => hs⟩
  | cons e rest =>
    rw [Reg.create, hav]
    have he_lt : e < me := hw.2.2.2.2.2.1 e (hav ▸ List.mem_cons_self e rest)
    have he_idx : flookup r.indices e = none :=
      hw.2.2.2.2.2.2.1 e (hav ▸ List.mem_cons_self e rest)
    have hnodup : (e :: rest).Nodup := hav ▸ hw.2.2.2.2.2.2.2
    constructor
    · refine ⟨?_, ?_, hw.2.2.1, ?_, hw.2.2.2.2.1, ?_, ?_, ?_⟩
      · intro pr hpr
        show pr.2 < (r.alive ++ [e]).length ∧
          (r.alive ++ [e])[pr.2]? = some pr.1 ∧ pr.1 < me
        rw [List.length_append, List.length_singleton]
        rcases mem_fset.mp hpr with hpr | ⟨hpr, hne⟩
        · rw [hpr]
          refine ⟨Nat.lt_succ_self _, ?_, he_lt⟩
          exact List.getElem?_concat_length r.alive e
        · obtain ⟨h1, h2, h3⟩ := hw.1 pr hpr
          exact ⟨Nat.lt_succ_of_lt h1,
            by rw [List.getElem?_append_left h1]; exact h2, h3⟩
      · intro i hi
        show flookup (fset r.indices e r.alive.length)
          ((r.alive ++ [e]).getD i 0) = some i
        rw [List.length_append, List.length_singleton] at hi
        rcases Nat.lt_or_ge i r.alive.length with hlt | hge
        · have hgd : (r.alive ++ [e]).getD i 0 = r.alive.getD i 0 := by
            rw [List.getD_eq_getElem?_getD, List.getD_eq_getElem?_getD,
              List.getElem?_append_left hlt]
          rw [hgd, flookup_fset]
          have hold := hw.2.1 i hlt
          have hne : r.alive.getD i 0 ≠ e := fun hh => by
            rw [hh, he_idx] at hold
            exact Option.noConfusion hold
          rw [if_neg hne]
          exact hold
        · have hieq : i = r.alive.length := by omega
          rw [hieq]
          have hgd : (r.alive ++ [e]).getD r.alive.length 0 = e := by
            rw [List.getD_eq_getElem?_getD, List.getElem?_concat_length]
            rfl
          rw [hgd, flookup_fset, if_pos rfl]
      · intro op hop
        have := hw.2.2.2.1 op hop
        cases op with
        | none => trivial
        | some p =>
          refine ⟨this.1, ?_⟩
          intro e2 he2
          have := this.2 e2 he2
          show (flookup (fset r.indices e r.alive.length) e2).isSome = true
          rw [flookup_fset]
          by_cases h2 : e2 = e
          · rw [if_pos h2]
            rfl
          · rw [if_neg h2]
            exact this
      · intro a ha
        exact hw.2.2.2.2.2.1 a
          (hav ▸ List.mem_cons_of_mem e ha)
      · intro a ha
        show flookup (fset r.indices e r.alive.length) a = none
        rw [flookup_fset]
        have hane : a ≠ e := fun hh => (List.nodup_cons.mp hnodup).1 (hh ▸ ha)
        rw [if_neg hane]
        exact hw.2.2.2.2.2.2.1 a (hav ▸ List.mem_cons_of_mem e ha)
      · exact (List.nodup_cons.mp hnodup).2
    · intro hs e2 c2
      show Nat.testBit ((flookup r.signatures e2).getD 0) c2 = true ↔
        ∃ p, r.pools.getD c2 none = some p ∧ p.contains e2 = true
      exact hs e2 c2

theorem inv_destroySubmit {V : Type} {me : Nat} {r : Reg V} {e : Nat}
    (hw : RegWF0 me r) :
    RegWF0 me (r.destroySubmit me e) ∧
      (SigAgree r → SigAgree (r.destroySubmit me e)) := by
  rw [Reg.destroySubmit]
  by_cases hv : r.valid me e
  · rw [if_pos hv]
    exact ⟨hw, fun hs => hs⟩
  · rw [if_neg hv]
    exact ⟨hw, fun hs => hs⟩

theorem getD_set {A : Type} (l : List (Option A)) (c : Nat)
    (op : Option A) (hc : c < l.length) (c2 : Nat) :
    (l.set c op).getD c2 none = if c2 = c then op else l.getD c2 none := by
  by_cases h : c2 = c
  · rw [if_pos h, h, List.getD_eq_getElem?_getD, List.getElem?_set_self hc]
    rfl
  · rw [if_neg h, List.getD_eq_getElem?_getD,
      List.getElem?_set_ne (fun hh => h hh.symm), List.getD_eq_getElem?_getD]

theorem poolAt_lt {V : Type} {r : Reg V} {c : Nat} {p : Pool V}
    (h : r.poolAt c = some p) : c < r.pools.length := by
  by_contra hc
  rw [Reg.poolAt, List.getD_eq_getElem?_getD,
    List.getElem?_eq_none (Nat.le_of_not_lt hc)] at h
  exact Option.noConfusion h

theorem poolAt_ge {V : Type} (r : Reg V) {c : Nat}
    (h : r.pools.length ≤ c) : r.poolAt c = none := by
  rw [Reg.poolAt, List.getD_eq_getElem?_getD, List.getElem?_eq_none h]
  rfl

theorem sig_lt_mod {V : Type} {me : Nat} {r : Reg V} (hw : RegWF0 me r)
    (e : Nat) : r.sig e < U64_MOD := by
  rw [Reg.sig]
  cases hl : flookup r.signatures e with
  | none =>
    show (0 : Nat) < U64_MOD
    decide
  | some x =>
    exact hw.2.2.2.2.1 (e, x) (flookup_mem hl)

theorem inv_addComp {V : Type} {me : Nat} {r r2 : Reg V} {c e : Nat}
    {v : V} (hw : RegWF0 me r)
    (h : r.addComp me c e v = some r2) :
    RegWF0 me r2 ∧ (SigAgree r → SigAgree r2) := by
  rw [Reg.addComp] at h
  by_cases hv : r.valid me e
  · rw [if_pos hv] at h
    cases hp : r.poolAt c with
    | none =>
      rw [hp] at h
      exact Option.noConfusion h
    | some p =>
      rw [hp] at h
      have hr2 := (Option.some.inj h).symm
      subst hr2
      have hc_lt : c < r.pools.length := poolAt_lt hp
      have hc64 : c < 64 := by
        have := hw.2.2.1
        rw [MAX_COMPONENTS] at this
        omega
      have hpinv := hw.poolAt_inv hp
      have hbit_lt : (1 <<< c) < U64_MOD := by
        rw [Nat.one_shiftLeft, U64_MOD]
        exact Nat.pow_lt_pow_right (by omega) hc64
      constructor
      · refine ⟨hw.1, hw.2.1, ?_, ?_, ?_, hw.2.2.2.2.2.1,
          hw.2.2.2.2.2.2.1, hw.2.2.2.2.2.2.2⟩
        · show (r.pools.set c (some (p.add e v))).length ≤ MAX_COMPONENTS
          rw [List.length_set]
          exact hw.2.2.1
        · intro op hop
          replace hop : op ∈ r.pools.set c (some (p.add e v)) := hop
          rcases List.mem_or_eq_of_mem_set hop with hm | hm
          · exact hw.2.2.2.1 op hm
          · rw [hm]
            refine ⟨poolWF_add hpinv.1 e v, ?_⟩
            intro e2 he2
            rw [pool_entities_add] at he2
            by_cases hcont : p.contains e
            · rw [if_pos hcont] at he2
              exact hpinv.2 e2 he2
            · rw [if_neg hcont] at he2
              rcases List.mem_append.mp he2 with hm2 | hm2
              · exact hpinv.2 e2 hm2
              · have : e2 = e := List.mem_singleton.mp hm2
                rw [this]
                exact (valid_spec hv).2
        · intro pr hpr
          replace hpr : pr ∈ fset r.signatures e (r.sig e ||| (1 <<< c)) :=
            hpr
          rcases mem_fset.mp hpr with hpr | ⟨hpr, hne⟩
          · rw [hpr]
            show r.sig e ||| (1 <<< c) < U64_MOD
            rw [U64_MOD] at hbit_lt ⊢
            exact Nat.or_lt_two_pow
              (by rw [← U64_MOD]; exact sig_lt_mod hw e) hbit_lt
          · exact hw.2.2.2.2.1 pr hpr
      · intro hs e2 c2
        have hsig2 : ({ r with
            pools := r.pools.set c (some (p.add e v)),
            signatures := fset r.signatures e (r.sig e ||| (1 <<< c)) } :
              Reg V).sig e2 =
            if e2 = e then r.sig e ||| (1 <<< c) else r.sig e2 := by
          show (flookup (fset r.signatures e _) e2).getD 0 = _
          rw [flookup_fset]
          by_cases h2 : e2 = e
          · rw [if_pos h2, if_pos h2]
            rfl
          · rw [if_neg h2, if_neg h2]
            rfl
        have hpool2 : ∀ c2, ({ r with
            pools := r.pools.set c (some (p.add e v)),
            signatures := fset r.signatures e (r.sig e ||| (1 <<< c)) } :
              Reg V).poolAt c2 =
            if c2 = c then some (p.add e v) else r.poolAt c2 := by
          intro c3
          show (r.pools.set c (some (p.add e v))).getD c3 none = _
          rw [getD_set _ _ _ hc_lt]
          rfl
        rw [hsig2, hpool2]
        by_cases h2 : e2 = e
        · rw [if_pos h2]
          by_cases h3 : c2 = c
          · rw [if_pos h3, h3, Nat.testBit_or, Nat.one_shiftLeft,
              Nat.testBit_two_pow_self, Bool.or_true]
            constructor
            · intro _
              exact ⟨p.add e v, rfl, h2 ▸ pool_contains_add_self p e v⟩
            · intro _
              rfl
          · rw [if_neg h3, Nat.testBit_or, Nat.one_shiftLeft,
              Nat.testBit_two_pow_of_ne (fun hh => h3 hh.symm),
              Bool.or_false, h2]
            exact hs e c2
        · rw [if_neg h2]
          by_cases h3 : c2 = c
          · rw [if_pos h3, h3]
            constructor
            · intro hb
              obtain ⟨p3, hp3, hcp3⟩ := (hs e2 c).mp (h3 ▸ hb)
              rw [hp] at hp3
              have : p3 = p := (Option.some.inj hp3).symm
              rw [this] at hcp3
              refine ⟨p.add e v, rfl, ?_⟩
              rw [Pool.contains, pool_lookup_add_ne h2]
              exact hcp3
            · rintro ⟨p3, hp3, hcp3⟩
              have : p3 = p.add e v := (Option.some.inj hp3).symm
              rw [this, Pool.contains, pool_lookup_add_ne h2] at hcp3
              exact (hs e2 c).mpr ⟨p, hp, hcp3⟩
          · rw [if_neg h3]
            exact hs e2 c2
  · rw [if_neg hv] at h
    have := Option.some.inj h
    rw [← this]
    exact ⟨hw, fun hs => hs⟩

theorem inv_removeComp {V : Type} {me : Nat} {r r2 : Reg V} {c e : Nat}
    (hw : RegWF0 me r)
    (h : r.removeComp me c e = some r2) :
    RegWF0 me r2 ∧ (SigAgree r → SigAgree r2) := by
  rw [Reg.removeComp] at h
  by_cases hv : r.valid me e
  · rw [if_pos hv] at h
    cases hp : r.poolAt c with
    | none =>
      rw [hp] at h
      exact Option.noConfusion h
    | some p =>
      rw [hp] at h
      have hr2 := (Option.some.inj h).symm
      subst hr2
      have hc_lt : c < r.pools.length := poolAt_lt hp
      have hc64 : c < 64 := by
        have := hw.2.2.1
        rw [MAX_COMPONENTS] at this
        omega
      have hpinv := hw.poolAt_inv hp
      have hwf_rm : PoolWF (p.remove e) := by
        cases hl : flookup p.sparse e with
        | none =>
          rw [pool_remove_absent hl]
          exact hpinv.1
        | some k => exact (pool_remove_spec hpinv.1 hl).2.2.2.2.2.2
      have hcont_rm : ∀ e2, e2 ≠ e →
          (p.remove e).contains e2 = p.contains e2 := by
        intro e2 he2
        cases hl : flookup p.sparse e with
        | none => rw [pool_remove_absent hl]
        | some k => exact (pool_remove_spec hpinv.1 hl).2.2.2.2.1 e2 he2
      have hcont_self : (p.remove e).contains e = false := by
        cases hl : flookup p.sparse e with
        | none =>
          rw [pool_remove_absent hl, Pool.contains, hl]
          rfl
        | some k =>
          rw [Pool.contains, (pool_remove_spec hpinv.1 hl).2.2.2.1]
          rfl
      constructor
      · refine ⟨hw.1, hw.2.1, ?_, ?_, ?_, hw.2.2.2.2.2.1,
          hw.2.2.2.2.2.2.1, hw.2.2.2.2.2.2.2⟩
        · show (r.pools.set c (some (p.remove e))).length ≤ MAX_COMPONENTS
          rw [List.length_set]
          exact hw.2.2.1
        · intro op hop
          replace hop : op ∈ r.pools.set c (some (p.remove e)) := hop
          rcases List.mem_or_eq_of_mem_set hop with hm | hm
          · exact hw.2.2.2.1 op hm
          · rw [hm]
            refine ⟨hwf_rm, ?_⟩
            intro e2 he2
            have hlk := hwf_rm.dense_lookup
              (List.mem_iff_getElem?.mp he2).choose_spec
            have hcontains2 : (p.remove e).contains e2 = true := by
              rw [Pool.contains, hlk]
              rfl
            have he2ne : e2 ≠ e := fun hh => by
              rw [hh, hcont_self] at hcontains2
              exact Bool.noConfusion hcontains2
            have : p.contains e2 = true := by
              rw [← hcont_rm e2 he2ne]
              exact hcontains2
            rw [Pool.contains] at this
            obtain ⟨j, hj⟩ := Option.isSome_iff_exists.mp this
            have := (hpinv.1.lookup_lt hj).2
            exact hpinv.2 e2 (List.getElem?_mem this)
        · intro pr hpr
          replace hpr : pr ∈ fset r.signatures e
            (r.sig e &&& (U64_MAX ^^^ (1 <<< c))) := hpr
          rcases mem_fset.mp hpr with hpr | ⟨hpr, hne⟩
          · rw [hpr]
            show r.sig e &&& (U64_MAX ^^^ (1 <<< c)) < U64_MOD
            exact Nat.lt_of_le_of_lt (Nat.and_le_left) (sig_lt_mod hw e)
          · exact hw.2.2.2.2.1 pr hpr
      · intro hs e2 c2
        have hsig2 : ({ r with
            pools := r.pools.set c (some (p.remove e)),
            signatures := fset r.signatures e
              (r.sig e &&& (U64_MAX ^^^ (1 <<< c))) } : Reg V).sig e2 =
            if e2 = e then r.sig e &&& (U64_MAX ^^^ (1 <<< c))
            else r.sig e2 := by
          show (flookup (fset r.signatures e _) e2).getD 0 = _
          rw [flookup_fset]
          by_cases h2 : e2 = e
          · rw [if_pos h2, if_pos h2]
            rfl
          · rw [if_neg h2, if_neg h2]
            rfl
        have hpool2 : ∀ c3, ({ r with
            pools := r.pools.set c (some (p.remove e)),
            signatures := fset r.signatures e
              (r.sig e &&& (U64_MAX ^^^ (1 <<< c))) } : Reg V).poolAt c3 =
            if c3 = c then some (p.remove e) else r.poolAt c3 := by
          intro c3
          show (r.pools.set c (some (p.remove e))).getD c3 none = _
          rw [getD_set _ _ _ hc_lt]
          rfl
        rw [hsig2, hpool2]
        have hmaskbit : ∀ c3, Nat.testBit (U64_MAX ^^^ (1 <<< c)) c3 =
            if c3 = c then false else decide (c3 < 64) := by
          intro c3
          rw [Nat.one_shiftLeft, Nat.testBit_xor, U64_MAX,
            Nat.testBit_two_pow_sub_one]
          by_cases h3 : c3 = c
          · rw [if_pos h3, h3, Nat.testBit_two_pow_self,
              decide_eq_true hc64]
            rfl
          · rw [if_neg h3,
              Nat.testBit_two_pow_of_ne (fun hh => h3 hh.symm)]
            cases hd : decide (c3 < 64) <;> rfl
        by_cases h2 : e2 = e
        · rw [if_pos h2]
          by_cases h3 : c2 = c
          · rw [if_pos h3, h3, Nat.testBit_and, hmaskbit, if_pos rfl,
              Bool.and_false]
            constructor
            · intro hb
              exact Bool.noConfusion hb
            · rintro ⟨p3, hp3, hcp3⟩
              have : p3 = p.remove e := (Option.some.inj hp3).symm
              rw [this, h2, hcont_self] at hcp3
              exact Bool.noConfusion hcp3
          · rw [if_neg h3, Nat.testBit_and, hmaskbit, if_neg h3]
            rcases Nat.lt_or_ge c2 64 with h64 | h64
            · rw [decide_eq_true h64, Bool.and_true, h2]
              exact hs e c2
            · rw [decide_eq_false (by omega), Bool.and_false]
              have hnone : r.poolAt c2 = none := by
                refine poolAt_ge r ?_
                have := hw.2.2.1
                rw [MAX_COMPONENTS] at this
                omega
              rw [hnone]
              constructor
              · intro hb
                exact Bool.noConfusion hb
              · rintro ⟨p3, hp3, _⟩
                exact Option.noConfusion hp3
        · rw [if_neg h2]
          by_cases h3 : c2 = c
          · rw [if_pos h3, h3]
            constructor
            · intro hb
              obtain ⟨p3, hp3, hcp3⟩ := (hs e2 c).mp (h3 ▸ hb)
              rw [hp] at hp3
              have : p3 = p := (Option.some.inj hp3).symm
              rw [this] at hcp3
              refine ⟨p.remove e, rfl, ?_⟩
              rw [hcont_rm e2 h2]
              exact hcp3
            · rintro ⟨p3, hp3, hcp3⟩
              have : p3 = p.remove e := (Option.some.inj hp3).symm
              rw [this, hcont_rm e2 h2] at hcp3
              exact (hs e2 c).mpr ⟨p, hp, hcp3⟩
          · rw [if_neg h3]
            exact hs e2 c2
  · rw [if_neg hv] at h
    have := Option.some.inj h
    rw [← this]
    exact ⟨hw, fun hs => hs⟩

theorem getD_map_opt {A B : Type} (f : A → B) (l : List (Option A))
    (c : Nat) :
    (l.map (Option.map f)).getD c none = (l.getD c none).map f := by
  rw [List.getD_eq_getElem?_getD, List.getD_eq_getElem?_getD,
    List.getElem?_map]
  cases hq : l[c]? with
  | none => rfl
  | some op => cases op <;> rfl

theorem destroyOne_skip {V : Type} {r : Reg V} {e : Nat}
    (h : r.idx e = none) : destroyOne r e = r := by
  rw [destroyOne]
  rw [h]

theorem destroyOne_spec {V : Type} {me : Nat} {r : Reg V} {e ie : Nat}
    (hw : RegWF0 me r) (hie : r.idx e = some ie) :
    (destroyOne r e).idx e = none ∧
    (∀ e2, e2 ≠ e →
      ((destroyOne r e).idx e2).isSome = (r.idx e2).isSome) ∧
    (destroyOne r e).sig e = 0 ∧
    (∀ e2, e2 ≠ e → (destroyOne r e).sig e2 = r.sig e2) ∧
    (∀ c, (destroyOne r e).poolAt c =
      (r.poolAt c).map (fun p => p.remove e)) ∧
    (destroyOne r e).available = r.available ++ [e] ∧
    (destroyOne r e).destroyQ = r.destroyQ ∧
    (destroyOne r e).views = r.views ∧
    (∀ x, x ∈ (destroyOne r e).alive ↔ x ∈ r.alive ∧ x ≠ e) ∧
    RegWF0 me (destroyOne r e) := by
  obtain ⟨hie_lt, hie_ent, he_me⟩ := hw.idx_spec hie
  have hn1 : 1 ≤ r.alive.length := by omega
  have hd1 : destroyOne r e =
      { r with
          alive := (r.alive.set ie (r.alive.getD (r.alive.length - 1) 0)).dropLast
          indices := ferase
            (fset r.indices (r.alive.getD (r.alive.length - 1) 0) ie) e
          signatures := fset r.signatures e 0
          pools := r.pools.map (Option.map (fun p => p.remove e))
          available := r.available ++ [e] } := by
    rw [destroyOne]
    rw [hie]
  have hlast_lt : r.alive.length - 1 < r.alive.length := by omega
  have hmv_ent : r.alive[r.alive.length - 1]? =
      some (r.alive.getD (r.alive.length - 1) 0) := by
    rw [List.getD_eq_getElem?_getD, List.getElem?_eq_getElem hlast_lt]
    rfl
  set mv := r.alive.getD (r.alive.length - 1) 0 with hmv
  have hmv_idx : r.idx mv = some (r.alive.length - 1) :=
    hw.alive_idx hmv_ent
  have hmv_me : mv < me := (hw.idx_spec hmv_idx).2.2
  have hmv_e : mv = e ↔ ie = r.alive.length - 1 := by
    constructor
    · intro hh
      rw [hh, hie] at hmv_idx
      exact Option.some.inj hmv_idx
    · intro hh
      rw [hh] at hie_ent
      rw [hie_ent] at hmv_ent
      exact (Option.some.inj hmv_ent).symm
  have hset_len : (r.alive.set ie mv).length = r.alive.length :=
    List.length_set _ _ _
  have halive2 : ∀ x : Nat,
      x ∈ (r.alive.set ie mv).dropLast ↔ x ∈ r.alive ∧ x ≠ e := by
    intro x
    constructor
    · intro hx
      obtain ⟨i, hi⟩ := List.mem_iff_getElem?.mp hx
      have hi_lt : i < r.alive.length - 1 := by
        have : i < (r.alive.set ie mv).dropLast.length := by
          by_contra hc
          rw [List.getElem?_eq_none (Nat.le_of_not_lt hc)] at hi
          exact Option.noConfusion hi
        rw [List.length_dropLast, hset_len] at this
        exact this
      rw [getElem?_dropLast _ _ (by rw [hset_len]; exact hi_lt)] at hi
      by_cases hieq : i = ie
      · rw [hieq, List.getElem?_set_self (by omega)] at hi
        have hxmv : x = mv := (Option.some.inj hi).symm
        have hmv_ne : mv ≠ e := by
          intro hh
          have := hmv_e.mp hh
          omega
        rw [hxmv]
        exact ⟨List.getElem?_mem hmv_ent, hmv_ne⟩
      · rw [List.getElem?_set_ne (fun hh => hieq hh.symm)] at hi
        refine ⟨List.getElem?_mem hi, ?_⟩
        intro hh
        rw [hh] at hi
        have := hw.alive_idx hi
        rw [hie] at this
        exact hieq (Option.some.inj this).symm
    · rintro ⟨hx, hxe⟩
      obtain ⟨j, hj⟩ := List.mem_iff_getElem?.mp hx
      have hj_idx := hw.alive_idx hj
      have hj_lt : j < r.alive.length := (hw.idx_spec hj_idx).1
      have hj_ie : j ≠ ie := by
        intro hh
        rw [hh] at hj
        rw [hie_ent] at hj
        exact hxe (Option.some.inj hj).symm
      by_cases hjl : j = r.alive.length - 1
      · have hxmv : x = mv := by
          rw [hjl] at hj
          rw [hj] at hmv_ent
          exact Option.some.inj hmv_ent
        have hie_lt1 : ie < r.alive.length - 1 := by
          have : ¬ie = r.alive.length - 1 := fun hh => hj_ie (hh ▸ hjl)
          omega
        refine List.mem_iff_getElem?.mpr ⟨ie, ?_⟩
        rw [getElem?_dropLast _ _ (by rw [hset_len]; exact hie_lt1),
          List.getElem?_set_self (by omega), hxmv]
      · have hjl1 : j < r.alive.length - 1 := by omega
        refine List.mem_iff_getElem?.mpr ⟨j, ?_⟩
        rw [getElem?_dropLast _ _ (by rw [hset_len]; exact hjl1),
          List.getElem?_set_ne (fun hh => hj_ie hh.symm)]
        exact hj
  rw [hd1]
  refine ⟨?_, ?_, ?_, ?_, ?_, rfl, rfl, rfl, halive2, ?_⟩
  · show flookup (ferase (fset r.indices mv ie) e) e = none
    rw [flookup_ferase, if_pos rfl]
  · intro e2 he2
    show (flookup (ferase (fset r.indices mv ie) e) e2).isSome = _
    rw [flookup_ferase, if_neg he2, flookup_fset]
    by_cases h2 : e2 = mv
    · rw [if_pos h2, h2]
      show true = (r.idx mv).isSome
      rw [hmv_idx]
      rfl
    · rw [if_neg h2]
      rfl
  · show (flookup (fset r.signatures e 0) e).getD 0 = 0
    rw [flookup_fset, if_pos rfl]
    rfl
  · intro e2 he2
    show (flookup (fset r.signatures e 0) e2).getD 0 = _
    rw [flookup_fset, if_neg he2]
    rfl
  · intro c
    show (r.pools.map (Option.map (fun p => p.remove e))).getD c none = _
    rw [getD_map_opt]
    rfl
  · refine ⟨?_, ?_, ?_, ?_, ?_, ?_, ?_, ?_⟩
    · intro pr hpr
      show pr.2 < (r.alive.set ie mv).dropLast.length ∧
        (r.alive.set ie mv).dropLast[pr.2]? = some pr.1 ∧ pr.1 < me
      rw [List.length_dropLast, hset_len]
      obtain ⟨hpr, hpre⟩ := mem_ferase.mp hpr
      rcases mem_fset.mp hpr with hpr | ⟨hpr, hprm⟩
      · have hmv_ne : mv ≠ e := fun hh => hpre (by rw [hpr, hh])
        have hie_lt1 : ie < r.alive.length - 1 := by
          have : ¬ie = r.alive.length - 1 := fun hh => hmv_ne (hmv_e.mpr hh)
          omega
        rw [hpr]
        refine ⟨hie_lt1, ?_, hmv_me⟩
        rw [getElem?_dropLast _ _ (by rw [hset_len]; exact hie_lt1),
          List.getElem?_set_self (by omega)]
      · obtain ⟨h1, h2, h3⟩ := hw.1 pr hpr
        have hprie : pr.2 ≠ ie := by
          intro hh
          rw [hh, hie_ent] at h2
          exact hpre (Option.some.inj h2).symm
        have hprl : pr.2 ≠ r.alive.length - 1 := by
          intro hh
          rw [hh, hmv_ent] at h2
          exact hprm (Option.some.inj h2).symm
        have h1' : pr.2 < r.alive.length - 1 := by omega
        refine ⟨h1', ?_, h3⟩
        rw [getElem?_dropLast _ _ (by rw [hset_len]; exact h1'),
          List.getElem?_set_ne (fun hh => hprie hh.symm)]
        exact h2
    · intro i hi
      rw [List.length_dropLast, hset_len] at hi
      show flookup (ferase (fset r.indices mv ie) e)
        ((r.alive.set ie mv).dropLast.getD i 0) = some i
      have hgd : (r.alive.set ie mv).dropLast.getD i 0 =
          (r.alive.set ie mv).getD i 0 := by
        rw [List.getD_eq_getElem?_getD, List.getD_eq_getElem?_getD,
          getElem?_dropLast _ _ (by rw [hset_len]; exact hi)]
      rw [hgd]
      by_cases hieq : i = ie
      · have hx : (r.alive.set ie mv).getD i 0 = mv := by
          rw [hieq, List.getD_eq_getElem?_getD,
            List.getElem?_set_self (by omega)]
          rfl
        have hmv_ne : mv ≠ e := by
          intro hh
          have := hmv_e.mp hh
          omega
        rw [hx, flookup_ferase, if_neg hmv_ne, flookup_fset, if_pos rfl,
          hieq]
      · have hx : (r.alive.set ie mv).getD i 0 = r.alive.getD i 0 := by
          rw [List.getD_eq_getElem?_getD, List.getD_eq_getElem?_getD,
            List.getElem?_set_ne (fun hh => hieq hh.symm)]
        rw [hx]
        have hx_ent : r.alive[i]? = some (r.alive.getD i 0) := by
          rw [List.getD_eq_getElem?_getD,
            List.getElem?_eq_getElem (by omega : i < r.alive.length)]
          rfl
        have hx_idx := hw.alive_idx hx_ent
        have hx_ne : r.alive.getD i 0 ≠ e := by
          intro hh
          rw [hh, hie] at hx_idx
          exact hieq (Option.some.inj hx_idx).symm
        have hx_nm : r.alive.getD i 0 ≠ mv := by
          intro hh
          rw [hh, hmv_idx] at hx_idx
          have := Option.some.inj hx_idx
          omega
        rw [flookup_ferase, if_neg hx_ne, flookup_fset, if_neg hx_nm]
        exact hx_idx
    · show (r.pools.map (Option.map (fun p => p.remove e))).length ≤
        MAX_COMPONENTS
      rw [List.length_map]
      exact hw.2.2.1
    · intro op hop
      replace hop : op ∈ r.pools.map (Option.map (fun p => p.remove e)) :=
        hop
      obtain ⟨op0, hop0, hfop⟩ := List.mem_map.mp hop
      have hinv0 := hw.2.2.2.1 op0 hop0
      cases op0 with
      | none =>
        rw [← hfop]
        trivial
      | some p =>
        rw [← hfop]
        show PoolWF (p.remove e) ∧ _
        have hwf_rm : PoolWF (p.remove e) := by
          cases hl : flookup p.sparse e with
          | none =>
            rw [pool_remove_absent hl]
            exact hinv0.1
          | some k => exact (pool_remove_spec hinv0.1 hl).2.2.2.2.2.2
        refine ⟨hwf_rm, ?_⟩
        intro e2 he2
        obtain ⟨i, hi⟩ := List.mem_iff_getElem?.mp he2
        have hlk := hwf_rm.dense_lookup hi
        have hcontains2 : (p.remove e).contains e2 = true := by
          rw [Pool.contains, hlk]
          rfl
        have hcont_self : (p.remove e).contains e = false := by
          cases hl : flookup p.sparse e with
          | none =>
            rw [pool_remove_absent hl, Pool.contains, hl]
            rfl
          | some k =>
            rw [Pool.contains, (pool_remove_spec hinv0.1 hl).2.2.2.1]
            rfl
        have he2ne : e2 ≠ e := fun hh => by
          rw [hh, hcont_self] at hcontains2
          exact Bool.noConfusion hcontains2
        have hcont_old : p.contains e2 = true := by
          cases hl : flookup p.sparse e with
          | none =>
            rw [pool_remove_absent hl] at hcontains2
            exact hcontains2
          | some k =>
            rw [← (pool_remove_spec hinv0.1 hl).2.2.2.2.1 e2 he2ne]
            exact hcontains2
        rw [Pool.contains] at hcont_old
        obtain ⟨j, hj⟩ := Option.isSome_iff_exists.mp hcont_old
        have hj_ent := (hinv0.1.lookup_lt hj).2
        have := hinv0.2 e2 (List.getElem?_mem hj_ent)
        show (flookup (ferase (fset r.indices mv ie) e) e2).isSome = true
        rw [flookup_ferase, if_neg he2ne, flookup_fset]
        by_cases h2 : e2 = mv
        · rw [if_pos h2]
          rfl
        · rw [if_neg h2]
          exact this
    · intro pr hpr
      replace hpr : pr ∈ fset r.signatures e 0 := hpr
      rcases mem_fset.mp hpr with hpr | ⟨hpr, hne⟩
      · rw [hpr]
        show (0 : Nat) < U64_MOD
        decide
      · exact hw.2.2.2.2.1 pr hpr
    · intro a ha
      replace ha : a ∈ r.available ++ [e] := ha
      rcases List.mem_append.mp ha with ha | ha
      · exact hw.2.2.2.2.2.1 a ha
      · rw [List.mem_singleton.mp ha]
        exact he_me
    · intro a ha
      replace ha : a ∈ r.available ++ [e] := ha
      show flookup (ferase (fset r.indices mv ie) e) a = none
      rcases List.mem_append.mp ha with ha | ha
      · have hold := hw.2.2.2.2.2.2.1 a ha
        have hold2 : r.idx a = none := hold
        have hae : a ≠ e := by
          intro hh
          rw [hh, hie] at hold2
          exact Option.noConfusion hold2
        have ham : a ≠ mv := by
          intro hh
          rw [hh, hmv_idx] at hold2
          exact Option.noConfusion hold2
        rw [flookup_ferase, if_neg hae, flookup_fset, if_neg ham]
        exact hold
      · rw [List.mem_singleton.mp ha, flookup_ferase, if_pos rfl]
    · show (r.available ++ [e]).Nodup
      rw [List.nodup_append]
      refine ⟨hw.2.2.2.2.2.2.2, List.nodup_singleton e, ?_⟩
      intro a ha hae
      have : a = e := List.mem_singleton.mp hae
      have hold : r.idx a = none := hw.2.2.2.2.2.2.1 a ha
      rw [this, hie] at hold
      exact Option.noConfusion hold

theorem pool_contains_remove_self {V : Type} {p : Pool V}
    (hwf : PoolWF p) (e : Nat) : (p.remove e).contains e = false := by
  cases hl : flookup p.sparse e with
  | none =>
    rw [pool_remove_absent hl, Pool.contains, hl]
    rfl
  | some k =>
    rw [Pool.contains, (pool_remove_spec hwf hl).2.2.2.1]
    rfl

theorem pool_contains_remove_ne {V : Type} {p : Pool V}
    (hwf : PoolWF p) {e e2 : Nat} (h : e2 ≠ e) :
    (p.remove e).contains e2 = p.contains e2 := by
  cases hl : flookup p.sparse e with
  | none => rw [pool_remove_absent hl]
  | some k => exact (pool_remove_spec hwf hl).2.2.2.2.1 e2 h

theorem sigAgree_destroyOne {V : Type} {me : Nat} {r : Reg V} (e : Nat)
    (hw : RegWF0 me r) (hs : SigAgree r) : SigAgree (destroyOne r e) := by
  cases h : r.idx e with
  | none =>
    rw [destroyOne_skip h]
    exact hs
  | some ie =>
    have sp := destroyOne_spec hw h
    intro e2 c2
    by_cases h2 : e2 = e
    · rw [h2, sp.2.2.1, Nat.zero_testBit]
      constructor
      · intro hb
        exact Bool.noConfusion hb
      · rintro ⟨p2, hp2, hcp2⟩
        rw [sp.2.2.2.2.1 c2] at hp2
        cases hp : r.poolAt c2 with
        | none =>
          rw [hp] at hp2
          exact Option.noConfusion hp2
        | some p =>
          rw [hp] at hp2
          have : p2 = p.remove e := (Option.some.inj hp2).symm
          rw [this, pool_contains_remove_self (hw.poolAt_inv hp).1] at hcp2
          exact Bool.noConfusion hcp2
    · rw [sp.2.2.2.1 e2 h2]
      constructor
      · intro hb
        obtain ⟨p, hp, hcp⟩ := (hs e2 c2).mp hb
        refine ⟨p.remove e, ?_, ?_⟩
        · rw [sp.2.2.2.2.1 c2, hp]
          rfl
        · rw [pool_contains_remove_ne (hw.poolAt_inv hp).1 h2]
          exact hcp
      · rintro ⟨p2, hp2, hcp2⟩
        rw [sp.2.2.2.2.1 c2] at hp2
        cases hp : r.poolAt c2 with
        | none =>
          rw [hp] at hp2
          exact Option.noConfusion hp2
        | some p =>
          rw [hp] at hp2
          have : p2 = p.remove e := (Option.some.inj hp2).symm
          rw [this, pool_contains_remove_ne (hw.poolAt_inv hp).1 h2] at hcp2
          exact (hs e2 c2).mpr ⟨p, hp, hcp2⟩

theorem update_fold_spec {V : Type} {me : Nat} (q : List Nat) (r : Reg V)
    (hw : RegWF0 me r) :
    RegWF0 me (q.foldl destroyOne r) ∧
    (∀ e, ((q.foldl destroyOne r).idx e = none ↔
      (r.idx e = none ∨ e ∈ q))) ∧
    (∀ e, (q.foldl destroyOne r).available.count e = r.available.count e +
      (if e ∈ q ∧ (r.idx e).isSome = true then 1 else 0)) ∧
    (∀ e, e ∈ q → (r.idx e).isSome = true →
      (q.foldl destroyOne r).sig e = 0 ∧
      (∀ c p2, (q.foldl destroyOne r).poolAt c = some p2 →
        p2.contains e = false)) ∧
    (∀ x, x ∈ (q.foldl destroyOne r).alive ↔ (x ∈ r.alive ∧ x ∉ q)) ∧
    (∀ e, e ∉ q → (q.foldl destroyOne r).sig e = r.sig e) ∧
    (q.foldl destroyOne r).destroyQ = r.destroyQ ∧
    (q.foldl destroyOne r).views = r.views ∧
    (∀ e, r.idx e = none →
      (q.foldl destroyOne r).sig e = r.sig e ∧
      (∀ c p2, (q.foldl destroyOne r).poolAt c = some p2 →
        ∃ p1, r.poolAt c = some p1 ∧ p2.contains e = p1.contains e)) ∧
    (SigAgree r → SigAgree (q.foldl destroyOne r)) := by
  induction q generalizing r with
  | nil =>
    refine ⟨hw, ?_, ?_, ?_, ?_, ?_, rfl, rfl, ?_, ?_⟩
    · intro e
      exact ⟨fun hh => Or.inl hh, fun hh => hh.elim id
        (fun hm => absurd hm (List.not_mem_nil e))⟩
    · intro e
      rw [if_neg (fun hh => absurd hh.1 (List.not_mem_nil e))]
      rfl
    · intro e he
      exact absurd he (List.not_mem_nil e)
    · intro x
      exact ⟨fun hh => ⟨hh, List.not_mem_nil x⟩, fun hh => hh.1⟩
    · intro e _
      rfl
    · intro e _
      exact ⟨rfl, fun c p2 hp2 => ⟨p2, hp2, rfl⟩⟩
    · intro hsig
      exact hsig
  | cons a q ih =>
    have hfold : List.foldl destroyOne r (a :: q) =
        List.foldl destroyOne (destroyOne r a) q := rfl
    rw [hfold]
    cases ha : r.idx a with
    | none =>
      rw [destroyOne_skip ha]
      obtain ⟨ih1, ih2, ih3, ih4, ih5, ih6, ih7, ih8, ih9, ih10⟩ := ih r hw
      refine ⟨ih1, ?_, ?_, ?_, ?_, ?_, ih7, ih8, ih9, ih10⟩
      · intro e
        rw [ih2 e]
        constructor
        · rintro (hh | hh)
          · exact Or.inl hh
          · exact Or.inr (List.mem_cons_of_mem a hh)
        · rintro (hh | hh)
          · exact Or.inl hh
          · rcases List.mem_cons.mp hh with hh | hh
            · rw [hh]
              exact Or.inl ha
            · exact Or.inr hh
      · intro e
        rw [ih3 e]
        congr 1
        by_cases hq : e ∈ q ∧ (r.idx e).isSome = true
        · rw [if_pos hq, if_pos ⟨List.mem_cons_of_mem a hq.1, hq.2⟩]
        · rw [if_neg hq, if_neg ?_]
          rintro ⟨hm, hsome⟩
          rcases List.mem_cons.mp hm with hh | hh
          · rw [hh, ha] at hsome
            exact Bool.noConfusion hsome
          · exact hq ⟨hh, hsome⟩
      · intro e he hsome
        rcases List.mem_cons.mp he with hh | hh
        · rw [hh, ha] at hsome
          exact Bool.noConfusion hsome
        · exact ih4 e hh hsome
      · intro x
        rw [ih5 x]
        constructor
        · rintro ⟨hm, hq⟩
          refine ⟨hm, ?_⟩
          intro hh
          rcases List.mem_cons.mp hh with hh | hh
          · rw [hh] at hm
            have : (r.idx a).isSome = true := (hw.mem_alive_iff a).mp hm
            rw [ha] at this
            exact Bool.noConfusion this
          · exact hq hh
        · rintro ⟨hm, hq⟩
          exact ⟨hm, fun hh => hq (List.mem_cons_of_mem a hh)⟩
      · intro e he
        exact ih6 e (fun hh => he (List.mem_cons_of_mem a hh))
    | some ia =>
      have sp := destroyOne_spec hw ha
      have hw1 : RegWF0 me (destroyOne r a) := sp.2.2.2.2.2.2.2.2.2
      obtain ⟨ih1, ih2, ih3, ih4, ih5, ih6, ih7, ih8, ih9, ih10⟩ :=
        ih (destroyOne r a) hw1
      have hidx1 : ∀ e2, e2 ≠ a →
          ((destroyOne r a).idx e2 = none ↔ r.idx e2 = none) := by
        intro e2 he2
        have hsm := sp.2.1 e2 he2
        constructor
        · intro hh
          rw [hh] at hsm
          refine Option.not_isSome_iff_eq_none.mp ?_
          intro hs
          rw [hs] at hsm
          exact absurd hsm (by decide)
        · intro hh
          rw [hh] at hsm
          refine Option.not_isSome_iff_eq_none.mp ?_
          intro hs
          rw [hs] at hsm
          exact absurd hsm (by decide)
      refine ⟨ih1, ?_, ?_, ?_, ?_, ?_, ?_, ?_, ?_, ?_⟩
      · intro e
        rw [ih2 e]
        by_cases h2 : e = a
        · subst h2
          rw [sp.1]
          constructor
          · intro _
            exact Or.inr (List.mem_cons_self e q)
          · intro _
            exact Or.inl rfl
        · rw [hidx1 e h2]
          constructor
          · rintro (hh | hh)
            · exact Or.inl hh
            · exact Or.inr (List.mem_cons_of_mem a hh)
          · rintro (hh | hh)
            · exact Or.inl hh
            · rcases List.mem_cons.mp hh with hh | hh
              · exact absurd hh h2
              · exact Or.inr hh
      · intro e
        rw [ih3 e]
        have hav1 : (destroyOne r a).available.count e =
            r.available.count e + (if a = e then 1 else 0) := by
          rw [sp.2.2.2.2.2.1, List.count_append]
          congr 1
          rw [List.count_singleton']
        rw [hav1]
        by_cases h2 : e = a
        · rw [if_pos h2.symm]
          have hsome1 : ((destroyOne r a).idx e).isSome = false := by
            rw [h2, sp.1]
            rfl
          have hmem : e ∈ a :: q := by
            rw [h2]
            exact List.mem_cons_self a q
          have hsome0 : (r.idx e).isSome = true := by
            rw [h2, ha]
            rfl
          rw [if_neg (fun hh => by rw [hsome1] at hh; exact Bool.noConfusion hh.2),
            if_pos ⟨hmem, hsome0⟩]
        · rw [if_neg (fun hh => h2 hh.symm), Nat.add_zero]
          have hsome1 : ((destroyOne r a).idx e).isSome = (r.idx e).isSome :=
            sp.2.1 e h2
          rw [hsome1]
          congr 1
          by_cases hq : e ∈ q ∧ (r.idx e).isSome = true
          · rw [if_pos hq, if_pos ⟨List.mem_cons_of_mem a hq.1, hq.2⟩]
          · rw [if_neg hq, if_neg ?_]
            rintro ⟨hm, hsome⟩
            rcases List.mem_cons.mp hm with hh | hh
            · exact h2 hh
            · exact hq ⟨hh, hsome⟩
      · intro e he hsome
        by_cases h2 : e = a
        · have hnone1 : (destroyOne r a).idx e = none := by
            rw [h2]
            exact sp.1
          have hsig1 : (destroyOne r a).sig e = 0 := by
            rw [h2]
            exact sp.2.2.1
          have hpool1 : ∀ c p2, (destroyOne r a).poolAt c = some p2 →
              p2.contains e = false := by
            intro c p2 hp2
            rw [sp.2.2.2.2.1 c] at hp2
            cases hp : r.poolAt c with
            | none =>
              rw [hp] at hp2
              exact Option.noConfusion hp2
            | some p =>
              rw [hp] at hp2
              have hp2e : p2 = p.remove a := (Option.some.inj hp2).symm
              rw [hp2e, h2]
              exact pool_contains_remove_self (hw.poolAt_inv hp).1 a
          obtain ⟨hsg, hpl⟩ := ih9 e hnone1
          refine ⟨by rw [hsg]; exact hsig1, ?_⟩
          intro c p2 hp2
          obtain ⟨p1, hp1, hceq⟩ := hpl c p2 hp2
          rw [hceq]
          exact hpool1 c p1 hp1
        · rcases List.mem_cons.mp he with hh | hh
          · exact absurd hh h2
          · refine ih4 e hh ?_
            rw [sp.2.1 e h2]
            exact hsome
      · intro x
        rw [ih5 x]
        constructor
        · rintro ⟨hm, hq⟩
          obtain ⟨hm2, hne⟩ := (sp.2.2.2.2.2.2.2.2.1 x).mp hm
          refine ⟨hm2, ?_⟩
          intro hh
          rcases List.mem_cons.mp hh with hh | hh
          · exact hne hh
          · exact hq hh
        · rintro ⟨hm, hq⟩
          have hne : x ≠ a := fun hh => hq (hh ▸ List.mem_cons_self a q)
          refine ⟨(sp.2.2.2.2.2.2.2.2.1 x).mpr ⟨hm, hne⟩, ?_⟩
          intro hh
          exact hq (List.mem_cons_of_mem a hh)
      · intro e he
        have hne : e ≠ a := fun hh => he (hh ▸ List.mem_cons_self a q)
        rw [ih6 e (fun hh => he (List.mem_cons_of_mem a hh)),
          sp.2.2.2.1 e hne]
      · rw [ih7, sp.2.2.2.2.2.2.1]
      · rw [ih8, sp.2.2.2.2.2.2.2.1]
      · intro e hnone
        have hne : e ≠ a := by
          intro hh
          rw [hh, ha] at hnone
          exact Option.noConfusion hnone
        have hnone1 : (destroyOne r a).idx e = none :=
          (hidx1 e hne).mpr hnone
        obtain ⟨hsg, hpl⟩ := ih9 e hnone1
        refine ⟨by rw [hsg, sp.2.2.2.1 e hne], ?_⟩
        intro c p2 hp2
        obtain ⟨p1, hp1, hceq⟩ := hpl c p2 hp2
        rw [sp.2.2.2.2.1 c] at hp1
        cases hp : r.poolAt c with
        | none =>
          rw [hp] at hp1
          exact Option.noConfusion hp1
        | some p =>
          rw [hp] at hp1
          have : p1 = p.remove a := (Option.some.inj hp1).symm
          refine ⟨p, rfl, ?_⟩
          rw [hceq, this]
          exact pool_contains_remove_ne (hw.poolAt_inv hp).1 hne
      · intro hsig
        exact ih10 (sigAgree_destroyOne a hw hsig)

theorem regWF0_congr {V : Type} {me : Nat} {r r2 : Reg V}
    (hw : RegWF0 me r) (hi : r2.indices = r.indices)
    (hal : r2.alive = r.alive) (hp : r2.pools = r.pools)
    (hsg : r2.signatures = r.signatures)
    (hav : r2.available = r.available) : RegWF0 me r2 := by
  unfold RegWF0 at hw ⊢
  rw [hi, hal, hp, hsg, hav]
  exact hw

theorem sigAgree_congr {V : Type} {r r2 : Reg V} (hs : SigAgree r)
    (hp : r2.pools = r.pools) (hsg : r2.signatures = r.signatures) :
    SigAgree r2 := by
  unfold SigAgree Reg.sig Reg.poolAt at hs ⊢
  rw [hp, hsg]
  exact hs

theorem inv_updateR {V : Type} {me : Nat} {r : Reg V}
    (hw : RegWF0 me r) :
    RegWF0 me r.updateR ∧ (SigAgree r → SigAgree r.updateR) := by
  have h := update_fold_spec r.destroyQ r hw
  refine ⟨regWF0_congr h.1 rfl rfl rfl rfl rfl, ?_⟩
  intro hs
  exact sigAgree_congr (h.2.2.2.2.2.2.2.2.2 hs) rfl rfl

theorem inv_destroySubmit_fold {V : Type} {me : Nat} (es : List Nat)
    (r : Reg V) (hw : RegWF0 me r) :
    RegWF0 me (es.foldl (fun r2 e => r2.destroySubmit me e) r) ∧
    (SigAgree r →
      SigAgree (es.foldl (fun r2 e => r2.destroySubmit me e) r)) := by
  induction es generalizing r with
  | nil => exact ⟨hw, fun hs => hs⟩
  | cons a es ih =>
    have h1 := @inv_destroySubmit V me r a hw
    obtain ⟨hw2, hs2⟩ := ih (r.destroySubmit me a) h1.1
    exact ⟨hw2, fun hs => hs2 (h1.2 hs)⟩

theorem inv_resetR {V : Type} {me : Nat} {r : Reg V}
    (hw : RegWF0 me r) :
    RegWF0 me (r.resetR me) ∧ (SigAgree r → SigAgree (r.resetR me)) := by
  have h := inv_destroySubmit_fold r.alive r hw
  have h2 := @inv_updateR V me
    (r.alive.foldl (fun r2 e => r2.destroySubmit me e) r) h.1
  exact ⟨h2.1, fun hs => h2.2 (h.2 hs)⟩

theorem clearComp_regWF0 {V : Type} {me : Nat} {r r2 : Reg V} {c : Nat}
    (hw : RegWF0 me r) (h : r.clearComp c = some r2) : RegWF0 me r2 := by
  rw [Reg.clearComp] at h
  cases hp : r.poolAt c with
  | none =>
    rw [hp] at h
    exact Option.noConfusion h
  | some p =>
    rw [hp] at h
    have hr2 := (Option.some.inj h).symm
    subst hr2
    have hpinv := hw.poolAt_inv hp
    refine ⟨hw.1, hw.2.1, ?_, ?_, hw.2.2.2.2.1, hw.2.2.2.2.2.1,
      hw.2.2.2.2.2.2.1, hw.2.2.2.2.2.2.2⟩
    · show (r.pools.set c (some p.clear)).length ≤ MAX_COMPONENTS
      rw [List.length_set]
      exact hw.2.2.1
    · intro op hop
      replace hop : op ∈ r.pools.set c (some p.clear) := hop
      rcases List.mem_or_eq_of_mem_set hop with hm | hm
      · exact hw.2.2.2.1 op hm
      · rw [hm]
        refine ⟨(pool_clear_spec hpinv.1).2.2.2.2, ?_⟩
        intro e2 he2
        rw [(pool_clear_spec hpinv.1).2.1] at he2
        exact absurd he2 (List.not_mem_nil e2)

theorem stepView_fields {V : Type} {me : Nat} {r : Reg V}
    {order : List Nat} {rv : Reg V × ViewSt}
    (h : stepView me r order = some rv) :
    rv.1.pools = r.pools ∧ rv.1.available = r.available ∧
    rv.1.destroyQ = r.destroyQ ∧ rv.1.alive = r.alive ∧
    rv.1.signatures = r.signatures ∧ rv.1.indices = r.indices := by
  rw [stepView] at h
  by_cases he : order.isEmpty
  · rw [if_pos he] at h
    exact Option.noConfusion h
  · rw [if_neg he] at h
    split at h
    · exact Option.noConfusion h
    · split at h
      · split at h
        · rw [← Option.some.inj h]
          exact ⟨rfl, rfl, rfl, rfl, rfl, rfl⟩
        · split at h
          · exact Option.noConfusion h
          · rw [← Option.some.inj h]
            exact ⟨rfl, rfl, rfl, rfl, rfl, rfl⟩
      · split at h
        · rw [← Option.some.inj h]
          exact ⟨rfl, rfl, rfl, rfl, rfl, rfl⟩
        · split at h
          · exact Option.noConfusion h
          · rw [← Option.some.inj h]
            exact ⟨rfl, rfl, rfl, rfl, rfl, rfl⟩

theorem step_regWF0 {V : Type} {me : Nat} {r r2 : Reg V} {op : Op V}
    (hw : RegWF0 me r) (h : step me r op = some r2) :
    RegWF0 me r2 ∧
      (isClear op = false → SigAgree r → SigAgree r2) := by
  cases op with
  | register c =>
    have hh := inv_registerC hw h
    exact ⟨hh.1, fun _ => hh.2⟩
  | create =>
    have heq : r2 = (r.create).2 := (Option.some.inj h).symm
    rw [heq]
    have hh := inv_create hw
    exact ⟨hh.1, fun _ => hh.2⟩
  | addC c e v =>
    have hh := inv_addComp hw h
    exact ⟨hh.1, fun _ => hh.2⟩
  | removeC c e =>
    have hh := inv_removeComp hw h
    exact ⟨hh.1, fun _ => hh.2⟩
  | clearC c =>
    refine ⟨clearComp_regWF0 hw h, ?_⟩
    intro hnc
    exact Bool.noConfusion hnc
  | destroy e =>
    have heq : r2 = r.destroySubmit me e := (Option.some.inj h).symm
    rw [heq]
    have hh := @inv_destroySubmit V me r e hw
    exact ⟨hh.1, fun _ => hh.2⟩
  | update =>
    have heq : r2 = r.updateR := (Option.some.inj h).symm
    rw [heq]
    have hh := inv_updateR hw
    exact ⟨hh.1, fun _ => hh.2⟩
  | reset =>
    have heq : r2 = r.resetR me := (Option.some.inj h).symm
    rw [heq]
    have hh := inv_resetR hw
    exact ⟨hh.1, fun _ => hh.2⟩
  | veach order =>
    rw [step] at h
    cases hsv : stepView me r order with
    | none =>
      rw [hsv] at h
      exact Option.noConfusion h
    | some rv =>
      rw [hsv] at h
      have heq : r2 = rv.1 := (Option.some.inj h).symm
      obtain ⟨f1, f2, f3, f4, f5, f6⟩ := stepView_fields hsv
      rw [heq]
      exact ⟨regWF0_congr hw f6 f4 f1 f5 f2,
        fun _ hs => sigAgree_congr hs f1 f5⟩

theorem run_inv {V : Type} {me : Nat} {l : List (Op V)} {r r2 : Reg V}
    (hw : RegWF0 me r) (h : run me l r = some r2) :
    RegWF0 me r2 ∧ (NoClear l → SigAgree r → SigAgree r2) := by
  induction l generalizing r with
  | nil =>
    have heq : r2 = r := (Option.some.inj h).symm
    rw [heq]
    exact ⟨hw, fun _ hs => hs⟩
  | cons op l ih =>
    rw [run] at h
    cases hst : step me r op with
    | none =>
      rw [hst] at h
      exact Option.noConfusion h
    | some r1 =>
      rw [hst] at h
      obtain ⟨hw1, hsc⟩ := step_regWF0 hw hst
      obtain ⟨hw2, hsc2⟩ := ih hw1 h
      refine ⟨hw2, ?_⟩
      intro hncl hs
      have hnc1 : isClear op = false := hncl op (List.mem_cons_self op l)
      have hncl2 : NoClear l := fun op2 hop2 =>
        hncl op2 (List.mem_cons_of_mem op hop2)
      exact hsc2 hncl2 (hsc hnc1 hs)

theorem initReg_wf {V : Type} (me : Nat) :
    RegWF0 me (initReg V me) ∧ SigAgree (initReg V me) := by
  constructor
  · refine ⟨?_, ?_, ?_, ?_, ?_, ?_, ?_, ?_⟩
    · intro pr hpr
      exact absurd hpr (List.not_mem_nil pr)
    · intro i hi
      exact absurd hi (Nat.not_lt_zero i)
    · show (0 : Nat) ≤ MAX_COMPONENTS
      exact Nat.zero_le _
    · intro op hop
      exact absurd hop (List.not_mem_nil op)
    · intro pr hpr
      exact absurd hpr (List.not_mem_nil pr)
    · intro a ha
      exact List.mem_range.mp ha
    · intro a _
      rfl
    · exact List.nodup_range me
  · intro e c
    show Nat.testBit ((flookup ([] : List (Nat × Nat)) e).getD 0) c = true ↔
      ∃ p, ([] : List (Option (Pool V))).getD c none = some p ∧
        p.contains e = true
    rw [flookup_nil]
    constructor
    · intro hb
      rw [show ((none : Option Nat).getD 0) = 0 from rfl,
        Nat.zero_testBit] at hb
      exact Bool.noConfusion hb
    · rintro ⟨p, hp, _⟩
      cases hp

/-! ## View-layer helper lemmas: `omap`, bits, pools -/

theorem omap_nil {A B : Type} (f : A → Option B) : omap f [] = some [] :=
  rfl

theorem omap_cons {A B : Type} (f : A → Option B) (a : A) (l : List A) :
    omap f (a :: l) =
      match f a with
      | none => none
      | some b =>
          match omap f l with
          | none => none
          | some bs => some (b :: bs) := rfl

theorem omap_congr {A B : Type} {f g : A → Option B} {l : List A}
    (h : ∀ a ∈ l, f a = g a) : omap f l = omap g l := by
  induction l with
  | nil => rfl
  | cons a l ih =>
    rw [omap_cons, omap_cons, h a (List.mem_cons_self a l),
      ih (fun x hx => h x (List.mem_cons_of_mem a hx))]

theorem omap_spec {A B : Type} {f : A → Option B} {l : List A}
    {out : List B} (h : omap f l = some out) :
    out.length = l.length ∧
    ∀ (i : Nat) (a : A), l[i]? = some a →
      ∃ b, f a = some b ∧ out[i]? = some b := by
  induction l generalizing out with
  | nil =>
    have hout : out = [] := (Option.some.inj h).symm
    subst hout
    refine ⟨rfl, ?_⟩
    intro i a ha
    rw [List.getElem?_eq_none (Nat.zero_le i)] at ha
    exact Option.noConfusion ha
  | cons x l ih =>
    rw [omap_cons] at h
    cases hfx : f x with
    | none => rw [hfx] at h; exact Option.noConfusion h
    | some b =>
      rw [hfx] at h
      cases hol : omap f l with
      | none => rw [hol] at h; exact Option.noConfusion h
      | some bs =>
        rw [hol] at h
        have hout : out = b :: bs := (Option.some.inj h).symm
        subst hout
        obtain ⟨hlen, hpt⟩ := ih hol
        refine ⟨by rw [List.length_cons, List.length_cons, hlen], ?_⟩
        intro i a ha
        cases i with
        | zero =>
          rw [List.getElem?_cons_zero] at ha
          have hax : x = a := Option.some.inj ha
          subst hax
          exact ⟨b, hfx, by rw [List.getElem?_cons_zero]⟩
        | succ j =>
          rw [List.getElem?_cons_succ] at ha
          obtain ⟨b2, hb2, hb2out⟩ := hpt j a ha
          exact ⟨b2, hb2, by rw [List.getElem?_cons_succ]; exact hb2out⟩

theorem omap_isSome {A B : Type} {f : A → Option B} {l : List A}
    (h : ∀ a ∈ l, (f a).isSome = true) : ∃ out, omap f l = some out := by
  induction l with
  | nil => exact ⟨[], rfl⟩
  | cons a l ih =>
    obtain ⟨b, hb⟩ :=
      Option.isSome_iff_exists.mp (h a (List.mem_cons_self a l))
    obtain ⟨bs, hbs⟩ := ih (fun x hx => h x (List.mem_cons_of_mem a hx))
    refine ⟨b :: bs, ?_⟩
    rw [omap_cons, hb, hbs]

/-- Pointwise fact about a successful sample: coordinate `i` is the
version of the pool of `order[i]`. -/
theorem sampleVersions_spec {V : Type} {r : Reg V} {ord sampled : List Nat}
    (h : sampleVersions r ord = some sampled) :
    sampled.length = ord.length ∧
    ∀ i, i < ord.length → ∃ p, r.poolAt (ord.getD i 0) = some p ∧
      sampled.getD i 0 = p.version := by
  obtain ⟨hlen, hpt⟩ := omap_spec h
  refine ⟨hlen, ?_⟩
  intro i hi
  have hgi : ord[i]? = some (ord.getD i 0) := by
    rw [List.getD_eq_getElem?_getD, List.getElem?_eq_getElem hi]
    rfl
  obtain ⟨b, hb, hbout⟩ := hpt i (ord.getD i 0) hgi
  cases hp : r.poolAt (ord.getD i 0) with
  | none => rw [hp] at hb; exact Option.noConfusion hb
  | some p =>
    rw [hp] at hb
    refine ⟨p, rfl, ?_⟩
    have hb2 : some p.version = some b := hb
    rw [List.getD_eq_getElem?_getD, hbout]
    exact (Option.some.inj hb2).symm

theorem sampleVersions_registered {V : Type} {r : Reg V}
    {ord sampled : List Nat} (h : sampleVersions r ord = some sampled) :
    ∀ c ∈ ord, ∃ p, r.poolAt c = some p := by
  intro c hc
  obtain ⟨i, hig⟩ := List.mem_iff_getElem?.mp hc
  have hlt : i < ord.length := by
    by_contra hge
    rw [List.getElem?_eq_none (Nat.le_of_not_lt hge)] at hig
    exact Option.noConfusion hig
  have hgd : ord.getD i 0 = c := by
    rw [List.getD_eq_getElem?_getD, hig]
    rfl
  obtain ⟨p, hp, _⟩ := (sampleVersions_spec h).2 i hlt
  exact ⟨p, by rw [← hgd]; exact hp⟩

/-- A sample taken again after a pool-monotone step still succeeds and
is pointwise no smaller. -/
theorem sampleVersions_mono {V : Type} {r r2 : Reg V}
    {ord sampled : List Nat} (h : sampleVersions r ord = some sampled)
    (hm : PoolsMono r r2) :
    ∃ sampled2, sampleVersions r2 ord = some sampled2 ∧
      sampled2.length = sampled.length ∧
      ∀ i, sampled.getD i 0 ≤ sampled2.getD i 0 := by
  obtain ⟨sampled2, h2⟩ : ∃ s2, sampleVersions r2 ord = some s2 := by
    refine omap_isSome ?_
    intro c hc
    obtain ⟨p, hp⟩ := sampleVersions_registered h c hc
    obtain ⟨p2, hp2, _⟩ := hm c p hp
    rw [hp2]
    rfl
  have hl1 := (sampleVersions_spec h).1
  have hl2 := (sampleVersions_spec h2).1
  refine ⟨sampled2, h2, by rw [hl1, hl2], ?_⟩
  intro i
  by_cases hi : i < ord.length
  · obtain ⟨p, hp, hv⟩ := (sampleVersions_spec h).2 i hi
    obtain ⟨p2, hp2, hv2⟩ := (sampleVersions_spec h2).2 i hi
    obtain ⟨p2beta, hp2beta, hle, _⟩ := hm _ p hp
    rw [hp2] at hp2beta
    rw [hv, hv2, Option.some.inj hp2beta]
    exact hle
  · have h1 : sampled.getD i 0 = 0 := by
      rw [List.getD_eq_getElem?_getD,
        List.getElem?_eq_none (by omega : sampled.length ≤ i)]
      rfl
    rw [h1]
    exact Nat.zero_le _

theorem sampleVersions_congr_pools {V : Type} {r r2 : Reg V}
    (h : r2.pools = r.pools) (ord : List Nat) :
    sampleVersions r2 ord = sampleVersions r ord := by
  refine omap_congr ?_
  intro c _
  rw [Reg.poolAt, Reg.poolAt, h]

theorem poolsMono_trans {V : Type} {r r2 r3 : Reg V}
    (h1 : PoolsMono r r2) (h2 : PoolsMono r2 r3) : PoolsMono r r3 := by
  intro c p hp
  obtain ⟨p2, hp2, hle2, heq2⟩ := h1 c p hp
  obtain ⟨p3, hp3, hle3, heq3⟩ := h2 c p2 hp2
  refine ⟨p3, hp3, Nat.le_trans hle2 hle3, ?_⟩
  intro hv
  have hv2 : p2.version = p.version := by omega
  have hv3 : p3.version = p2.version := by omega
  obtain ⟨he2, hs2⟩ := heq2 hv2
  obtain ⟨he3, hs3⟩ := heq3 hv3
  exact ⟨he3.trans he2, hs3.trans hs2⟩

theorem poolsMono_refl {V : Type} (r : Reg V) : PoolsMono r r :=
  fun _ p hp => ⟨p, hp, Nat.le_refl _, fun _ => ⟨rfl, rfl⟩⟩

/-! ## Bit lemmas for signatures -/

theorem testBit_one_shiftLeft (c k : Nat) :
    Nat.testBit (1 <<< c) k = decide (k = c) := by
  rw [Nat.one_shiftLeft]
  by_cases h : k = c
  · rw [h, Nat.testBit_two_pow_self, decide_eq_true_eq.mpr rfl]
  · rw [Nat.testBit_two_pow_of_ne (fun hh => h hh.symm)]
    exact (decide_eq_false h).symm

theorem testBit_sigOf_foldl (ord : List Nat) (a k : Nat) :
    Nat.testBit (ord.foldl (fun s c => s ||| (1 <<< c)) a) k =
      (Nat.testBit a k || decide (k ∈ ord)) := by
  induction ord generalizing a with
  | nil =>
    rw [List.foldl_nil]
    have : decide (k ∈ ([] : List Nat)) = false :=
      decide_eq_false (List.not_mem_nil k)
    rw [this, Bool.or_false]
  | cons c ord ih =>
    rw [List.foldl_cons, ih, Nat.testBit_or, testBit_one_shiftLeft]
    have hmem : decide (k ∈ c :: ord) = (decide (k = c) || decide (k ∈ ord)) := by
      by_cases h1 : k = c
      · rw [decide_eq_true_eq.mpr (List.mem_cons.mpr (Or.inl h1)),
          decide_eq_true_eq.mpr h1, Bool.true_or]
      · by_cases h2 : k ∈ ord
        · rw [decide_eq_true_eq.mpr (List.mem_cons.mpr (Or.inr h2)),
            decide_eq_true_eq.mpr h2, decide_eq_false h1, Bool.false_or]
        · rw [decide_eq_false h1, decide_eq_false h2,
            decide_eq_false (fun hh => (List.mem_cons.mp hh).elim h1 h2)]
          rfl
    rw [hmem, Bool.or_assoc]

theorem testBit_sigOf (ord : List Nat) (k : Nat) :
    Nat.testBit (sigOf ord) k = decide (k ∈ ord) := by
  rw [sigOf, testBit_sigOf_foldl, Nat.zero_testBit, Bool.false_or]

theorem and_mask_eq_iff (a m : Nat) :
    a &&& m = m ↔
      ∀ k, Nat.testBit m k = true → Nat.testBit a k = true := by
  constructor
  · intro h k hk
    have h2 : Nat.testBit (a &&& m) k = Nat.testBit m k := by rw [h]
    rw [Nat.testBit_and, hk, Bool.and_true] at h2
    exact h2
  · intro h
    refine Nat.eq_of_testBit_eq ?_
    intro k
    rw [Nat.testBit_and]
    cases hk : Nat.testBit m k with
    | false => rw [Bool.and_false]
    | true => rw [h k hk, Bool.true_and]

theorem or_shift_eq_self {a c : Nat} (h : Nat.testBit a c = true) :
    a ||| (1 <<< c) = a := by
  refine Nat.eq_of_testBit_eq ?_
  intro k
  rw [Nat.testBit_or, testBit_one_shiftLeft]
  by_cases hk : k = c
  · rw [hk, h, decide_eq_true_eq.mpr rfl, Bool.true_or]
  · rw [decide_eq_false hk, Bool.or_false]

theorem and_not_eq_self {a c : Nat} (ha : a < U64_MOD)
    (h : Nat.testBit a c = false) :
    a &&& (U64_MAX ^^^ (1 <<< c)) = a := by
  refine Nat.eq_of_testBit_eq ?_
  intro k
  rw [Nat.testBit_and]
  cases hak : Nat.testBit a k with
  | false => rw [Bool.false_and]
  | true =>
    have hk64 : k < 64 := by
      by_contra hge
      have hlt : a < 2 ^ k := by
        calc a < U64_MOD := ha
        _ = 2 ^ 64 := rfl
        _ ≤ 2 ^ k := Nat.pow_le_pow_right (by omega) (by omega)
      rw [Nat.testBit_lt_two_pow hlt] at hak
      exact Bool.noConfusion hak
    have hkc : k ≠ c := fun hh => by rw [hh, h] at hak; exact Bool.noConfusion hak
    rw [Bool.true_and, Nat.testBit_xor, testBit_one_shiftLeft,
      decide_eq_false hkc]
    show Nat.testBit (2 ^ 64 - 1) k ^^ false = true
    rw [Nat.testBit_two_pow_sub_one, decide_eq_true_eq.mpr hk64]
    rfl

theorem or_and_mask {a c m : Nat} (h : Nat.testBit m c = false) :
    (a ||| (1 <<< c)) &&& m = a &&& m := by
  refine Nat.eq_of_testBit_eq ?_
  intro k
  rw [Nat.testBit_and, Nat.testBit_and, Nat.testBit_or,
    testBit_one_shiftLeft]
  by_cases hk : k = c
  · rw [hk, h, Bool.and_false, Bool.and_false]
  · rw [decide_eq_false hk, Bool.or_false]

theorem andnot_and_mask {a c m : Nat} (h : Nat.testBit m c = false)
    (hm : ∀ k, Nat.testBit m k = true → k < 64) :
    (a &&& (U64_MAX ^^^ (1 <<< c))) &&& m = a &&& m := by
  refine Nat.eq_of_testBit_eq ?_
  intro k
  rw [Nat.testBit_and, Nat.testBit_and, Nat.testBit_and]
  cases hmk : Nat.testBit m k with
  | false => rw [Bool.and_false, Bool.and_false]
  | true =>
    have hk64 : k < 64 := hm k hmk
    have hkc : k ≠ c := fun hh => by rw [hh, h] at hmk; exact Bool.noConfusion hmk
    have hmask : Nat.testBit (U64_MAX ^^^ (1 <<< c)) k = true := by
      rw [Nat.testBit_xor, testBit_one_shiftLeft, decide_eq_false hkc]
      show Nat.testBit (2 ^ 64 - 1) k ^^ false = true
      rw [Nat.testBit_two_pow_sub_one, decide_eq_true_eq.mpr hk64]
      rfl
    rw [hmask, Bool.and_true]

/-! ## Rebuild (`View::update` loop) characterization -/

theorem foldl_pick_mem {A : Type} (f : A → A → A)
    (hf : ∀ a x, f a x = a ∨ f a x = x) :
    ∀ (l : List A) (a : A), l.foldl f a = a ∨ l.foldl f a ∈ l := by
  intro l
  induction l with
  | nil => exact fun a => Or.inl rfl
  | cons x l ih =>
    intro a
    rw [List.foldl_cons]
    rcases ih (f a x) with h | h
    · rw [h]
      rcases hf a x with h2 | h2
      · exact Or.inl h2
      · exact Or.inr (by rw [h2]; exact List.mem_cons_self x l)
    · exact Or.inr (List.mem_cons_of_mem x h)

theorem PoolWF.entities_nodup {V : Type} {p : Pool V} (h : PoolWF p) :
    p.entities.Nodup := by
  rw [List.nodup_iff_injective_get]
  intro i j hij
  have hgi : p.entities.getD i.1 0 = p.entities.get i := by
    rw [List.getD_eq_getElem?_getD, List.getElem?_eq_getElem i.2]
    rfl
  have hgj : p.entities.getD j.1 0 = p.entities.get j := by
    rw [List.getD_eq_getElem?_getD, List.getElem?_eq_getElem j.2]
    rfl
  have hi := h.2.2 i.1 i.2
  have hj := h.2.2 j.1 j.2
  rw [hgi, hij, ← hgj, hj] at hi
  exact Fin.ext (Option.some.inj hi).symm

theorem mem_filterMap_if {A : Type} {l : List Nat} {P : Nat → Prop}
    [DecidablePred P] {g : Nat → A} {pr : Nat × A} :
    pr ∈ l.filterMap (fun x => if P x then some (x, g x) else none) ↔
      pr.1 ∈ l ∧ P pr.1 ∧ pr.2 = g pr.1 := by
  rw [List.mem_filterMap]
  constructor
  · rintro ⟨a, ha, hfa⟩
    by_cases hP : P a
    · rw [if_pos hP] at hfa
      have hpr : (a, g a) = pr := Option.some.inj hfa
      rw [← hpr]
      exact ⟨ha, hP, rfl⟩
    · rw [if_neg hP] at hfa
      exact Option.noConfusion hfa
  · rintro ⟨h1, h2, h3⟩
    refine ⟨pr.1, h1, ?_⟩
    rw [if_pos h2, ← h3]

theorem count_map_fst_filterMap {A : Type} (l : List Nat)
    (P : Nat → Prop) [DecidablePred P] (g : Nat → A) (e : Nat) :
    ((l.filterMap (fun x => if P x then some (x, g x) else none)).map
        Prod.fst).count e =
      if P e then l.count e else 0 := by
  induction l with
  | nil =>
    by_cases hP : P e
    · rw [if_pos hP]
      rfl
    · rw [if_neg hP]
      rfl
  | cons x l ih =>
    by_cases hx : P x
    · rw [List.filterMap_cons, if_pos hx, List.map_cons, List.count_cons,
        ih]
      show ((if P e then List.count e l else 0) +
          if (x == e) = true then 1 else 0) =
        if P e then List.count e (x :: l) else 0
      rw [List.count_cons]
      by_cases hP : P e
      · rw [if_pos hP, if_pos hP]
      · rw [if_neg hP, if_neg hP]
        have hxe : (x == e) = false :=
          beq_eq_false_iff_ne.mpr (fun hh => hP (by rw [← hh]; exact hx))
        rw [hxe, if_neg Bool.false_ne_true]
    · rw [List.filterMap_cons, if_neg hx, ih]
      by_cases hP : P e
      · rw [if_pos hP, if_pos hP, List.count_cons]
        have hxe : (x == e) = false :=
          beq_eq_false_iff_ne.mpr (fun hh => hx (by rw [hh]; exact hP))
        rw [hxe, if_neg Bool.false_ne_true, Nat.add_zero]
      · rw [if_neg hP, if_neg hP]

theorem pool_get_isSome {V : Type} {p : Pool V} (hwf : PoolWF p)
    {e : Nat} (hc : p.contains e = true) : ∃ v, p.get e = some v := by
  rw [Pool.contains] at hc
  obtain ⟨k, hk⟩ := Option.isSome_iff_exists.mp hc
  obtain ⟨hlt, _⟩ := hwf.lookup_lt hk
  rw [← hwf.len_eq] at hlt
  obtain ⟨v, hv⟩ : ∃ v, p.components[k]? = some v :=
    ⟨_, List.getElem?_eq_getElem hlt⟩
  refine ⟨v, ?_⟩
  rw [Pool.get, hk]
  exact hv

theorem ptrOf_congr {V : Type} {me : Nat} {r r2 : Reg V} {c e : Nat}
    (hval : r2.valid me e = r.valid me e)
    (hsp : (r2.poolAt c).map Pool.sparse = (r.poolAt c).map Pool.sparse) :
    ptrOf me r2 c e = ptrOf me r c e := by
  rw [ptrOf, ptrOf, hval]
  cases hv : r.valid me e with
  | false => rfl
  | true =>
    show (match r2.poolAt c with
          | none => none
          | some p => flookup p.sparse e) =
        (match r.poolAt c with
          | none => none
          | some p => flookup p.sparse e)
    cases h1 : r.poolAt c with
    | none =>
      rw [h1] at hsp
      cases h2 : r2.poolAt c with
      | none => rfl
      | some p2 => rw [h2] at hsp; exact Option.noConfusion hsp
    | some p =>
      rw [h1] at hsp
      cases h2 : r2.poolAt c with
      | none => rw [h2] at hsp; exact Option.noConfusion hsp
      | some p2 =>
        rw [h2] at hsp
        have hs2 : p2.sparse = p.sparse := Option.some.inj hsp
        show flookup p2.sparse e = flookup p.sparse e
        rw [hs2]

theorem derefPtr_ptrOf {V : Type} {me : Nat} {r : Reg V} {c e : Nat}
    (hv : r.valid me e = true) :
    derefPtr r c (ptrOf me r c e) = r.getComp me c e := by
  rw [ptrOf, Reg.getComp, if_pos hv, if_pos hv]
  cases hp : r.poolAt c with
  | none => rfl
  | some p =>
    show derefPtr r c (flookup p.sparse e) = p.get e
    rw [show p.get e = (match flookup p.sparse e with
          | none => none
          | some i => p.components[i]?) from rfl]
    cases hl : flookup p.sparse e with
    | none => rfl
    | some k =>
      rw [show derefPtr r c (some k) = (match r.poolAt c with
            | none => none
            | some q => q.components[k]?) from rfl, hp]

/-- Every successful rebuild filters the dense entity list of one of
the participating pools (the driver). -/
theorem buildCache_cases {V : Type} {me : Nat} {r : Reg V}
    {ord : List Nat} {b : List (Nat × List (Option Nat))}
    (h : buildCache me r ord = some b) :
    ∃ i p, i < ord.length ∧ r.poolAt (ord.getD i 0) = some p ∧
      b = p.entities.filterMap (fun e =>
        if r.sig e &&& sigOf ord = sigOf ord then
          some (e, ord.map (fun c => ptrOf me r c e))
        else none) := by
  rw [buildCache] at h
  cases homap : omap (fun c => (r.poolAt c).map Pool.entities) ord with
  | none => rw [homap] at h; exact Option.noConfusion h
  | some entsArr =>
    rw [homap] at h
    cases hents : entsArr with
    | nil => rw [hents] at h; exact Option.noConfusion h
    | cons e0 rest =>
      rw [hents] at h
      have hb : b = ((e0 :: rest).foldl
          (fun sm x => if x.length < sm.length then x else sm)
          e0).filterMap (fun e =>
            if r.sig e &&& sigOf ord = sigOf ord then
              some (e, ord.map (fun c => ptrOf me r c e))
            else none) := (Option.some.inj h).symm
      have hpick : ∀ (a x : List Nat),
          (if x.length < a.length then x else a) = a ∨
          (if x.length < a.length then x else a) = x := by
        intro a x
        by_cases hc : x.length < a.length
        · exact Or.inr (if_pos hc)
        · exact Or.inl (if_neg hc)
      have hdrv : (e0 :: rest).foldl
          (fun sm x => if x.length < sm.length then x else sm) e0 ∈
            e0 :: rest := by
        have h3 := foldl_pick_mem
          (fun sm x => if x.length < sm.length then x else sm)
          hpick (e0 :: rest) e0
        rcases h3 with h2 | h2
        · rw [h2]; exact List.mem_cons_self _ _
        · exact h2
      rw [← hents] at hdrv
      obtain ⟨i, hig⟩ := List.mem_iff_getElem?.mp hdrv
      have hilt : i < entsArr.length := by
        by_contra hge
        rw [List.getElem?_eq_none (Nat.le_of_not_lt hge)] at hig
        exact Option.noConfusion hig
      obtain ⟨hlen, hpt⟩ := omap_spec homap
      have hgi : ord[i]? = some (ord.getD i 0) := by
        rw [List.getD_eq_getElem?_getD,
          List.getElem?_eq_getElem (by omega : i < ord.length)]
        rfl
      obtain ⟨ents, hents2, hout⟩ := hpt i (ord.getD i 0) hgi
      rw [hig] at hout
      cases hp : r.poolAt (ord.getD i 0) with
      | none => rw [hp] at hents2; exact Option.noConfusion hents2
      | some p =>
        rw [hp] at hents2
        have hpe : p.entities = ents := Option.some.inj hents2
        refine ⟨i, p, by omega, hp, ?_⟩
        rw [hb, hpe, ← Option.some.inj hout, hents]

theorem buildCache_isSome {V : Type} {me : Nat} {r : Reg V}
    {ord : List Nat} (hord : ord ≠ [])
    (hreg : ∀ c ∈ ord, ∃ p, r.poolAt c = some p) :
    ∃ b, buildCache me r ord = some b := by
  obtain ⟨entsArr, hentsArr⟩ :
      ∃ ea, omap (fun c => (r.poolAt c).map Pool.entities) ord = some ea := by
    refine omap_isSome ?_
    intro c hc
    obtain ⟨p, hp⟩ := hreg c hc
    rw [hp]
    rfl
  cases hea : entsArr with
  | nil =>
    rw [hea] at hentsArr
    have hlen := (omap_spec hentsArr).1
    cases hodd : ord with
    | nil => exact absurd hodd hord
    | cons c l =>
      rw [hodd] at hlen
      exact absurd hlen.symm (by rw [List.length_cons]; exact Nat.succ_ne_zero _)
  | cons e0 rest =>
    rw [hea] at hentsArr
    rw [buildCache, hentsArr]
    exact ⟨_, rfl⟩

/-- Soundness of the rebuild: every yielded tuple is a live entity
whose signature covers the view signature, with the component pointers
of the tuple produced by `getComponent` at rebuild time. -/
theorem buildCache_sound {V : Type} {me : Nat} {r : Reg V}
    {ord : List Nat} {b : List (Nat × List (Option Nat))}
    (hw : RegWF0 me r) (h : buildCache me r ord = some b) :
    ∀ pr ∈ b, r.valid me pr.1 = true ∧
      r.sig pr.1 &&& sigOf ord = sigOf ord ∧
      pr.2 = ord.map (fun c => ptrOf me r c pr.1) := by
  obtain ⟨i, p, hi, hp, hb⟩ := buildCache_cases h
  intro pr hpr
  rw [hb] at hpr
  obtain ⟨hmem, hsig, hval⟩ := mem_filterMap_if.mp hpr
  refine ⟨?_, hsig, hval⟩
  obtain ⟨hpwf, hlive⟩ := hw.poolAt_inv hp
  have hidx := hlive pr.1 hmem
  obtain ⟨ie, hie⟩ := Option.isSome_iff_exists.mp hidx
  have hme : pr.1 < me := (hw.1 (pr.1, ie) (flookup_mem hie)).2.2
  rw [Reg.valid]
  rw [show r.idx pr.1 = flookup r.indices pr.1 from rfl, hie]
  rw [decide_eq_true_eq.mpr hme]
  rfl

/-- Completeness of the rebuild under the signature invariant: every
live entity whose signature covers the view signature is yielded
exactly once. -/
theorem buildCache_complete {V : Type} {me : Nat} {r : Reg V}
    {ord : List Nat} {b : List (Nat × List (Option Nat))}
    (hw : RegWF0 me r) (hs : SigAgree r) (h : buildCache me r ord = some b) :
    ∀ e, r.valid me e = true → r.sig e &&& sigOf ord = sigOf ord →
      (b.map Prod.fst).count e = 1 := by
  obtain ⟨i, p, hi, hp, hb⟩ := buildCache_cases h
  intro e hv hsig
  have hec : p.contains e = true := by
    have hbit : Nat.testBit (r.sig e) (ord.getD i 0) = true := by
      refine (and_mask_eq_iff (r.sig e) (sigOf ord)).mp hsig _ ?_
      rw [testBit_sigOf]
      refine decide_eq_true_eq.mpr ?_
      rw [List.getD_eq_getElem?_getD, List.getElem?_eq_getElem hi]
      exact List.getElem_mem hi
    obtain ⟨p2, hp2, hc2⟩ := (hs e (ord.getD i 0)).mp hbit
    rw [hp] at hp2
    rw [Option.some.inj hp2]
    exact hc2
  have hemem : e ∈ p.entities := by
    rw [Pool.contains] at hec
    obtain ⟨k, hk⟩ := Option.isSome_iff_exists.mp hec
    obtain ⟨hlt, hke⟩ := ((hw.poolAt_inv hp).1).lookup_lt hk
    exact List.mem_iff_getElem?.mpr ⟨k, hke⟩
  rw [hb, count_map_fst_filterMap, if_pos hsig]
  exact List.count_eq_one_of_mem ((hw.poolAt_inv hp).1).entities_nodup hemem

/-! ## Per-operation pool evolution and version-fuel bound -/

theorem destroyOne_alive_len {V : Type} {r : Reg V} {e ie : Nat}
    (h : r.idx e = some ie) :
    (destroyOne r e).alive.length = r.alive.length - 1 := by
  rw [destroyOne, h]
  show ((r.alive.set ie
    (r.alive.getD (r.alive.length - 1) 0)).dropLast).length = _
  rw [List.length_dropLast, List.length_set]

theorem fold_destroy_alive_le {V : Type} (q : List Nat) (r : Reg V) :
    (q.foldl destroyOne r).alive.length ≤ r.alive.length := by
  induction q generalizing r with
  | nil => exact Nat.le_refl _
  | cons a q ih =>
    refine Nat.le_trans (ih (destroyOne r a)) ?_
    cases hi : r.idx a with
    | none => rw [destroyOne_skip hi]
    | some ie =>
      rw [destroyOne_alive_len hi]
      omega

theorem pool_remove_version_le {V : Type} (p : Pool V) (e : Nat) :
    (p.remove e).version ≤ p.version + 1 := by
  rw [pool_version_remove]
  by_cases hc : p.contains e
  · rw [if_pos hc]
    exact Nat.le_trans (Nat.mod_le _ _) (Nat.le_refl _)
  · rw [if_neg hc]
    omega

theorem pool_remove_version_lt {V : Type} {p : Pool V} (e : Nat)
    (hv : p.version < U64_MAX) :
    p.version ≤ (p.remove e).version ∧
    ((p.remove e).version = p.version →
      (p.remove e).entities = p.entities ∧
      (p.remove e).sparse = p.sparse) := by
  by_cases hc : p.contains e
  · have hver : (p.remove e).version = p.version + 1 := by
      rw [pool_version_remove, if_pos hc, bump_of_lt hv]
    constructor
    · omega
    · intro heq
      rw [hver] at heq
      omega
  · have hl : flookup p.sparse e = none := by
      rw [Pool.contains] at hc
      exact Option.not_isSome_iff_eq_none.mp
        (fun hh => hc hh)
    rw [pool_remove_absent hl]
    exact ⟨Nat.le_refl _, fun _ => ⟨rfl, rfl⟩⟩

/-- Through the `update` loop every registered pool survives, its
version never decreases and rises by at most the length of the queue
net of the live population shrink, and an unmoved version means the
membership data is untouched. -/
theorem fold_destroy_pools {V : Type} {me : Nat} (q : List Nat)
    (r : Reg V) (hw : RegWF0 me r) (W : Nat)
    (hV : ∀ c p, r.poolAt c = some p → p.version + q.length ≤ W)
    (hW : W < U64_MOD) :
    ∀ c p, r.poolAt c = some p →
      ∃ p2, (q.foldl destroyOne r).poolAt c = some p2 ∧
        p.version ≤ p2.version ∧
        p2.version + (q.foldl destroyOne r).alive.length ≤
          p.version + r.alive.length ∧
        (p2.version = p.version → p2.entities = p.entities ∧
          p2.sparse = p.sparse) := by
  induction q generalizing r with
  | nil =>
    intro c p hp
    exact ⟨p, hp, Nat.le_refl _, Nat.le_refl _, fun _ => ⟨rfl, rfl⟩⟩
  | cons a q ih =>
    intro c p hp
    have hfold : List.foldl destroyOne r (a :: q) =
        List.foldl destroyOne (destroyOne r a) q := rfl
    rw [hfold]
    cases ha : r.idx a with
    | none =>
      rw [destroyOne_skip ha]
      refine ih r hw ?_ c p hp
      intro c0 p0 hp0
      have := hV c0 p0 hp0
      rw [List.length_cons] at this
      omega
    | some ie =>
      obtain ⟨hd1, hd2, hd3, hd4, hd5, hd6, hd7, hd8, hd9, hd10⟩ :=
        destroyOne_spec hw ha
      have hie := hw.idx_spec ha
      have hp1 : (destroyOne r a).poolAt c = some (p.remove a) := by
        rw [hd5 c, hp]
        rfl
      have hvp : p.version < U64_MAX := by
        have hV1 := hV c p hp
        rw [List.length_cons] at hV1
        have hU : U64_MAX = U64_MOD - 1 := rfl
        omega
      obtain ⟨hmono1, hdata1⟩ := pool_remove_version_lt a hvp
      have hrm_le : (p.remove a).version ≤ p.version + 1 :=
        pool_remove_version_le p a
      obtain ⟨p2, hp2, hle2, hbound2, hdata2⟩ := by
        refine ih (destroyOne r a) hd10 ?_ c (p.remove a) hp1
        intro c0 p0 hp0
        rw [hd5 c0] at hp0
        cases hq0 : r.poolAt c0 with
        | none => rw [hq0] at hp0; exact Option.noConfusion hp0
        | some pq =>
          rw [hq0] at hp0
          have hp0eq : pq.remove a = p0 := Option.some.inj hp0
          have hV0 := hV c0 pq hq0
          have hrm := pool_remove_version_le pq a
          rw [← hp0eq]
          rw [List.length_cons] at hV0
          omega
      refine ⟨p2, hp2, Nat.le_trans hmono1 hle2, ?_, ?_⟩
      · have hal : (destroyOne r a).alive.length = r.alive.length - 1 :=
          destroyOne_alive_len ha
        have hge1 : 1 ≤ r.alive.length := by
          have := hie.1
          omega
        rw [hal] at hbound2
        omega
      · intro heq
        have hrm_eq : (p.remove a).version = p.version := by
          have := hmono1
          have := hle2
          omega
        obtain ⟨he2, hs2⟩ := hdata2 (by omega)
        obtain ⟨he1, hs1⟩ := hdata1 hrm_eq
        exact ⟨he2.trans he1, hs2.trans hs1⟩

theorem fold_destroySubmit_fields {V : Type} (me : Nat) (es : List Nat)
    (r : Reg V) :
    (es.foldl (fun r2 e => r2.destroySubmit me e) r).pools = r.pools ∧
    (es.foldl (fun r2 e => r2.destroySubmit me e) r).alive = r.alive ∧
    (es.foldl (fun r2 e => r2.destroySubmit me e) r).indices = r.indices ∧
    (es.foldl (fun r2 e => r2.destroySubmit me e) r).signatures =
      r.signatures ∧
    (es.foldl (fun r2 e => r2.destroySubmit me e) r).views = r.views ∧
    (es.foldl (fun r2 e => r2.destroySubmit me e) r).destroyQ.length ≤
      r.destroyQ.length + es.length := by
  induction es generalizing r with
  | nil => exact ⟨rfl, rfl, rfl, rfl, rfl, Nat.le_add_right _ _⟩
  | cons a es ih =>
    have hfold : List.foldl (fun r2 e => r2.destroySubmit me e) r (a :: es) =
        List.foldl (fun r2 e => r2.destroySubmit me e)
          (r.destroySubmit me a) es := rfl
    rw [hfold]
    obtain ⟨h1, h2, h3, h4, h5, h6⟩ := ih (r.destroySubmit me a)
    rw [Reg.destroySubmit] at *
    by_cases hv : r.valid me a
    · rw [if_pos hv] at *
      refine ⟨h1, h2, h3, h4, h5, ?_⟩
      refine Nat.le_trans h6 ?_
      show ((r.destroyQ ++ [a]).length) + es.length ≤ _
      rw [List.length_append, List.length_cons]
      show r.destroyQ.length + 1 + es.length ≤
        r.destroyQ.length + (es.length + 1)
      omega
    · rw [if_neg hv] at *
      refine ⟨h1, h2, h3, h4, h5, ?_⟩
      refine Nat.le_trans h6 ?_
      rw [List.length_cons]
      omega

theorem initReg_vbound {V : Type} (me : Nat) : VBound (initReg V me) 0 := by
  constructor
  · exact Nat.le_refl 0
  · intro c p hp
    rw [show (initReg V me).poolAt c = none from rfl] at hp
    exact Option.noConfusion hp

theorem poolsMono_of_poolAt_eq {V : Type} {r r2 : Reg V}
    (h : ∀ c, r2.poolAt c = r.poolAt c) : PoolsMono r r2 :=
  fun c p hp => ⟨p, by rw [h c]; exact hp, Nat.le_refl _,
    fun _ => ⟨rfl, rfl⟩⟩

theorem vbound_weaken {V : Type} {r : Reg V} {B B2 : Nat}
    (hb : VBound r B) (h : B ≤ B2) : VBound r B2 :=
  ⟨Nat.le_trans hb.1 h, fun c p hp => Nat.le_trans (hb.2 c p hp) h⟩

theorem vbound_fields {V : Type} {r r2 : Reg V} {B : Nat} (hb : VBound r B)
    (hp : ∀ c, r2.poolAt c = r.poolAt c)
    (hq : r2.destroyQ = r.destroyQ) (ha : r2.alive = r.alive) :
    VBound r2 B := by
  obtain ⟨h1, h2⟩ := hb
  constructor
  · rw [hq, ha]
    exact h1
  · intro c p hpc
    rw [hq, ha]
    exact h2 c p (by rw [← hp c]; exact hpc)

theorem uMaxLtMod : U64_MAX < U64_MOD := by
  rw [U64_MAX, U64_MOD]
  omega

theorem destroyOne_poolAt_none {V : Type} {r : Reg V} {e c : Nat}
    (h : r.poolAt c = none) : (destroyOne r e).poolAt c = none := by
  cases hi : r.idx e with
  | none =>
    rw [destroyOne_skip hi]
    exact h
  | some ie =>
    rw [destroyOne, hi]
    show ((r.pools.map (Option.map (fun p => p.remove e))).getD c none) =
      none
    rw [getD_map_opt, show r.pools.getD c none = r.poolAt c from rfl, h]
    rfl

theorem fold_destroy_poolAt_none {V : Type} (q : List Nat) (r : Reg V)
    (c : Nat) (h : r.poolAt c = none) :
    (q.foldl destroyOne r).poolAt c = none := by
  induction q generalizing r with
  | nil => exact h
  | cons a q ih => exact ih (destroyOne r a) (destroyOne_poolAt_none h)

/-- Per-operation pool evolution together with the version-fuel bound:
one public operation keeps the pool-monotonicity relation and raises
the fuel by at most one. -/
theorem step_pools_mono {V : Type} {me B : Nat} {r r2 : Reg V} {op : Op V}
    (hw : RegWF0 me r) (hb : VBound r B) (hB : B < U64_MAX)
    (h : step me r op = some r2) :
    PoolsMono r r2 ∧ VBound r2 (B + 1) := by
  obtain ⟨hb1, hb2⟩ := hb
  cases op with
  | register c =>
    obtain ⟨_, _, hcc, hc2, hav, hal, hind, hsig, hq, hviews, hmem⟩ :=
      registerC_poolAt h
    constructor
    · intro c0 p hp
      by_cases hc0 : c0 = c
      · subst hc0
        rcases hcc with hcc | hcc
        · exact ⟨p, by rw [hcc]; exact hp, Nat.le_refl _,
            fun _ => ⟨rfl, rfl⟩⟩
        · rw [hcc.1] at hp
          exact Option.noConfusion hp
      · exact ⟨p, by rw [hc2 c0 hc0]; exact hp, Nat.le_refl _,
          fun _ => ⟨rfl, rfl⟩⟩
    · constructor
      · rw [hq, hal]
        omega
      · intro c0 p2 hp2
        rw [hq, hal]
        by_cases hc0 : c0 = c
        · subst hc0
          rcases hcc with hcc | hcc
          · rw [hcc] at hp2
            have := hb2 c0 p2 hp2
            omega
          · rw [hcc.2] at hp2
            have hpe : p2 = Pool.empty := (Option.some.inj hp2).symm
            rw [hpe]
            show 0 + r.destroyQ.length + r.alive.length ≤ B + 1
            omega
        · rw [hc2 c0 hc0] at hp2
          have := hb2 c0 p2 hp2
          omega
  | create =>
    have heq : r2 = (r.create).2 := (Option.some.inj h).symm
    subst heq
    cases hav : r.available with
    | nil =>
      rw [Reg.create, hav]
      exact ⟨poolsMono_refl r, vbound_weaken ⟨hb1, hb2⟩ (by omega)⟩
    | cons e rest =>
      rw [Reg.create, hav]
      constructor
      · exact poolsMono_of_poolAt_eq (fun c => rfl)
      · constructor
        · show r.destroyQ.length + (r.alive ++ [e]).length ≤ B + 1
          rw [List.length_append]
          show r.destroyQ.length + (r.alive.length + 1) ≤ B + 1
          omega
        · intro c p hp
          have := hb2 c p hp
          show p.version + r.destroyQ.length + (r.alive ++ [e]).length ≤
            B + 1
          rw [List.length_append]
          show p.version + r.destroyQ.length + (r.alive.length + 1) ≤ B + 1
          omega
  | addC c e v =>
    simp only [step, Reg.addComp] at h
    by_cases hval : r.valid me e
    · rw [if_pos hval] at h
      cases hp : r.poolAt c with
      | none => rw [hp] at h; exact Option.noConfusion h
      | some p =>
        rw [hp] at h
        have heq : r2 = { r with
            pools := r.pools.set c (some (p.add e v))
            signatures := fset r.signatures e (r.sig e ||| (1 <<< c)) } :=
          (Option.some.inj h).symm
        subst heq
        have hclt : c < r.pools.length := poolAt_lt hp
        have hpool : ∀ c2, ({ r with
            pools := r.pools.set c (some (p.add e v))
            signatures := fset r.signatures e
              (r.sig e ||| (1 <<< c)) } : Reg V).poolAt c2 =
            if c2 = c then some (p.add e v) else r.poolAt c2 := by
          intro c2
          show (r.pools.set c (some (p.add e v))).getD c2 none = _
          rw [getD_set _ _ _ hclt]
          rfl
        have hvlt : p.version < U64_MAX := by
          have := hb2 c p hp
          omega
        have hverle : (p.add e v).version ≤ p.version + 1 := by
          rw [pool_version_add]
          by_cases hc : p.contains e
          · rw [if_pos hc]
            omega
          · rw [if_neg hc]
            exact bump_le _
        constructor
        · intro c0 p0 hp0
          by_cases hc0 : c0 = c
          · subst hc0
            have hpp : p0 = p := by
              rw [hp0] at hp
              exact Option.some.inj hp
            subst hpp
            refine ⟨p0.add e v, by rw [hpool c0, if_pos rfl], ?_, ?_⟩
            · rw [pool_version_add]
              by_cases hc : p0.contains e
              · rw [if_pos hc]
              · rw [if_neg hc, bump_of_lt hvlt]
                omega
            · intro hveq
              rw [pool_version_add] at hveq
              by_cases hc : p0.contains e
              · obtain ⟨i, hi⟩ := Option.isSome_iff_exists.mp hc
                rw [pool_add_old hi]
                exact ⟨rfl, rfl⟩
              · rw [if_neg hc, bump_of_lt hvlt] at hveq
                omega
          · exact ⟨p0, by rw [hpool c0, if_neg hc0]; exact hp0,
              Nat.le_refl _, fun _ => ⟨rfl, rfl⟩⟩
        · constructor
          · show r.destroyQ.length + r.alive.length ≤ B + 1
            omega
          · intro c0 p0 hp0
            rw [hpool c0] at hp0
            show p0.version + r.destroyQ.length + r.alive.length ≤ B + 1
            by_cases hc0 : c0 = c
            · rw [if_pos hc0] at hp0
              have hpp : p0 = p.add e v := (Option.some.inj hp0).symm
              have := hb2 c p hp
              rw [hpp]
              omega
            · rw [if_neg hc0] at hp0
              have := hb2 c0 p0 hp0
              omega
    · rw [if_neg hval] at h
      have heq : r2 = r := (Option.some.inj h).symm
      rw [heq]
      exact ⟨poolsMono_refl r, vbound_weaken ⟨hb1, hb2⟩ (by omega)⟩
  | removeC c e =>
    simp only [step, Reg.removeComp] at h
    by_cases hval : r.valid me e
    · rw [if_pos hval] at h
      cases hp : r.poolAt c with
      | none => rw [hp] at h; exact Option.noConfusion h
      | some p =>
        rw [hp] at h
        have heq : r2 = { r with
            pools := r.pools.set c (some (p.remove e))
            signatures := fset r.signatures e
              (r.sig e &&& (U64_MAX ^^^ (1 <<< c))) } :=
          (Option.some.inj h).symm
        subst heq
        have hclt : c < r.pools.length := poolAt_lt hp
        have hpool : ∀ c2, ({ r with
            pools := r.pools.set c (some (p.remove e))
            signatures := fset r.signatures e
              (r.sig e &&& (U64_MAX ^^^ (1 <<< c))) } : Reg V).poolAt c2 =
            if c2 = c then some (p.remove e) else r.poolAt c2 := by
          intro c2
          show (r.pools.set c (some (p.remove e))).getD c2 none = _
          rw [getD_set _ _ _ hclt]
          rfl
        have hvlt : p.version < U64_MAX := by
          have := hb2 c p hp
          omega
        constructor
        · intro c0 p0 hp0
          by_cases hc0 : c0 = c
          · subst hc0
            have hpp : p0 = p := by
              rw [hp0] at hp
              exact Option.some.inj hp
            subst hpp
            obtain ⟨hle0, hdata0⟩ := pool_remove_version_lt e hvlt
            exact ⟨p0.remove e, by rw [hpool c0, if_pos rfl], hle0, hdata0⟩
          · exact ⟨p0, by rw [hpool c0, if_neg hc0]; exact hp0,
              Nat.le_refl _, fun _ => ⟨rfl, rfl⟩⟩
        · constructor
          · show r.destroyQ.length + r.alive.length ≤ B + 1
            omega
          · intro c0 p0 hp0
            rw [hpool c0] at hp0
            show p0.version + r.destroyQ.length + r.alive.length ≤ B + 1
            by_cases hc0 : c0 = c
            · rw [if_pos hc0] at hp0
              have hpp : p0 = p.remove e := (Option.some.inj hp0).symm
              have := hb2 c p hp
              have := pool_remove_version_le p e
              rw [hpp]
              omega
            · rw [if_neg hc0] at hp0
              have := hb2 c0 p0 hp0
              omega
    · rw [if_neg hval] at h
      have heq : r2 = r := (Option.some.inj h).symm
      rw [heq]
      exact ⟨poolsMono_refl r, vbound_weaken ⟨hb1, hb2⟩ (by omega)⟩
  | clearC c =>
    simp only [step, Reg.clearComp] at h
    cases hp : r.poolAt c with
    | none => rw [hp] at h; exact Option.noConfusion h
    | some p =>
      rw [hp] at h
      have heq : r2 = { r with pools := r.pools.set c (some p.clear) } :=
        (Option.some.inj h).symm
      subst heq
      have hclt : c < r.pools.length := poolAt_lt hp
      have hpool : ∀ c2, ({ r with
          pools := r.pools.set c (some p.clear) } : Reg V).poolAt c2 =
          if c2 = c then some p.clear else r.poolAt c2 := by
        intro c2
        show (r.pools.set c (some p.clear)).getD c2 none = _
        rw [getD_set _ _ _ hclt]
        rfl
      have hvlt : p.version < U64_MAX := by
        have := hb2 c p hp
        omega
      have hcver : (p.clear).version = p.version + 1 := by
        show bump p.version = p.version + 1
        exact bump_of_lt hvlt
      constructor
      · intro c0 p0 hp0
        by_cases hc0 : c0 = c
        · subst hc0
          have hpp : p0 = p := by
            rw [hp0] at hp
            exact Option.some.inj hp
          subst hpp
          refine ⟨p0.clear, by rw [hpool c0, if_pos rfl], by omega, ?_⟩
          intro hveq
          rw [hcver] at hveq
          omega
        · exact ⟨p0, by rw [hpool c0, if_neg hc0]; exact hp0,
            Nat.le_refl _, fun _ => ⟨rfl, rfl⟩⟩
      · constructor
        · show r.destroyQ.length + r.alive.length ≤ B + 1
          omega
        · intro c0 p0 hp0
          rw [hpool c0] at hp0
          show p0.version + r.destroyQ.length + r.alive.length ≤ B + 1
          by_cases hc0 : c0 = c
          · rw [if_pos hc0] at hp0
            have hpp : p0 = p.clear := (Option.some.inj hp0).symm
            have := hb2 c p hp
            rw [hpp, hcver]
            omega
          · rw [if_neg hc0] at hp0
            have := hb2 c0 p0 hp0
            omega
  | destroy e =>
    have heq : r2 = r.destroySubmit me e := (Option.some.inj h).symm
    subst heq
    rw [Reg.destroySubmit]
    by_cases hv : r.valid me e
    · rw [if_pos hv]
      constructor
      · exact poolsMono_of_poolAt_eq (fun c => rfl)
      · constructor
        · show (r.destroyQ ++ [e]).length + r.alive.length ≤ B + 1
          rw [List.length_append]
          show r.destroyQ.length + 1 + r.alive.length ≤ B + 1
          omega
        · intro c p hp
          have := hb2 c p hp
          show p.version + (r.destroyQ ++ [e]).length + r.alive.length ≤
            B + 1
          rw [List.length_append]
          show p.version + (r.destroyQ.length + 1) + r.alive.length ≤ B + 1
          omega
    · rw [if_neg hv]
      exact ⟨poolsMono_refl r, vbound_weaken ⟨hb1, hb2⟩ (by omega)⟩
  | update =>
    have heq : r2 = r.updateR := (Option.some.inj h).symm
    subst heq
    have hfold := fold_destroy_pools r.destroyQ r hw B
      (fun c p hp => by have := hb2 c p hp; omega)
      (Nat.lt_trans hB uMaxLtMod)
    have halive := fold_destroy_alive_le r.destroyQ r
    constructor
    · intro c p hp
      obtain ⟨p2, hp2, hle, hbd, hdata⟩ := hfold c p hp
      exact ⟨p2, hp2, hle, hdata⟩
    · constructor
      · show ([] : List Nat).length +
          (r.destroyQ.foldl destroyOne r).alive.length ≤ B + 1
        show 0 + (r.destroyQ.foldl destroyOne r).alive.length ≤ B + 1
        omega
      · intro c p2 hp2
        have hp2f : (r.destroyQ.foldl destroyOne r).poolAt c = some p2 :=
          hp2
        cases hp : r.poolAt c with
        | none =>
          rw [fold_destroy_poolAt_none r.destroyQ r c hp] at hp2f
          exact Option.noConfusion hp2f
        | some p =>
          obtain ⟨p2b, hp2b, hle, hbd, hdata⟩ := hfold c p hp
          rw [hp2f] at hp2b
          have hpp : p2 = p2b := Option.some.inj hp2b
          subst hpp
          have := hb2 c p hp
          show p2.version + ([] : List Nat).length +
            (r.destroyQ.foldl destroyOne r).alive.length ≤ B + 1
          show p2.version + 0 +
            (r.destroyQ.foldl destroyOne r).alive.length ≤ B + 1
          omega
  | reset =>
    have heq : r2 = r.resetR me := (Option.some.inj h).symm
    subst heq
    rw [Reg.resetR]
    obtain ⟨hm1, hm2, hm3, hm4, hm5, hm6⟩ :=
      fold_destroySubmit_fields me r.alive r
    have hwm := (inv_destroySubmit_fold r.alive r hw).1
    have hmpool : ∀ c, (r.alive.foldl
        (fun r2 e => r2.destroySubmit me e) r).poolAt c = r.poolAt c := by
      intro c
      show ((r.alive.foldl (fun r2 e => r2.destroySubmit me e)
        r).pools).getD c none = r.pools.getD c none
      rw [hm1]
    have hfold := fold_destroy_pools
      (r.alive.foldl (fun r2 e => r2.destroySubmit me e) r).destroyQ
      (r.alive.foldl (fun r2 e => r2.destroySubmit me e) r) hwm B
      (fun c p hp => by
        rw [hmpool c] at hp
        have := hb2 c p hp
        have := hm6
        omega)
      (Nat.lt_trans hB uMaxLtMod)
    have halive := fold_destroy_alive_le
      (r.alive.foldl (fun r2 e => r2.destroySubmit me e) r).destroyQ
      (r.alive.foldl (fun r2 e => r2.destroySubmit me e) r)
    rw [hm2] at halive
    constructor
    · intro c p hp
      obtain ⟨p2, hp2, hle, hbd, hdata⟩ := hfold c p (by
        rw [hmpool c]
        exact hp)
      exact ⟨p2, hp2, hle, hdata⟩
    · constructor
      · show ([] : List Nat).length + _ ≤ B + 1
        show 0 + ((r.alive.foldl (fun r2 e => r2.destroySubmit me e)
          r).destroyQ.foldl destroyOne
          (r.alive.foldl (fun r2 e => r2.destroySubmit me e)
            r)).alive.length ≤ B + 1
        omega
      · intro c p2 hp2
        have hp2f : ((r.alive.foldl (fun r2 e => r2.destroySubmit me e)
            r).destroyQ.foldl destroyOne
            (r.alive.foldl (fun r2 e => r2.destroySubmit me e)
              r)).poolAt c = some p2 := hp2
        cases hp : r.poolAt c with
        | none =>
          rw [fold_destroy_poolAt_none _ _ c (by
            rw [hmpool c]
            exact hp)] at hp2f
          exact Option.noConfusion hp2f
        | some p =>
          obtain ⟨p2b, hp2b, hle, hbd, hdata⟩ := hfold c p (by
            rw [hmpool c]
            exact hp)
          rw [hp2f] at hp2b
          have hpp : p2 = p2b := Option.some.inj hp2b
          subst hpp
          rw [hm2] at hbd
          have := hb2 c p hp
          show p2.version + ([] : List Nat).length + _ ≤ B + 1
          show p2.version + 0 + ((r.alive.foldl
            (fun r2 e => r2.destroySubmit me e) r).destroyQ.foldl
            destroyOne (r.alive.foldl
              (fun r2 e => r2.destroySubmit me e) r)).alive.length ≤ B + 1
          omega
  | veach ord =>
    rw [step] at h
    cases hsv : stepView me r ord with
    | none =>
      rw [hsv] at h
      exact Option.noConfusion h
    | some rv =>
      rw [hsv] at h
      have heq : r2 = rv.1 := (Option.some.inj h).symm
      subst heq
      obtain ⟨f1, f2, f3, f4, f5, f6⟩ := stepView_fields hsv
      have hpool : ∀ c, rv.1.poolAt c = r.poolAt c := by
        intro c
        show rv.1.pools.getD c none = r.pools.getD c none
        rw [f1]
      refine ⟨poolsMono_of_poolAt_eq hpool, ?_⟩
      exact vbound_weaken (vbound_fields ⟨hb1, hb2⟩ hpool f3 f4) (by omega)

theorem destroyOne_views {V : Type} (r : Reg V) (e : Nat) :
    (destroyOne r e).views = r.views := by
  cases hi : r.idx e with
  | none => rw [destroyOne_skip hi]
  | some ie =>
    rw [destroyOne, hi]

theorem fold_destroyOne_views {V : Type} (q : List Nat) (r : Reg V) :
    (q.foldl destroyOne r).views = r.views := by
  induction q generalizing r with
  | nil => rfl
  | cons a q ih => exact (ih (destroyOne r a)).trans (destroyOne_views r a)

/-! ## The three outcomes of a view read -/

/-- `View::update` (by way of `stepView`) either reuses the stored
cache on a version match, rebuilds and stores sampled versions with a
fresh cache, or — only when the sample coincides with the `u64`-max
sentinel vector — installs a fresh empty view without rebuilding. -/
theorem stepView_spec {V : Type} {me : Nat} {r : Reg V} {ord : List Nat}
    {rv : Reg V × ViewSt} (h : stepView me r ord = some rv) :
    ord ≠ [] ∧
    ∃ sampled, sampleVersions r ord = some sampled ∧
      ((∃ vs, flookup r.views (sigOf ord, ord) = some vs ∧
          vs.versions = sampled ∧ rv = (r, vs)) ∨
       (∃ b, buildCache me r ord = some b ∧
          rv = ({ r with
              views := fset r.views (sigOf ord, ord) ⟨sampled, b⟩ },
            (⟨sampled, b⟩ : ViewSt))) ∨
       (flookup r.views (sigOf ord, ord) = none ∧
          sampled = List.replicate ord.length U64_MAX ∧
          rv = ({ r with
              views := fset r.views (sigOf ord, ord)
                (ViewSt.init ord.length) },
            ViewSt.init ord.length))) := by
  rw [stepView] at h
  by_cases he : ord.isEmpty
  · rw [if_pos he] at h
    exact Option.noConfusion h
  · rw [if_neg he] at h
    have hne : ord ≠ [] := by
      intro hh
      rw [hh] at he
      exact he rfl
    refine ⟨hne, ?_⟩
    split at h
    · exact Option.noConfusion h
    · rename_i sampled hsv
      split at h
      · rename_i v0 hlk
        split at h
        · rename_i hveq
          exact ⟨sampled, hsv,
            Or.inl ⟨v0, hlk, hveq, (Option.some.inj h).symm⟩⟩
        · rename_i hveq
          split at h
          · exact Option.noConfusion h
          · rename_i b hbc
            exact ⟨sampled, hsv,
              Or.inr (Or.inl ⟨b, hbc, (Option.some.inj h).symm⟩)⟩
      · rename_i hlk
        split at h
        · rename_i hveq
          refine ⟨sampled, hsv,
            Or.inr (Or.inr ⟨hlk, ?_, (Option.some.inj h).symm⟩)⟩
          rw [← hveq]
          rfl
        · rename_i hveq
          split at h
          · exact Option.noConfusion h
          · rename_i b hbc
            exact ⟨sampled, hsv,
              Or.inr (Or.inl ⟨b, hbc, (Option.some.inj h).symm⟩)⟩

theorem step_views_eq {V : Type} {me : Nat} {r r2 : Reg V} {op : Op V}
    (h : step me r op = some r2) (hnv : ∀ ord, op ≠ Op.veach ord) :
    r2.views = r.views := by
  cases op with
  | register c => exact (registerC_poolAt h).2.2.2.2.2.2.2.2.2.1
  | create =>
    have heq : r2 = (r.create).2 := (Option.some.inj h).symm
    rw [heq]
    cases hav : r.available with
    | nil => rw [Reg.create, hav]
    | cons e rest => rw [Reg.create, hav]
  | addC c e v =>
    simp only [step, Reg.addComp] at h
    by_cases hval : r.valid me e
    · rw [if_pos hval] at h
      cases hp : r.poolAt c with
      | none => rw [hp] at h; exact Option.noConfusion h
      | some p =>
        rw [hp] at h
        rw [← Option.some.inj h]
    · rw [if_neg hval] at h
      rw [← Option.some.inj h]
  | removeC c e =>
    simp only [step, Reg.removeComp] at h
    by_cases hval : r.valid me e
    · rw [if_pos hval] at h
      cases hp : r.poolAt c with
      | none => rw [hp] at h; exact Option.noConfusion h
      | some p =>
        rw [hp] at h
        rw [← Option.some.inj h]
    · rw [if_neg hval] at h
      rw [← Option.some.inj h]
  | clearC c =>
    simp only [step, Reg.clearComp] at h
    cases hp : r.poolAt c with
    | none => rw [hp] at h; exact Option.noConfusion h
    | some p =>
      rw [hp] at h
      rw [← Option.some.inj h]
  | destroy e =>
    have heq : r2 = r.destroySubmit me e := (Option.some.inj h).symm
    rw [heq, Reg.destroySubmit]
    by_cases hv : r.valid me e
    · rw [if_pos hv]
    · rw [if_neg hv]
  | update =>
    have heq : r2 = r.updateR := (Option.some.inj h).symm
    rw [heq]
    show (r.destroyQ.foldl destroyOne r).views = r.views
    exact fold_destroyOne_views r.destroyQ r
  | reset =>
    have heq : r2 = r.resetR me := (Option.some.inj h).symm
    rw [heq, Reg.resetR]
    show (((r.alive.foldl (fun r2 e => r2.destroySubmit me e)
      r).destroyQ).foldl destroyOne
      (r.alive.foldl (fun r2 e => r2.destroySubmit me e) r)).views =
      r.views
    rw [fold_destroyOne_views]
    exact (fold_destroySubmit_fields me r.alive r).2.2.2.2.1
  | veach ord => exact absurd rfl (hnv ord)

/-! ## Preservation of the view-state invariant -/

theorem PoolWF.contains_of_mem {V : Type} {p : Pool V} (h : PoolWF p)
    {e : Nat} (he : e ∈ p.entities) : p.contains e = true := by
  obtain ⟨k, hk⟩ := List.mem_iff_getElem?.mp he
  rw [Pool.contains, h.dense_lookup hk]
  rfl

theorem viewBase_mono {V : Type} {r r2 : Reg V} (hvb : ViewBase r)
    (hviews : r2.views = r.views) (hmono : PoolsMono r r2) :
    ViewBase r2 := by
  intro s ord vs hvs
  rw [hviews] at hvs
  obtain ⟨hk, hne, sampled, hsv, hlen, hpt, i, hi, p, hp, hcache⟩ :=
    hvb s ord vs hvs
  obtain ⟨sampled2, hsv2, hlen2, hpt2⟩ := sampleVersions_mono hsv hmono
  obtain ⟨p2, hp2, hle2, hdata2⟩ := hmono _ p hp
  refine ⟨hk, hne, sampled2, hsv2, hlen,
    fun j => Nat.le_trans (hpt j) (hpt2 j), i, hi, p2, hp2, ?_⟩
  intro hveq pr hpr
  obtain ⟨pv, hpv, hpvv⟩ := (sampleVersions_spec hsv).2 i hi
  rw [hp] at hpv
  have hpvp : pv = p := (Option.some.inj hpv).symm
  have hstored : vs.versions.getD i 0 ≤ p.version := by
    have := hpt i
    rw [hpvv, hpvp] at this
    exact this
  have hvp : p2.version = p.version := by
    rw [hveq] at hstored
    omega
  obtain ⟨hent, hsp⟩ := hdata2 hvp
  have hcp : p.contains pr.1 = true := by
    refine hcache ?_ pr hpr
    omega
  rw [Pool.contains, ← hsp] at hcp
  rw [Pool.contains]
  exact hcp

/-- One public operation preserves the structural view invariant. -/
theorem step_viewBase {V : Type} {me B : Nat} {r r2 : Reg V} {op : Op V}
    (hw : RegWF0 me r) (hb : VBound r B) (hB : B < U64_MAX)
    (h : step me r op = some r2) (hvb : ViewBase r) : ViewBase r2 := by
  obtain ⟨hmono, _⟩ := step_pools_mono hw hb hB h
  cases hop : op with
  | veach ord =>
    rw [hop] at h
    rw [step] at h
    cases hsv : stepView me r ord with
    | none =>
      rw [hsv] at h
      exact Option.noConfusion h
    | some rv =>
      rw [hsv] at h
      have heq : r2 = rv.1 := (Option.some.inj h).symm
      obtain ⟨hne, sampled, hsample, hcase⟩ := stepView_spec hsv
      rcases hcase with ⟨vs, hlk, hveq, hrv⟩ | ⟨b, hbc, hrv⟩ |
          ⟨hlk, hrep, hrv⟩
      · rw [heq, hrv]
        exact hvb
      · rw [heq, hrv]
        intro s2 ord2 vs2 hvs2
        have hvlk : flookup (fset r.views (sigOf ord, ord)
            ⟨sampled, b⟩) (s2, ord2) = some vs2 := hvs2
        rw [flookup_fset] at hvlk
        by_cases hk2 : (s2, ord2) = (sigOf ord, ord)
        · rw [if_pos hk2] at hvlk
          have hs2 : s2 = sigOf ord := congrArg Prod.fst hk2
          have ho2 : ord2 = ord := congrArg Prod.snd hk2
          have hvs2v : vs2 = ⟨sampled, b⟩ := (Option.some.inj hvlk).symm
          rw [ho2, hs2, hvs2v]
          have hsv2 : sampleVersions
              ({ r with
                  views := fset r.views (sigOf ord, ord) ⟨sampled, b⟩ } :
                Reg V) ord = some sampled := by
            rw [sampleVersions_congr_pools rfl ord]
            exact hsample
          obtain ⟨i, p, hi, hp, hbuild⟩ := buildCache_cases hbc
          refine ⟨rfl, hne, sampled, hsv2,
            (sampleVersions_spec hsample).1,
            fun j => Nat.le_refl _, i, hi, p, hp, ?_⟩
          intro _ pr hpr
          have hpr2 : pr ∈ p.entities.filterMap (fun e =>
              if r.sig e &&& sigOf ord = sigOf ord then
                some (e, ord.map (fun c => ptrOf me r c e))
              else none) := by
            rw [← hbuild]
            exact hpr
          obtain ⟨hmem, _, _⟩ := mem_filterMap_if.mp hpr2
          exact (hw.poolAt_inv hp).1.contains_of_mem hmem
        · rw [if_neg hk2] at hvlk
          obtain ⟨hk, hne2, sampled2, hsv2, hlen2, hpt2, i2, hi2, p2,
            hp2, hcache2⟩ := hvb s2 ord2 vs2 hvlk
          refine ⟨hk, hne2, sampled2, ?_, hlen2, hpt2, i2, hi2, p2, hp2,
            hcache2⟩
          rw [sampleVersions_congr_pools rfl ord2]
          exact hsv2
      · rw [heq, hrv]
        intro s2 ord2 vs2 hvs2
        have hvlk : flookup (fset r.views (sigOf ord, ord)
            (ViewSt.init ord.length)) (s2, ord2) = some vs2 := hvs2
        rw [flookup_fset] at hvlk
        by_cases hk2 : (s2, ord2) = (sigOf ord, ord)
        · rw [if_pos hk2] at hvlk
          have hs2 : s2 = sigOf ord := congrArg Prod.fst hk2
          have ho2 : ord2 = ord := congrArg Prod.snd hk2
          have hvs2v : vs2 = ViewSt.init ord.length :=
            (Option.some.inj hvlk).symm
          rw [ho2, hs2, hvs2v]
          have hsv2 : sampleVersions
              ({ r with
                  views := fset r.views (sigOf ord, ord)
                    (ViewSt.init ord.length) } :
                Reg V) ord = some sampled := by
            rw [sampleVersions_congr_pools rfl ord]
            exact hsample
          have h0lt : 0 < ord.length := List.length_pos.mpr hne
          have hc0 : ord.getD 0 0 ∈ ord := by
            rw [List.getD_eq_getElem?_getD, List.getElem?_eq_getElem h0lt]
            exact List.getElem_mem h0lt
          obtain ⟨p, hp⟩ := sampleVersions_registered hsample _ hc0
          refine ⟨rfl, hne, sampled, hsv2, ?_, ?_, 0, h0lt, p, hp, ?_⟩
          · show (List.replicate ord.length U64_MAX).length = ord.length
            exact List.length_replicate _ _
          · intro j
            rw [hrep]
            exact Nat.le_refl _
          · intro _ pr hpr
            exact absurd hpr (List.not_mem_nil pr)
        · rw [if_neg hk2] at hvlk
          obtain ⟨hk, hne2, sampled2, hsv2, hlen2, hpt2, i2, hi2, p2,
            hp2, hcache2⟩ := hvb s2 ord2 vs2 hvlk
          refine ⟨hk, hne2, sampled2, ?_, hlen2, hpt2, i2, hi2, p2, hp2,
            hcache2⟩
          rw [sampleVersions_congr_pools rfl ord2]
          exact hsv2
  | register c =>
    rw [hop] at h
    exact viewBase_mono hvb (step_views_eq h (fun _ => Op.noConfusion))
      hmono
  | create =>
    rw [hop] at h
    exact viewBase_mono hvb (step_views_eq h (fun _ => Op.noConfusion))
      hmono
  | addC c e v =>
    rw [hop] at h
    exact viewBase_mono hvb (step_views_eq h (fun _ => Op.noConfusion))
      hmono
  | removeC c e =>
    rw [hop] at h
    exact viewBase_mono hvb (step_views_eq h (fun _ => Op.noConfusion))
      hmono
  | clearC c =>
    rw [hop] at h
    exact viewBase_mono hvb (step_views_eq h (fun _ => Op.noConfusion))
      hmono
  | destroy e =>
    rw [hop] at h
    exact viewBase_mono hvb (step_views_eq h (fun _ => Op.noConfusion))
      hmono
  | update =>
    rw [hop] at h
    exact viewBase_mono hvb (step_views_eq h (fun _ => Op.noConfusion))
      hmono
  | reset =>
    rw [hop] at h
    exact viewBase_mono hvb (step_views_eq h (fun _ => Op.noConfusion))
      hmono

/-! ## Congruence of the rebuild under state-preserving mutations -/

theorem sig_eq_of_signatures {V : Type} {r r2 : Reg V}
    (h : r2.signatures = r.signatures) (e : Nat) : r2.sig e = r.sig e := by
  rw [Reg.sig, Reg.sig, h]

theorem sig_of_fset {V : Type} {r r2 : Reg V} {e v : Nat}
    (h : r2.signatures = fset r.signatures e v) (x : Nat) :
    r2.sig x = if x = e then v else r.sig x := by
  rw [Reg.sig, h, flookup_fset]
  by_cases hx : x = e
  · rw [if_pos hx, if_pos hx]
    rfl
  · rw [if_neg hx, if_neg hx, Reg.sig]

theorem valid_eq_of_indices {V : Type} {me : Nat} {r r2 : Reg V}
    (h : r2.indices = r.indices) (e : Nat) :
    r2.valid me e = r.valid me e := by
  rw [Reg.valid, Reg.valid]
  rw [show r2.idx e = flookup r2.indices e from rfl,
    show r.idx e = flookup r.indices e from rfl, h]

theorem valid_eq_of_idx_isSome {V : Type} {me : Nat} {r r2 : Reg V}
    {e : Nat} (h : (r2.idx e).isSome = (r.idx e).isSome) :
    r2.valid me e = r.valid me e := by
  rw [Reg.valid, Reg.valid, h]

theorem valid_of_fset_indices {V : Type} {me : Nat} {r r2 : Reg V}
    {e0 j : Nat} (h : r2.indices = fset r.indices e0 j) {x : Nat}
    (hx : x ≠ e0) : r2.valid me x = r.valid me x := by
  refine valid_eq_of_idx_isSome ?_
  rw [show r2.idx x = flookup r2.indices x from rfl, h, flookup_fset,
    if_neg hx]
  rfl

theorem omap_driver_pool {V : Type} {r : Reg V} {ord : List Nat}
    {e0 : List Nat} {rest : List (List Nat)}
    (homap : omap (fun c => (r.poolAt c).map Pool.entities) ord =
      some (e0 :: rest)) :
    ∃ i p, i < ord.length ∧ r.poolAt (ord.getD i 0) = some p ∧
      p.entities = (e0 :: rest).foldl
        (fun sm x => if x.length < sm.length then x else sm) e0 := by
  have hpick : ∀ (a x : List Nat),
      (if x.length < a.length then x else a) = a ∨
      (if x.length < a.length then x else a) = x := by
    intro a x
    by_cases hc : x.length < a.length
    · exact Or.inr (if_pos hc)
    · exact Or.inl (if_neg hc)
  have hdrv : (e0 :: rest).foldl
      (fun sm x => if x.length < sm.length then x else sm) e0 ∈
        e0 :: rest := by
    have h3 := foldl_pick_mem
      (fun sm x => if x.length < sm.length then x else sm)
      hpick (e0 :: rest) e0
    rcases h3 with h2 | h2
    · rw [h2]
      exact List.mem_cons_self _ _
    · exact h2
  obtain ⟨i, hig⟩ := List.mem_iff_getElem?.mp hdrv
  have hilt : i < (e0 :: rest).length := by
    by_contra hge
    rw [List.getElem?_eq_none (Nat.le_of_not_lt hge)] at hig
    exact Option.noConfusion hig
  obtain ⟨hlen, hpt⟩ := omap_spec homap
  have hio : i < ord.length := by
    rw [← hlen]
    exact hilt
  have hgi : ord[i]? = some (ord.getD i 0) := by
    rw [List.getD_eq_getElem?_getD, List.getElem?_eq_getElem hio]
    rfl
  obtain ⟨ents, hents2, hout⟩ := hpt i (ord.getD i 0) hgi
  rw [hig] at hout
  cases hp : r.poolAt (ord.getD i 0) with
  | none => rw [hp] at hents2; exact Option.noConfusion hents2
  | some p =>
    rw [hp] at hents2
    refine ⟨i, p, hio, hp, ?_⟩
    rw [Option.some.inj hents2, ← Option.some.inj hout]

/-- The rebuild only reads, for each participating pool, the dense
entity list and the sparse map, and for each entity of those pools its
masked signature and its liveness: agreeing registries rebuild
identical caches. -/
theorem buildCache_congr {V : Type} {me : Nat} {r r2 : Reg V}
    {ord : List Nat}
    (hent : ∀ c ∈ ord, (r2.poolAt c).map Pool.entities =
      (r.poolAt c).map Pool.entities)
    (hsp : ∀ c ∈ ord, (r2.poolAt c).map Pool.sparse =
      (r.poolAt c).map Pool.sparse)
    (hsig : ∀ c ∈ ord, ∀ p, r.poolAt c = some p → ∀ e ∈ p.entities,
      r2.sig e &&& sigOf ord = r.sig e &&& sigOf ord)
    (hval : ∀ c ∈ ord, ∀ p, r.poolAt c = some p → ∀ e ∈ p.entities,
      r2.valid me e = r.valid me e) :
    buildCache me r2 ord = buildCache me r ord := by
  have hom : omap (fun c => (r2.poolAt c).map Pool.entities) ord =
      omap (fun c => (r.poolAt c).map Pool.entities) ord :=
    omap_congr (fun c hc => hent c hc)
  rw [buildCache, buildCache, hom]
  cases homap : omap (fun c => (r.poolAt c).map Pool.entities) ord with
  | none => rfl
  | some entsArr =>
    cases hea : entsArr with
    | nil => rfl
    | cons e0 rest =>
      rw [hea] at homap
      obtain ⟨i, p, hio, hp, hpe⟩ := omap_driver_pool homap
      have hcmem : ord.getD i 0 ∈ ord := by
        rw [List.getD_eq_getElem?_getD, List.getElem?_eq_getElem hio]
        exact List.getElem_mem hio
      show some (List.filterMap (fun e =>
          if r2.sig e &&& sigOf ord = sigOf ord then
            some (e, ord.map (fun c => ptrOf me r2 c e)) else none)
          ((e0 :: rest).foldl
            (fun sm x => if x.length < sm.length then x else sm) e0)) =
        some (List.filterMap (fun e =>
          if r.sig e &&& sigOf ord = sigOf ord then
            some (e, ord.map (fun c => ptrOf me r c e)) else none)
          ((e0 :: rest).foldl
            (fun sm x => if x.length < sm.length then x else sm) e0))
      congr 1
      refine List.filterMap_congr ?_
      intro x hx
      have hxp : x ∈ p.entities := by
        rw [hpe]
        exact hx
      have hsigx := hsig _ hcmem p hp x hxp
      have hvalx := hval _ hcmem p hp x hxp
      by_cases hcond : r.sig x &&& sigOf ord = sigOf ord
      · rw [if_pos hcond, if_pos (by rw [hsigx]; exact hcond)]
        have hptr : ∀ c ∈ ord, ptrOf me r2 c x = ptrOf me r c x := by
          intro c hc
          exact ptrOf_congr hvalx (hsp c hc)
        rw [List.map_congr_left (fun c hc => hptr c hc)]
      · rw [if_neg hcond, if_neg (by rw [hsigx]; exact hcond)]

theorem buildCache_congr_fields {V : Type} {me : Nat} {r r2 : Reg V}
    (hp : r2.pools = r.pools) (hs : r2.signatures = r.signatures)
    (hi : r2.indices = r.indices) (ord : List Nat) :
    buildCache me r2 ord = buildCache me r ord := by
  have hpa : ∀ c, r2.poolAt c = r.poolAt c := by
    intro c
    rw [Reg.poolAt, Reg.poolAt, hp]
  refine buildCache_congr ?_ ?_ ?_ ?_
  · intro c _
    rw [hpa c]
  · intro c _
    rw [hpa c]
  · intro c _ p _ e _
    rw [sig_eq_of_signatures hs e]
  · intro c _ p _ e _
    exact valid_eq_of_indices hi e

theorem contains_false_lookup {V : Type} {p : Pool V} {a : Nat}
    (h : p.contains a = false) : flookup p.sparse a = none := by
  rw [Pool.contains] at h
  exact Option.not_isSome_iff_eq_none.mp
    (fun hh => by rw [h] at hh; exact Bool.noConfusion hh)

/-- A destroy-loop iteration that moves no participating pool version
leaves the rebuild unchanged: the destroyed entity was in none of the
participating pools, so only its (unread) signature and index slot
move. -/
theorem destroyOne_buildCache {V : Type} {me : Nat} {r : Reg V} {a : Nat}
    (hw : RegWF0 me r) (ord : List Nat)
    (hvlt : ∀ c ∈ ord, ∀ p, r.poolAt c = some p → p.version < U64_MAX)
    (hveq : ∀ c ∈ ord, ∀ p p2, r.poolAt c = some p →
      (destroyOne r a).poolAt c = some p2 → p2.version = p.version) :
    buildCache me (destroyOne r a) ord = buildCache me r ord := by
  cases ha : r.idx a with
  | none => rw [destroyOne_skip ha]
  | some ie =>
    obtain ⟨hd1, hd2, hd3, hd4, hd5, hd6, hd7, hd8, hd9, hd10⟩ :=
      destroyOne_spec hw ha
    have hnc : ∀ c ∈ ord, ∀ p, r.poolAt c = some p →
        p.contains a = false := by
      intro c hc p hp
      cases hcb : p.contains a with
      | false => rfl
      | true =>
        have hp2 : (destroyOne r a).poolAt c = some (p.remove a) := by
          rw [hd5 c, hp]
          rfl
        have hv := hveq c hc p (p.remove a) hp hp2
        rw [pool_version_remove, if_pos hcb,
          bump_of_lt (hvlt c hc p hp)] at hv
        omega
    have hea : ∀ c ∈ ord, ∀ p, r.poolAt c = some p → ∀ e ∈ p.entities,
        e ≠ a := by
      intro c hc p hp e he hh
      rw [hh] at he
      have hct := (hw.poolAt_inv hp).1.contains_of_mem he
      rw [hnc c hc p hp] at hct
      exact Bool.noConfusion hct
    refine buildCache_congr ?_ ?_ ?_ ?_
    · intro c hc
      rw [hd5 c]
      cases hp : r.poolAt c with
      | none => rfl
      | some p =>
        rw [show Option.map (fun p => p.remove a) (some p) =
          some (p.remove a) from rfl,
          pool_remove_absent (contains_false_lookup (hnc c hc p hp))]
    · intro c hc
      rw [hd5 c]
      cases hp : r.poolAt c with
      | none => rfl
      | some p =>
        rw [show Option.map (fun p => p.remove a) (some p) =
          some (p.remove a) from rfl,
          pool_remove_absent (contains_false_lookup (hnc c hc p hp))]
    · intro c hc p hp e he
      rw [hd4 e (hea c hc p hp e he)]
    · intro c hc p hp e he
      exact valid_eq_of_idx_isSome (hd2 e (hea c hc p hp e he))

/-- Through the whole destroy loop: if no participating pool version
moved, the rebuild is unchanged. -/
theorem fold_destroy_buildCache {V : Type} {me : Nat} (q : List Nat)
    (r : Reg V) (hw : RegWF0 me r) (W : Nat)
    (hV : ∀ c p, r.poolAt c = some p → p.version + q.length ≤ W)
    (hW : W < U64_MOD) (ord : List Nat)
    (hveq : ∀ c ∈ ord, ∀ p p2, r.poolAt c = some p →
      (q.foldl destroyOne r).poolAt c = some p2 →
      p2.version = p.version) :
    buildCache me (q.foldl destroyOne r) ord = buildCache me r ord := by
  induction q generalizing r with
  | nil => rfl
  | cons a q ih =>
    have hfold : List.foldl destroyOne r (a :: q) =
        List.foldl destroyOne (destroyOne r a) q := rfl
    have hwm : RegWF0 me (destroyOne r a) := by
      cases ha : r.idx a with
      | none =>
        rw [destroyOne_skip ha]
        exact hw
      | some ie => exact (destroyOne_spec hw ha).2.2.2.2.2.2.2.2.2
    have hmid : ∀ c p, r.poolAt c = some p →
        ∃ p1, (destroyOne r a).poolAt c = some p1 ∧
          p.version ≤ p1.version ∧ p1.version ≤ p.version + 1 := by
      intro c p hp
      cases ha : r.idx a with
      | none =>
        rw [destroyOne_skip ha]
        exact ⟨p, hp, Nat.le_refl _, by omega⟩
      | some ie =>
        have h5 := (destroyOne_spec hw ha).2.2.2.2.1
        have hp1 : (destroyOne r a).poolAt c = some (p.remove a) := by
          rw [h5 c, hp]
          rfl
        have hvp : p.version < U64_MAX := by
          have hV1 := hV c p hp
          rw [List.length_cons] at hV1
          have hU : U64_MAX = U64_MOD - 1 := rfl
          omega
        exact ⟨p.remove a, hp1, (pool_remove_version_lt a hvp).1,
          pool_remove_version_le p a⟩
    have hVm : ∀ c p1, (destroyOne r a).poolAt c = some p1 →
        p1.version + q.length ≤ W := by
      intro c p1 hp1
      cases hp : r.poolAt c with
      | none =>
        rw [destroyOne_poolAt_none hp] at hp1
        exact Option.noConfusion hp1
      | some p =>
        obtain ⟨p1b, hp1b, _, hle⟩ := hmid c p hp
        rw [hp1] at hp1b
        have hpp : p1 = p1b := Option.some.inj hp1b
        have hV1 := hV c p hp
        rw [List.length_cons] at hV1
        rw [hpp]
        omega
    have hfinal := fold_destroy_pools q (destroyOne r a) hwm W hVm hW
    have hveqm : ∀ c ∈ ord, ∀ p p1, r.poolAt c = some p →
        (destroyOne r a).poolAt c = some p1 →
        p1.version = p.version := by
      intro c hc p p1 hp hp1
      obtain ⟨p1b, hp1b, hle1a, hle1b⟩ := hmid c p hp
      rw [hp1] at hp1b
      have hpp1 : p1 = p1b := Option.some.inj hp1b
      obtain ⟨p2, hp2, hle2, _, _⟩ := hfinal c p1 hp1
      have hv2 := hveq c hc p p2 hp hp2
      rw [hpp1] at *
      omega
    have hveqf : ∀ c ∈ ord, ∀ p1 p2,
        (destroyOne r a).poolAt c = some p1 →
        (q.foldl destroyOne (destroyOne r a)).poolAt c = some p2 →
        p2.version = p1.version := by
      intro c hc p1 p2 hp1 hp2
      cases hp : r.poolAt c with
      | none =>
        rw [destroyOne_poolAt_none hp] at hp1
        exact Option.noConfusion hp1
      | some p =>
        have h1 := hveqm c hc p p1 hp hp1
        obtain ⟨p2b, hp2b, hle2, _, _⟩ := hfinal c p1 hp1
        rw [hp2] at hp2b
        have hpp2 : p2 = p2b := Option.some.inj hp2b
        have h2 := hveq c hc p p2 hp hp2
        omega
    have hvlt : ∀ c ∈ ord, ∀ p, r.poolAt c = some p →
        p.version < U64_MAX := by
      intro c hc p hp
      have hV1 := hV c p hp
      rw [List.length_cons] at hV1
      have hU : U64_MAX = U64_MOD - 1 := rfl
      omega
    rw [hfold, ih (destroyOne r a) hwm hVm hveqf]
    exact destroyOne_buildCache hw ord hvlt hveqm

/-- Bits of a view signature over registered pools sit below 64. -/
theorem sigOf_bits_lt {V : Type} {me : Nat} {r : Reg V} {ord : List Nat}
    (hw : RegWF0 me r) (hreg : ∀ c ∈ ord, ∃ p, r.poolAt c = some p) :
    ∀ k, Nat.testBit (sigOf ord) k = true → k < 64 := by
  intro k hk
  rw [testBit_sigOf] at hk
  have hkm : k ∈ ord := of_decide_eq_true hk
  obtain ⟨p, hp⟩ := hreg k hkm
  have hlt : k < r.pools.length := poolAt_lt hp
  have hmax := hw.2.2.1
  rw [MAX_COMPONENTS] at hmax
  omega

/-- A public mutation (not a `clear`, not a view read) that moves no
participating pool version leaves the rebuild of that view unchanged. -/
theorem step_buildCache_pres {V : Type} {me B : Nat} {r r2 : Reg V}
    {op : Op V} (hw : RegWF0 me r) (hs : SigAgree r) (hb : VBound r B)
    (hB : B < U64_MAX) (hnc : isClear op = false)
    (hnv : ∀ ord0, op ≠ Op.veach ord0)
    (h : step me r op = some r2) (ord : List Nat)
    (hreg : ∀ c ∈ ord, ∃ p, r.poolAt c = some p)
    (hveq : ∀ c ∈ ord, ∀ p p2, r.poolAt c = some p →
      r2.poolAt c = some p2 → p2.version = p.version) :
    buildCache me r2 ord = buildCache me r ord := by
  obtain ⟨hb1, hb2⟩ := hb
  cases op with
  | register c =>
    obtain ⟨_, _, hcc, hc2, hav, hal, hind, hsig, hq, hviews, hmem⟩ :=
      registerC_poolAt h
    have hpa : ∀ c0 ∈ ord, r2.poolAt c0 = r.poolAt c0 := by
      intro c0 hc0
      by_cases hcx : c0 = c
      · subst hcx
        rcases hcc with hcc | hcc
        · exact hcc
        · obtain ⟨p, hp⟩ := hreg c0 hc0
          rw [hcc.1] at hp
          exact Option.noConfusion hp
      · exact hc2 c0 hcx
    refine buildCache_congr ?_ ?_ ?_ ?_
    · intro c0 hc0
      rw [hpa c0 hc0]
    · intro c0 hc0
      rw [hpa c0 hc0]
    · intro c0 _ p _ e _
      rw [sig_eq_of_signatures hsig e]
    · intro c0 _ p _ e _
      exact valid_eq_of_indices hind e
  | create =>
    have heq : r2 = (r.create).2 := (Option.some.inj h).symm
    cases hav : r.available with
    | nil =>
      have hre : r2 = r := by
        rw [heq, Reg.create, hav]
      rw [hre]
    | cons e0 rest =>
      have hr2 : r2 = { r with
          available := rest
          indices := fset r.indices e0 r.alive.length
          alive := r.alive ++ [e0] } := by
        rw [heq, Reg.create, hav]
      have he0idx : flookup r.indices e0 = none :=
        hw.2.2.2.2.2.2.1 e0 (hav ▸ List.mem_cons_self e0 rest)
      rw [hr2]
      refine buildCache_congr ?_ ?_ ?_ ?_
      · intro c0 _
        rfl
      · intro c0 _
        rfl
      · intro c0 _ p _ e _
        rfl
      · intro c0 _ p hp e he
        have hsome := (hw.poolAt_inv hp).2 e he
        have hne : e ≠ e0 := by
          intro hh
          rw [hh, he0idx] at hsome
          exact Bool.noConfusion hsome
        exact valid_of_fset_indices rfl hne
  | addC c e v =>
    simp only [step, Reg.addComp] at h
    by_cases hval : r.valid me e
    · rw [if_pos hval] at h
      cases hp : r.poolAt c with
      | none => rw [hp] at h; exact Option.noConfusion h
      | some p =>
        rw [hp] at h
        have heq : r2 = { r with
            pools := r.pools.set c (some (p.add e v))
            signatures := fset r.signatures e (r.sig e ||| (1 <<< c)) } :=
          (Option.some.inj h).symm
        have hclt : c < r.pools.length := poolAt_lt hp
        have hpool : ∀ c2, r2.poolAt c2 =
            if c2 = c then some (p.add e v) else r.poolAt c2 := by
          intro c2
          rw [heq]
          show (r.pools.set c (some (p.add e v))).getD c2 none = _
          rw [getD_set _ _ _ hclt]
          rfl
        have hsigf : ∀ x, r2.sig x =
            if x = e then r.sig e ||| (1 <<< c) else r.sig x :=
          sig_of_fset (by rw [heq])
        have hvalf : ∀ x, r2.valid me x = r.valid me x := by
          intro x
          exact valid_eq_of_indices (by rw [heq]) x
        have hvlt : p.version < U64_MAX := by
          have := hb2 c p hp
          omega
        by_cases hcin : c ∈ ord
        · have hv2 : r2.poolAt c = some (p.add e v) := by
            rw [hpool c, if_pos rfl]
          have hvv := hveq c hcin p (p.add e v) hp hv2
          by_cases hct : p.contains e
          · have hbit : Nat.testBit (r.sig e) c = true :=
              (hs e c).mpr ⟨p, hp, hct⟩
            have hsigsame : ∀ x, r2.sig x = r.sig x := by
              intro x
              rw [hsigf x]
              by_cases hx : x = e
              · rw [if_pos hx, hx, or_shift_eq_self hbit]
              · rw [if_neg hx]
            obtain ⟨i, hi⟩ := Option.isSome_iff_exists.mp hct
            have hadd : p.add e v =
                { p with components := p.components.set i v } :=
              pool_add_old hi
            refine buildCache_congr ?_ ?_ ?_ ?_
            · intro c0 _
              rw [hpool c0]
              by_cases hc0 : c0 = c
              · rw [if_pos hc0, hc0, hp, hadd]
                rfl
              · rw [if_neg hc0]
            · intro c0 _
              rw [hpool c0]
              by_cases hc0 : c0 = c
              · rw [if_pos hc0, hc0, hp, hadd]
                rfl
              · rw [if_neg hc0]
            · intro c0 _ p0 _ x _
              rw [hsigsame x]
            · intro c0 _ p0 _ x _
              exact hvalf x
          · have hlf : flookup p.sparse e = none := by
              cases hcb : p.contains e with
              | false => exact contains_false_lookup hcb
              | true => exact absurd hcb hct
            rw [pool_add_new hlf] at hvv
            have : bump p.version = p.version := hvv
            rw [bump_of_lt hvlt] at this
            omega
        · refine buildCache_congr ?_ ?_ ?_ ?_
          · intro c0 hc0
            rw [hpool c0, if_neg (fun hh => hcin (by rw [← hh]; exact hc0))]
          · intro c0 hc0
            rw [hpool c0, if_neg (fun hh => hcin (by rw [← hh]; exact hc0))]
          · intro c0 _ p0 _ x _
            rw [hsigf x]
            by_cases hx : x = e
            · rw [if_pos hx, hx]
              refine or_and_mask ?_
              rw [testBit_sigOf]
              exact decide_eq_false hcin
            · rw [if_neg hx]
          · intro c0 _ p0 _ x _
            exact hvalf x
    · rw [if_neg hval] at h
      have heq : r2 = r := (Option.some.inj h).symm
      rw [heq]
  | removeC c e =>
    simp only [step, Reg.removeComp] at h
    by_cases hval : r.valid me e
    · rw [if_pos hval] at h
      cases hp : r.poolAt c with
      | none => rw [hp] at h; exact Option.noConfusion h
      | some p =>
        rw [hp] at h
        have heq : r2 = { r with
            pools := r.pools.set c (some (p.remove e))
            signatures := fset r.signatures e
              (r.sig e &&& (U64_MAX ^^^ (1 <<< c))) } :=
          (Option.some.inj h).symm
        have hclt : c < r.pools.length := poolAt_lt hp
        have hpool : ∀ c2, r2.poolAt c2 =
            if c2 = c then some (p.remove e) else r.poolAt c2 := by
          intro c2
          rw [heq]
          show (r.pools.set c (some (p.remove e))).getD c2 none = _
          rw [getD_set _ _ _ hclt]
          rfl
        have hsigf : ∀ x, r2.sig x =
            if x = e then r.sig e &&& (U64_MAX ^^^ (1 <<< c))
            else r.sig x :=
          sig_of_fset (by rw [heq])
        have hvalf : ∀ x, r2.valid me x = r.valid me x := by
          intro x
          exact valid_eq_of_indices (by rw [heq]) x
        have hvlt : p.version < U64_MAX := by
          have := hb2 c p hp
          omega
        by_cases hct : p.contains e
        · have hcnotin : c ∉ ord := by
            intro hcin
            have hv2 : r2.poolAt c = some (p.remove e) := by
              rw [hpool c, if_pos rfl]
            have hvv := hveq c hcin p (p.remove e) hp hv2
            rw [pool_version_remove, if_pos hct, bump_of_lt hvlt] at hvv
            omega
          refine buildCache_congr ?_ ?_ ?_ ?_
          · intro c0 hc0
            rw [hpool c0, if_neg (fun hh => hcnotin (by rw [← hh]; exact hc0))]
          · intro c0 hc0
            rw [hpool c0, if_neg (fun hh => hcnotin (by rw [← hh]; exact hc0))]
          · intro c0 _ p0 _ x _
            rw [hsigf x]
            by_cases hx : x = e
            · rw [if_pos hx, hx]
              refine andnot_and_mask ?_ (sigOf_bits_lt hw hreg)
              rw [testBit_sigOf]
              exact decide_eq_false hcnotin
            · rw [if_neg hx]
          · intro c0 _ p0 _ x _
            exact hvalf x
        · have hlf : flookup p.sparse e = none := contains_false_lookup (by
            cases hcb : p.contains e with
            | false => rfl
            | true => exact absurd hcb hct)
          have hbit : Nat.testBit (r.sig e) c = false := by
            cases hcb : Nat.testBit (r.sig e) c with
            | false => rfl
            | true =>
              obtain ⟨p3, hp3, hc3⟩ := (hs e c).mp hcb
              rw [hp] at hp3
              rw [← Option.some.inj hp3] at hc3
              exact absurd hc3 hct
          have hsigsame : ∀ x, r2.sig x = r.sig x := by
            intro x
            rw [hsigf x]
            by_cases hx : x = e
            · rw [if_pos hx, hx, and_not_eq_self (sig_lt_mod hw e) hbit]
            · rw [if_neg hx]
          have hrm : p.remove e = p := pool_remove_absent hlf
          refine buildCache_congr ?_ ?_ ?_ ?_
          · intro c0 _
            rw [hpool c0]
            by_cases hc0 : c0 = c
            · rw [if_pos hc0, hc0, hp, hrm]
            · rw [if_neg hc0]
          · intro c0 _
            rw [hpool c0]
            by_cases hc0 : c0 = c
            · rw [if_pos hc0, hc0, hp, hrm]
            · rw [if_neg hc0]
          · intro c0 _ p0 _ x _
            rw [hsigsame x]
          · intro c0 _ p0 _ x _
            exact hvalf x
    · rw [if_neg hval] at h
      have heq : r2 = r := (Option.some.inj h).symm
      rw [heq]
  | clearC c => exact Bool.noConfusion hnc
  | destroy e =>
    have heq : r2 = r.destroySubmit me e := (Option.some.inj h).symm
    rw [heq, Reg.destroySubmit]
    by_cases hv : r.valid me e
    · rw [if_pos hv]
      exact buildCache_congr_fields rfl rfl rfl ord
    · rw [if_neg hv]
  | update =>
    have heq : r2 = r.updateR := (Option.some.inj h).symm
    have hbc2 : buildCache me r2 ord =
        buildCache me (r.destroyQ.foldl destroyOne r) ord := by
      rw [heq]
      exact buildCache_congr_fields rfl rfl rfl ord
    rw [hbc2]
    refine fold_destroy_buildCache r.destroyQ r hw B
      (fun c p hp => by have := hb2 c p hp; omega)
      (Nat.lt_trans hB uMaxLtMod) ord ?_
    intro c hc p p2 hp hp2
    refine hveq c hc p p2 hp ?_
    rw [heq]
    exact hp2
  | reset =>
    have heq : r2 = r.resetR me := (Option.some.inj h).symm
    obtain ⟨hm1, hm2, hm3, hm4, hm5, hm6⟩ :=
      fold_destroySubmit_fields me r.alive r
    have hwm := (inv_destroySubmit_fold r.alive r hw).1
    have hmpool : ∀ c, (r.alive.foldl
        (fun r2 e => r2.destroySubmit me e) r).poolAt c = r.poolAt c := by
      intro c
      show ((r.alive.foldl (fun r2 e => r2.destroySubmit me e)
        r).pools).getD c none = r.pools.getD c none
      rw [hm1]
    have hbc2 : buildCache me r2 ord =
        buildCache me (((r.alive.foldl
          (fun r2 e => r2.destroySubmit me e) r).destroyQ).foldl
          destroyOne (r.alive.foldl
            (fun r2 e => r2.destroySubmit me e) r)) ord := by
      rw [heq, Reg.resetR]
      exact buildCache_congr_fields rfl rfl rfl ord
    have hbcm : buildCache me (r.alive.foldl
        (fun r2 e => r2.destroySubmit me e) r) ord =
        buildCache me r ord :=
      buildCache_congr_fields hm1 hm4 hm3 ord
    rw [hbc2, ← hbcm]
    refine fold_destroy_buildCache _ _ hwm B ?_
      (Nat.lt_trans hB uMaxLtMod) ord ?_
    · intro c p hp
      rw [hmpool c] at hp
      have := hb2 c p hp
      have := hm6
      omega
    · intro c hc p p2 hp hp2
      rw [hmpool c] at hp
      refine hveq c hc p p2 hp ?_
      rw [heq]
      exact hp2
  | veach ord0 => exact absurd rfl (hnv ord0)

/-- One public operation other than `clear` preserves the semantic view
invariant: stored caches stay exactly what a rebuild would produce
whenever their stored versions match a fresh sample. -/
theorem step_viewFull {V : Type} {me B : Nat} {r r2 : Reg V} {op : Op V}
    (hw : RegWF0 me r) (hs : SigAgree r) (hb : VBound r B)
    (hB : B < U64_MAX) (hnc : isClear op = false)
    (h : step me r op = some r2) (hvb : ViewBase r)
    (hvf : ViewFull me r) : ViewFull me r2 := by
  obtain ⟨hmono, _⟩ := step_pools_mono hw hb hB h
  by_cases hveach : ∃ ord0, op = Op.veach ord0
  · obtain ⟨ord, hop⟩ := hveach
    subst hop
    rw [step] at h
    cases hsv : stepView me r ord with
    | none =>
      rw [hsv] at h
      exact Option.noConfusion h
    | some rv =>
      rw [hsv] at h
      have heq : r2 = rv.1 := (Option.some.inj h).symm
      obtain ⟨hne, sampled, hsample, hcase⟩ := stepView_spec hsv
      rcases hcase with ⟨vs0, hlk, hveq0, hrv⟩ | ⟨b, hbc, hrv⟩ |
          ⟨hlk, hrep, hrv⟩
      · rw [heq, hrv]
        exact hvf
      · rw [heq, hrv]
        intro s2 ord2 vs2 hvs2 sampled2 hsv2 hveq2
        have hvlk : flookup (fset r.views (sigOf ord, ord)
            ⟨sampled, b⟩) (s2, ord2) = some vs2 := hvs2
        rw [flookup_fset] at hvlk
        have hbcf : buildCache me
            ({ r with
                views := fset r.views (sigOf ord, ord) ⟨sampled, b⟩ } :
              Reg V) ord2 = buildCache me r ord2 :=
          buildCache_congr_fields rfl rfl rfl ord2
        have hsvf : sampleVersions r ord2 = some sampled2 := by
          have hx : sampleVersions
              ({ r with
                  views := fset r.views (sigOf ord, ord) ⟨sampled, b⟩ } :
                Reg V) ord2 = some sampled2 := hsv2
          rw [sampleVersions_congr_pools rfl ord2] at hx
          exact hx
        by_cases hk2 : (s2, ord2) = (sigOf ord, ord)
        · rw [if_pos hk2] at hvlk
          have ho2 : ord2 = ord := congrArg Prod.snd hk2
          have hvs2v : vs2 = ⟨sampled, b⟩ := (Option.some.inj hvlk).symm
          have hsam2 : sampled2 = sampled := by
            rw [ho2] at hsvf
            rw [hsample] at hsvf
            exact (Option.some.inj hsvf).symm
          refine ⟨b, ?_, by rw [hvs2v]⟩
          rw [hbcf, ho2]
          exact hbc
        · rw [if_neg hk2] at hvlk
          obtain ⟨b2, hb2, hc2⟩ := hvf s2 ord2 vs2 hvlk sampled2 hsvf
            hveq2
          refine ⟨b2, ?_, hc2⟩
          rw [hbcf]
          exact hb2
      · exfalso
        have h0lt : 0 < ord.length := List.length_pos.mpr hne
        obtain ⟨p, hp, hpv⟩ := (sampleVersions_spec hsample).2 0 h0lt
        have hrepv : sampled.getD 0 0 = U64_MAX := by
          rw [hrep, List.getD_eq_getElem?_getD, List.getElem?_replicate,
            if_pos h0lt]
          rfl
        have := hb.2 _ p hp
        rw [hpv] at hrepv
        omega
  · have hnv : ∀ ord0, op ≠ Op.veach ord0 :=
      fun ord0 hh => hveach ⟨ord0, hh⟩
    have hviews := step_views_eq h hnv
    intro s ord vs hvs
    rw [hviews] at hvs
    obtain ⟨hk, hne, sampled, hsample, hlen, hpt, _⟩ := hvb s ord vs hvs
    intro sampled2 hsv2 hveq2
    have hreg := sampleVersions_registered hsample
    by_cases hchg : ∀ c ∈ ord, ∀ p p2, r.poolAt c = some p →
        r2.poolAt c = some p2 → p2.version = p.version
    · have hbcp := step_buildCache_pres hw hs hb hB hnc hnv h ord hreg
        hchg
      have hsam_eq : sampled2 = sampled := by
        have hl2 := (sampleVersions_spec hsv2).1
        have hl1 := (sampleVersions_spec hsample).1
        refine List.ext_getElem (by rw [hl1, hl2]) ?_
        intro i h1 h2
        have hio : i < ord.length := by rw [← hl2]; exact h1
        obtain ⟨p2, hp2, hv2⟩ := (sampleVersions_spec hsv2).2 i hio
        obtain ⟨p1, hp1, hv1⟩ := (sampleVersions_spec hsample).2 i hio
        have hcm : ord.getD i 0 ∈ ord := by
          rw [List.getD_eq_getElem?_getD, List.getElem?_eq_getElem hio]
          exact List.getElem_mem hio
        have hvv := hchg _ hcm p1 p2 hp1 hp2
        have hg2 : sampled2[i] = sampled2.getD i 0 := by
          rw [List.getD_eq_getElem?_getD, List.getElem?_eq_getElem h1]
          rfl
        have hg1 : sampled[i] = sampled.getD i 0 := by
          rw [List.getD_eq_getElem?_getD, List.getElem?_eq_getElem h2]
          rfl
        rw [hg1, hg2, hv1, hv2, hvv]
      obtain ⟨b, hbeq, hcache⟩ := hvf s ord vs hvs sampled hsample
        (by rw [hveq2, hsam_eq])
      refine ⟨b, ?_, hcache⟩
      rw [hbcp]
      exact hbeq
    · exfalso
      push_neg at hchg
      obtain ⟨c, hcm, p, p2, hp, hp2, hvne⟩ := hchg
      obtain ⟨i, hig⟩ := List.mem_iff_getElem?.mp hcm
      have hio : i < ord.length := by
        by_contra hge
        rw [List.getElem?_eq_none (Nat.le_of_not_lt hge)] at hig
        exact Option.noConfusion hig
      have hgd : ord.getD i 0 = c := by
        rw [List.getD_eq_getElem?_getD, hig]
        rfl
      obtain ⟨p1b, hp1b, hv1⟩ := (sampleVersions_spec hsample).2 i hio
      obtain ⟨p2b, hp2b, hv2⟩ := (sampleVersions_spec hsv2).2 i hio
      rw [hgd] at hp1b hp2b
      rw [hp] at hp1b
      rw [hp2] at hp2b
      have he1 : p1b = p := (Option.some.inj hp1b).symm
      have he2 : p2b = p2 := (Option.some.inj hp2b).symm
      obtain ⟨p2c, hp2c, hle, _⟩ := hmono c p hp
      rw [hp2] at hp2c
      have he3 : p2 = p2c := Option.some.inj hp2c
      have hst : vs.versions.getD i 0 ≤ sampled.getD i 0 := hpt i
      have hst2 : vs.versions.getD i 0 = sampled2.getD i 0 := by
        rw [hveq2]
      rw [hv1, he1] at hst
      rw [hv2, he2] at hst2
      have hle2 : p.version ≤ p2.version := by
        rw [he3]
        exact hle
      omega

/-! ## Run-level view invariants -/

theorem initReg_viewBase {V : Type} (me : Nat) :
    ViewBase (initReg V me) := by
  intro s ord vs hvs
  rw [show (initReg V me).views = [] from rfl, flookup_nil] at hvs
  exact Option.noConfusion hvs

theorem initReg_viewFull {V : Type} (me : Nat) :
    ViewFull me (initReg V me) := by
  intro s ord vs hvs
  rw [show (initReg V me).views = [] from rfl, flookup_nil] at hvs
  exact Option.noConfusion hvs

/-- The combined invariant carried along a run: well-formedness, the
version-fuel bound, the structural view invariant, pool monotonicity,
and — for `clear`-free runs — the signature and semantic view
invariants. -/
theorem run_view_inv {V : Type} {me : Nat} (l : List (Op V)) (B : Nat)
    (r r2 : Reg V) (hw : RegWF0 me r) (hb : VBound r B)
    (hB : B + l.length ≤ U64_MAX) (hvb : ViewBase r)
    (h : run me l r = some r2) :
    RegWF0 me r2 ∧ VBound r2 (B + l.length) ∧ ViewBase r2 ∧
    PoolsMono r r2 ∧
    (NoClear l → SigAgree r → ViewFull me r →
      SigAgree r2 ∧ ViewFull me r2) := by
  induction l generalizing r B with
  | nil =>
    have heq : r2 = r := (Option.some.inj h).symm
    rw [heq]
    exact ⟨hw, hb, hvb, poolsMono_refl r,
      fun _ hs hvf => ⟨hs, hvf⟩⟩
  | cons op l ih =>
    rw [run] at h
    cases hst : step me r op with
    | none =>
      rw [hst] at h
      exact Option.noConfusion h
    | some r1 =>
      rw [hst] at h
      have hBlt : B < U64_MAX := by
        rw [List.length_cons] at hB
        omega
      obtain ⟨hmono1, hb1⟩ := step_pools_mono hw hb hBlt hst
      obtain ⟨hw1, hsc1⟩ := step_regWF0 hw hst
      have hvb1 := step_viewBase hw hb hBlt hst hvb
      have hB1 : (B + 1) + l.length ≤ U64_MAX := by
        rw [List.length_cons] at hB
        omega
      obtain ⟨hw2, hb2, hvb2, hmono2, hfull2⟩ :=
        ih (B + 1) r1 hw1 hb1 hB1 hvb1 h
      refine ⟨hw2, ?_, hvb2, poolsMono_trans hmono1 hmono2, ?_⟩
      · refine vbound_weaken hb2 ?_
        rw [List.length_cons]
        omega
      · intro hncl hsig hvf
        have hnc1 : isClear op = false := hncl op (List.mem_cons_self op l)
        have hncl2 : NoClear l := fun op2 hop2 =>
          hncl op2 (List.mem_cons_of_mem op hop2)
        have hsig1 : SigAgree r1 := hsc1 hnc1 hsig
        have hvf1 : ViewFull me r1 :=
          step_viewFull hw hsig hb hBlt hnc1 hst hvb hvf
        exact hfull2 hncl2 hsig1 hvf1

/-- The combined invariant at the end of any run from a fresh registry
of at most `2 ^ 64 - 1` operations. -/
theorem run_from_init_view {V : Type} {me : Nat} {l : List (Op V)}
    {r2 : Reg V} (h : run me l (initReg V me) = some r2)
    (hlen : l.length ≤ U64_MAX) :
    RegWF0 me r2 ∧ VBound r2 l.length ∧ ViewBase r2 ∧
    (NoClear l → SigAgree r2 ∧ ViewFull me r2) := by
  have hinv := run_view_inv l 0 (initReg V me) r2 (initReg_wf me).1
    (initReg_vbound me) (by omega) (initReg_viewBase me) h
  obtain ⟨hw2, hb2, hvb2, _, hfull⟩ := hinv
  refine ⟨hw2, ?_, hvb2, ?_⟩
  · have : (0 : Nat) + l.length = l.length := by omega
    rw [this] at hb2
    exact hb2
  · intro hncl
    exact hfull hncl (initReg_wf me).2 (initReg_viewFull me)

/-! ## Constructive forms of the view read -/

theorem isEmpty_false_of_ne {A : Type} {l : List A} (h : l ≠ []) :
    l.isEmpty = false := by
  cases l with
  | nil => exact absurd rfl h
  | cons a l => rfl

theorem valid_of_contains {V : Type} {me : Nat} {r : Reg V} {c e : Nat}
    (hw : RegWF0 me r) {p : Pool V} (hp : r.poolAt c = some p)
    (hc : p.contains e = true) : r.valid me e = true := by
  obtain ⟨hpwf, hlive⟩ := hw.poolAt_inv hp
  rw [Pool.contains] at hc
  obtain ⟨k, hk⟩ := Option.isSome_iff_exists.mp hc
  obtain ⟨hklt, hke⟩ := hpwf.lookup_lt hk
  have hmem : e ∈ p.entities := List.mem_iff_getElem?.mpr ⟨k, hke⟩
  have hidx := hlive e hmem
  obtain ⟨ie, hie⟩ := Option.isSome_iff_exists.mp hidx
  have hme : e < me := (hw.1 (e, ie) (flookup_mem hie)).2.2
  rw [Reg.valid, show r.idx e = flookup r.indices e from rfl, hie,
    decide_eq_true_eq.mpr hme]
  rfl

theorem derefPtr_congr {V : Type} {r r2 : Reg V} (hp : r2.pools = r.pools)
    (c : Nat) (ptr : Option Nat) : derefPtr r2 c ptr = derefPtr r c ptr := by
  have hpa : r2.poolAt c = r.poolAt c := by
    rw [Reg.poolAt, Reg.poolAt, hp]
  cases ptr with
  | none => rfl
  | some i =>
    rw [derefPtr, derefPtr, hpa]

/-- Cache hit: matching stored versions reuse the cache, untouched
registry. -/
theorem stepView_hit {V : Type} {me : Nat} {r : Reg V}
    {ord sampled : List Nat} {vs : ViewSt} (hord : ord ≠ [])
    (hsv : sampleVersions r ord = some sampled)
    (hlk : flookup r.views (sigOf ord, ord) = some vs)
    (hveq : vs.versions = sampled) :
    stepView me r ord = some (r, vs) := by
  rw [stepView, if_neg (by rw [isEmpty_false_of_ne hord]; exact
    Bool.noConfusion), hsv]
  show (match flookup r.views (sigOf ord, ord) with
    | some v0 =>
        if v0.versions = sampled then some (r, v0)
        else
          match buildCache me r ord with
          | none => none
          | some b =>
              some
                ({ r with
                    views := fset r.views (sigOf ord, ord) ⟨sampled, b⟩ },
                  (⟨sampled, b⟩ : ViewSt))
    | none =>
        if (ViewSt.init ord.length).versions = sampled then
          some
            ({ r with
                views := fset r.views (sigOf ord, ord)
                  (ViewSt.init ord.length) },
              ViewSt.init ord.length)
        else
          match buildCache me r ord with
          | none => none
          | some b =>
              some
                ({ r with
                    views := fset r.views (sigOf ord, ord) ⟨sampled, b⟩ },
                  (⟨sampled, b⟩ : ViewSt))) = some (r, vs)
  rw [hlk]
  show (if vs.versions = sampled then some (r, vs)
    else
      match buildCache me r ord with
      | none => none
      | some b =>
          some
            ({ r with
                views := fset r.views (sigOf ord, ord) ⟨sampled, b⟩ },
              (⟨sampled, b⟩ : ViewSt))) = some (r, vs)
  rw [if_pos hveq]

/-- Cache miss on a stored view: rebuild and store the sample. -/
theorem stepView_rebuild {V : Type} {me : Nat} {r : Reg V}
    {ord sampled : List Nat} {vs : ViewSt}
    {b : List (Nat × List (Option Nat))} (hord : ord ≠ [])
    (hsv : sampleVersions r ord = some sampled)
    (hlk : flookup r.views (sigOf ord, ord) = some vs)
    (hveq : vs.versions ≠ sampled) (hbc : buildCache me r ord = some b) :
    stepView me r ord = some
      ({ r with views := fset r.views (sigOf ord, ord) ⟨sampled, b⟩ },
        (⟨sampled, b⟩ : ViewSt)) := by
  rw [stepView, if_neg (by rw [isEmpty_false_of_ne hord]; exact
    Bool.noConfusion), hsv]
  show (match flookup r.views (sigOf ord, ord) with
    | some v0 =>
        if v0.versions = sampled then some (r, v0)
        else
          match buildCache me r ord with
          | none => none
          | some b =>
              some
                ({ r with
                    views := fset r.views (sigOf ord, ord) ⟨sampled, b⟩ },
                  (⟨sampled, b⟩ : ViewSt))
    | none =>
        if (ViewSt.init ord.length).versions = sampled then
          some
            ({ r with
                views := fset r.views (sigOf ord, ord)
                  (ViewSt.init ord.length) },
              ViewSt.init ord.length)
        else
          match buildCache me r ord with
          | none => none
          | some b =>
              some
                ({ r with
                    views := fset r.views (sigOf ord, ord) ⟨sampled, b⟩ },
                  (⟨sampled, b⟩ : ViewSt))) = _
  rw [hlk]
  show (if vs.versions = sampled then some (r, vs)
    else
      match buildCache me r ord with
      | none => none
      | some b =>
          some
            ({ r with
                views := fset r.views (sigOf ord, ord) ⟨sampled, b⟩ },
              (⟨sampled, b⟩ : ViewSt))) = _
  rw [if_neg hveq, hbc]

/-- First access with a non-sentinel sample: rebuild and store. -/
theorem stepView_fresh {V : Type} {me : Nat} {r : Reg V}
    {ord sampled : List Nat} {b : List (Nat × List (Option Nat))}
    (hord : ord ≠ []) (hsv : sampleVersions r ord = some sampled)
    (hlk : flookup r.views (sigOf ord, ord) = none)
    (hrep : sampled ≠ List.replicate ord.length U64_MAX)
    (hbc : buildCache me r ord = some b) :
    stepView me r ord = some
      ({ r with views := fset r.views (sigOf ord, ord) ⟨sampled, b⟩ },
        (⟨sampled, b⟩ : ViewSt)) := by
  rw [stepView, if_neg (by rw [isEmpty_false_of_ne hord]; exact
    Bool.noConfusion), hsv]
  show (match flookup r.views (sigOf ord, ord) with
    | some v0 =>
        if v0.versions = sampled then some (r, v0)
        else
          match buildCache me r ord with
          | none => none
          | some b =>
              some
                ({ r with
                    views := fset r.views (sigOf ord, ord) ⟨sampled, b⟩ },
                  (⟨sampled, b⟩ : ViewSt))
    | none =>
        if (ViewSt.init ord.length).versions = sampled then
          some
            ({ r with
                views := fset r.views (sigOf ord, ord)
                  (ViewSt.init ord.length) },
              ViewSt.init ord.length)
        else
          match buildCache me r ord with
          | none => none
          | some b =>
              some
                ({ r with
                    views := fset r.views (sigOf ord, ord) ⟨sampled, b⟩ },
                  (⟨sampled, b⟩ : ViewSt))) = _
  rw [hlk]
  show (if (ViewSt.init ord.length).versions = sampled then
      some
        ({ r with
            views := fset r.views (sigOf ord, ord)
              (ViewSt.init ord.length) },
          ViewSt.init ord.length)
    else
      match buildCache me r ord with
      | none => none
      | some b =>
          some
            ({ r with
                views := fset r.views (sigOf ord, ord) ⟨sampled, b⟩ },
              (⟨sampled, b⟩ : ViewSt))) = _
  rw [if_neg (fun hh => hrep (by
    rw [← hh]
    rfl)), hbc]

/-! ## Claim C5 — pool version counter -/

/-- C5 as amended: while the `u64` version counter has not yet reached
its maximum value (guaranteed for the first `2 ^ 62` pool operations),
it is monotonically non-decreasing over any operation sequence, and a
single operation strictly increases it exactly on an insertion of a new
entity, a removal of a present one, or a clear — which are exactly the
events that change the contained-entity set, plus clear; an overwriting
add and a remove of an absent entity leave it unchanged. -/
theorem c5_version_discipline :
    (∀ (V : Type) (p : Pool V) (op : PoolOp V), p.version < U64_MAX →
      p.version ≤ (pstep p op).version ∧
      (p.version < (pstep p op).version ↔ poolChange p op) ∧
      (¬poolChange p op → (pstep p op).version = p.version)) ∧
    (∀ (V : Type) (p : Pool V) (op : PoolOp V), PoolWF p →
      (poolChange p op ↔
        (∃ e2, (pstep p op).contains e2 ≠ p.contains e2) ∨
          op = PoolOp.pclear)) ∧
    (∀ (V : Type) (l1 l2 : List (PoolOp V)), (l1 ++ l2).length ≤ 2 ^ 62 →
      (prun l1 Pool.empty).version ≤ (prun (l1 ++ l2) Pool.empty).version) := by
  refine ⟨?_, ?_, ?_⟩
  · intro V p op h
    refine ⟨pstep_version_ge p op h, ?_, ?_⟩
    · cases op with
      | padd e v =>
        show p.version < (p.add e v).version ↔ p.contains e = false
        rw [pool_version_add]
        by_cases hc : p.contains e
        · rw [if_pos hc, hc]
          exact ⟨fun hh => absurd hh (Nat.lt_irrefl _),
            fun hh => Bool.noConfusion hh⟩
        · rw [if_neg hc, bump_of_lt h]
          exact ⟨fun _ => (Bool.not_eq_true _).mp hc,
            fun _ => Nat.lt_succ_self _⟩
      | premove e =>
        show p.version < (p.remove e).version ↔ p.contains e = true
        rw [pool_version_remove]
        by_cases hc : p.contains e
        · rw [if_pos hc, bump_of_lt h]
          exact ⟨fun _ => hc, fun _ => Nat.lt_succ_self _⟩
        · rw [if_neg hc]
          exact ⟨fun hh => absurd hh (Nat.lt_irrefl _),
            fun hh => absurd hh hc⟩
      | pclear =>
        show p.version < bump p.version ↔ True
        rw [bump_of_lt h]
        exact ⟨fun _ => trivial, fun _ => Nat.lt_succ_self _⟩
    · intro hnc
      cases op with
      | padd e v =>
        show (p.add e v).version = p.version
        rw [pool_version_add, if_pos ?_]
        have : ¬p.contains e = false := hnc
        exact Bool.of_not_eq_false this
      | premove e =>
        show (p.remove e).version = p.version
        rw [pool_version_remove, if_neg ?_]
        intro hc
        exact hnc hc
      | pclear => exact absurd trivial hnc
  · intro V p op hwf
    cases op with
    | padd e v =>
      show p.contains e = false ↔ _
      constructor
      · intro hc
        refine Or.inl ⟨e, ?_⟩
        show (p.add e v).contains e ≠ p.contains e
        rw [pool_contains_add_self, hc]
        exact Bool.noConfusion
      · rintro (⟨e2, he2⟩ | hop)
        · by_cases hc : p.contains e
          · exfalso
            apply he2
            show (p.add e v).contains e2 = p.contains e2
            by_cases h2 : e2 = e
            · rw [h2, pool_contains_add_self, hc]
            · rw [Pool.contains, Pool.contains, pool_lookup_add_ne h2]
          · exact (Bool.not_eq_true _).mp hc
        · exact PoolOp.noConfusion hop
    | premove e =>
      show p.contains e = true ↔ _
      constructor
      · intro hc
        obtain ⟨k, hk⟩ := Option.isSome_iff_exists.mp (by rwa [Pool.contains] at hc)
        refine Or.inl ⟨e, ?_⟩
        have hs := pool_remove_spec hwf hk
        show (p.remove e).contains e ≠ _
        rw [Pool.contains, hs.2.2.2.1, hc]
        exact Bool.noConfusion
      · rintro (⟨e2, he2⟩ | hop)
        · by_cases hc : p.contains e
          · exact hc
          · exfalso
            apply he2
            have hnone : flookup p.sparse e = none := by
              rw [Pool.contains] at hc
              exact Option.not_isSome_iff_eq_none.mp hc
            show (p.remove e).contains e2 = _
            rw [pool_remove_absent hnone]
        · exact PoolOp.noConfusion hop
    | pclear =>
      exact ⟨fun _ => Or.inr rfl, fun _ => trivial⟩
  · intro V l1 l2 hlen
    rw [prun_append]
    refine prun_version_mono l2 (prun l1 Pool.empty) ?_
    have h1 := prun_version_le l1 (Pool.empty : Pool V)
    have h0 : (Pool.empty : Pool V).version = 0 := rfl
    rw [h0] at h1
    rw [List.length_append] at hlen
    have : (2 : Nat) ^ 62 + 2 ^ 62 < U64_MAX := by decide
    omega

/-- Witness for C5 at concrete pools: a fresh pool is coherent with
version 0 below the maximum; inserting entity 0 strictly increases the
version (a membership change), and the two-op sequence add/remove is
monotone. -/
theorem c5_version_discipline_witness :
    ((Pool.empty : Pool Nat).version < U64_MAX ∧
      (Pool.empty : Pool Nat).version ≤
        (pstep Pool.empty (PoolOp.padd 0 5)).version) ∧
    (PoolWF (Pool.empty : Pool Nat) ∧
      (poolChange (Pool.empty : Pool Nat) (PoolOp.padd 0 5) ↔
        (∃ e2, (pstep (Pool.empty : Pool Nat) (PoolOp.padd 0 5)).contains e2 ≠
          (Pool.empty : Pool Nat).contains e2) ∨
          PoolOp.padd 0 5 = PoolOp.pclear)) ∧
    (([PoolOp.padd 0 5] ++ [PoolOp.premove 0]).length ≤ 2 ^ 62 ∧
      (prun [PoolOp.padd 0 5] (Pool.empty : Pool Nat)).version ≤
        (prun ([PoolOp.padd 0 5] ++ [PoolOp.premove 0]) Pool.empty).version) := by
  refine ⟨⟨by decide, ?_⟩, ⟨by decide, ?_⟩, ⟨by decide, ?_⟩⟩
  · exact (c5_version_discipline.1 Nat Pool.empty (PoolOp.padd 0 5) (by decide)).1
  · exact c5_version_discipline.2.1 Nat Pool.empty (PoolOp.padd 0 5) (by decide)
  · exact c5_version_discipline.2.2 Nat [PoolOp.padd 0 5] [PoolOp.premove 0]
      (by decide)

/-- C5 fails as stated on the raw `u64` counter: after `2 ^ 63 − 1`
add/remove pairs and one more add, the version is the maximum `u64`
value, and the next removal of the present entity 0 wraps it around to
0 — the counter strictly DECREASES, so unbounded sequences are not
monotone and a removal does not always strictly increase the version. -/
theorem c5_counterexample :
    (prun c5CexOps Pool.empty).version = U64_MAX ∧
    (prun c5CexOps Pool.empty).contains 0 = true ∧
    (prun (c5CexOps ++ [PoolOp.premove 0]) Pool.empty).version = 0 ∧
    0 < U64_MAX := by
  have h0 : prun (pairsP (2 ^ 63 - 1)) (Pool.empty : Pool Nat) =
      ⟨(0 + 2 * (2 ^ 63 - 1)) % U64_MOD, [], [], []⟩ :=
    prun_pairsP (2 ^ 63 - 1) 0 (by decide)
  have harith : (0 + 2 * (2 ^ 63 - 1)) % U64_MOD = 2 ^ 64 - 2 := by decide
  rw [harith] at h0
  have h1 : prun c5CexOps (Pool.empty : Pool Nat) =
      ⟨U64_MAX, [0], [0], [(0, 0)]⟩ := by
    rw [c5CexOps, prun_append, h0]
    decide
  have h2 : prun (c5CexOps ++ [PoolOp.premove 0]) (Pool.empty : Pool Nat) =
      ⟨0, [], [], []⟩ := by
    rw [prun_append, h1]
    decide
  rw [h1, h2]
  exact ⟨rfl, rfl, rfl, by decide⟩

/-! ## Claim C7 — swap-and-pop removal -/

/-- C7: pool `remove(e)` is a no-op when the slot of `e` is absent or
invalid; when `e` is present it removes exactly `e` — its slot becomes
invalid, the dense arrays shrink by one, every other entity keeps its
membership and its component value, and coherence is preserved.
Concretely (S2), after adding `Position{x=1}` to entities 0, 1, 2 and
removing 1, the entities array is `[0, 2]`, entity 2 still maps to
component value 1, and the slot of entity 1 is invalid. -/
theorem c7_remove_swap_pop :
    (∀ (V : Type) (p : Pool V) (e : Nat),
      flookup p.sparse e = none → p.remove e = p) ∧
    (∀ (V : Type) (p : Pool V) (e k : Nat), PoolWF p →
      flookup p.sparse e = some k →
      (p.remove e).contains e = false ∧
      (p.remove e).entities.length = p.entities.length - 1 ∧
      (∀ e2, e2 ≠ e → (p.remove e).contains e2 = p.contains e2) ∧
      (∀ e2, e2 ≠ e → (p.remove e).get e2 = p.get e2) ∧
      PoolWF (p.remove e)) ∧
    (((((Pool.empty.add 0 (1 : Nat)).add 1 1).add 2 1).remove 1).entities =
      [0, 2] ∧
     ((((Pool.empty.add 0 (1 : Nat)).add 1 1).add 2 1).remove 1).get 2 =
      some 1 ∧
     flookup ((((Pool.empty.add 0 (1 : Nat)).add 1 1).add 2 1).remove 1).sparse
      1 = none) := by
  refine ⟨?_, ?_, by decide, by decide, by decide⟩
  · intro V p e h
    exact pool_remove_absent h
  · intro V p e k hwf h
    have hs := pool_remove_spec hwf h
    refine ⟨?_, hs.2.1, hs.2.2.2.2.1, hs.2.2.2.2.2.1, hs.2.2.2.2.2.2⟩
    rw [Pool.contains, hs.2.2.2.1]
    rfl

/-- Witness for C7: removing the absent entity 5 from a fresh pool is a
no-op, and removing the present entity 1 from the three-entity pool of
S2 empties its slot. -/
theorem c7_remove_swap_pop_witness :
    (flookup (Pool.empty : Pool Nat).sparse 5 = none ∧
      (Pool.empty : Pool Nat).remove 5 = Pool.empty) ∧
    (PoolWF (((Pool.empty.add 0 (1 : Nat)).add 1 1).add 2 1) ∧
      flookup (((Pool.empty.add 0 (1 : Nat)).add 1 1).add 2 1).sparse 1 =
        some 1 ∧
      ((((Pool.empty.add 0 (1 : Nat)).add 1 1).add 2 1).remove 1).contains 1 =
        false) := by
  refine ⟨⟨by decide, c7_remove_swap_pop.1 Nat Pool.empty 5 (by decide)⟩,
    ⟨by decide, by decide, ?_⟩⟩
  exact (c7_remove_swap_pop.2.1 Nat _ 1 1 (by decide) (by decide)).1

/-! ## Claim C1 — counterexample -/

/-- C1 fails as stated: after the legal operation sequence
`registerComponent; create; addComponent<C>(0); clear<C>()` on the
standard registry, bit `id(C) = 0` of `signatures[0]` is still set while
the pool for `C` no longer contains entity 0 (`Registry::clear` empties
the pool without touching the signatures). -/
theorem c1_counterexample :
    obsC1 (run MAX_ENTITIES c1CexOps (initReg Nat MAX_ENTITIES)) =
      some (true, some false) := by
  rw [obsC1, c1CexOps_run]
  rfl

/-- C1 (amended): over any run of the public registry operations from a
fresh registry that never calls `Registry::clear<C>`, bit `c` of
`signatures[e]` is set if and only if the pool for component `c` is
registered and contains entity `e`. -/
theorem c1_sig_pool_invariant {V : Type} {me : Nat} {l : List (Op V)}
    {r2 : Reg V} (hnc : NoClear l)
    (h : run me l (initReg V me) = some r2) :
    ∀ e c, Nat.testBit (r2.sig e) c = true ↔
      ∃ p, r2.poolAt c = some p ∧ p.contains e = true := by
  have hi := @initReg_wf V me
  exact (run_inv hi.1 h).2 hnc hi.2

/-- Witness for C1: the `clear`-free run `c1WitOps` at entity bound 4
ends in `c1WitReg`, where bit 0 of the signature of entity 0 agrees
with membership of entity 0 in the pool of component 0. -/
theorem c1_sig_pool_invariant_witness :
    NoClear c1WitOps ∧
    run 4 c1WitOps (initReg Nat 4) = some c1WitReg ∧
    (Nat.testBit (c1WitReg.sig 0) 0 = true ↔
      ∃ p, c1WitReg.poolAt 0 = some p ∧ p.contains 0 = true) :=
  ⟨by decide, by rfl,
    @c1_sig_pool_invariant Nat 4 c1WitOps c1WitReg (by decide) (by rfl) 0 0⟩

/-! ## Claim C2 — counterexample -/

/-- C2 fails as stated: after
`register A; register B; create; addComponent<A>(0); addComponent<B>(0);
clear<A>()`, entity 0 is live and its signature is a superset of the
signature of `view<A, B>` (the masked signature equals the view
signature 3), yet `each` yields no tuple at all — the cleared pool `A`
is chosen as the empty driver while the stale signature still claims
both components. -/
theorem c2_counterexample :
    obsC2 (run MAX_ENTITIES c2CexOps (initReg Nat MAX_ENTITIES)) =
      some (some [], true, 3, 3) := by
  rw [obsC2, c2CexOps_run]
  rfl

/-! ## Claim C3 — counterexample and amended statement -/

/-- C3 fails as stated on its last step: after `register Name; create
(= 0); addComponent<Name>(0, "Tom"); destroy(0); update()`, the next
`create()` returns entity 1, not 0 — the recycled id 0 went to the BACK
of the FIFO `m_available` behind ids `1 … 999999`. -/
theorem c3_counterexample :
    obsNextCreate c3Ops = some 1 ∧ obsNextCreate c3Ops ≠ some 0 := by
  have h : obsNextCreate c3Ops = some 1 := by
    rw [obsNextCreate, c3Ops_run, range'_1_999999]
    rfl
  exact ⟨h, by rw [h]; intro hc; exact absurd (Option.some.inj hc) (by decide)⟩

/-- C3 amended: on a fresh registry with component `Name` registered the
first `create()` returns entity 0; after `addComponent<Name>(0, "Tom")`,
`getComponent<Name>(0)` yields "Tom"; after `destroy(0)` and `update()`,
`valid(0)` is false; and the next `create()` returns entity 1 (entity 0
is re-issued only after the remaining fresh ids, in FIFO order). -/
theorem c3_amended_lifecycle :
    ((run MAX_ENTITIES [Op.register 0] (initReg String MAX_ENTITIES)).map
        (fun r => (r.create).1) = some 0) ∧
    ((run MAX_ENTITIES c3OpsA (initReg String MAX_ENTITIES)).map
        (fun r => r.getComp MAX_ENTITIES 0 0) = some (some "Tom")) ∧
    ((run MAX_ENTITIES c3Ops (initReg String MAX_ENTITIES)).map
        (fun r => r.valid MAX_ENTITIES 0) = some false) ∧
    obsNextCreate c3Ops = some 1 := by
  refine ⟨?_, ?_, ?_, ?_⟩
  · rw [initReg_eq_cons]
    rfl
  · rw [c3OpsA_run]
    rfl
  · rw [c3Ops_run]
    rfl
  · rw [obsNextCreate, c3Ops_run, range'_1_999999]
    rfl

/-! ## Claim C6 — update -/

/-- C6: on a well-formed registry, `update()` clears the destroy queue
and preserves well-formedness; every queued entity whose index slot was
valid ends with `indices[e] = INVALID_INDEX`, `signatures[e] = 0`, no
pool containing it, and is no longer alive; an entity whose index slot
is `INVALID_INDEX` is skipped (its index stays invalid, its signature
and its pool memberships are untouched); and each id's multiplicity in
`m_available` grows by exactly one if it was queued while valid and by
zero otherwise — so submitting `destroy(e)` twice before one `update()`
recycles `e` at most once. -/
theorem c6_update_semantics {V : Type} {me : Nat} (r : Reg V)
    (hw : RegWF0 me r) :
    r.updateR.destroyQ = [] ∧
    RegWF0 me r.updateR ∧
    (∀ e, e ∈ r.destroyQ → (r.idx e).isSome = true →
      r.updateR.idx e = none ∧
      r.updateR.sig e = 0 ∧
      (∀ c p, r.updateR.poolAt c = some p → p.contains e = false) ∧
      e ∉ r.updateR.alive ∧ e ∈ r.updateR.available) ∧
    (∀ x, x ∈ r.updateR.alive ↔ (x ∈ r.alive ∧ x ∉ r.destroyQ)) ∧
    (∀ e, r.idx e = none →
      r.updateR.idx e = none ∧ r.updateR.sig e = r.sig e ∧
      (∀ p2 c, r.updateR.poolAt c = some p2 →
        ∃ p1, r.poolAt c = some p1 ∧ p2.contains e = p1.contains e)) ∧
    (∀ e, r.updateR.available.count e = r.available.count e +
      (if e ∈ r.destroyQ ∧ (r.idx e).isSome = true then 1 else 0)) := by
  obtain ⟨h1, h2, h3, h4, h5, h6, h7, h8, h9, h10⟩ :=
    update_fold_spec r.destroyQ r hw
  refine ⟨rfl, regWF0_congr h1 rfl rfl rfl rfl rfl, ?_, ?_, ?_, ?_⟩
  · intro e he hs
    refine ⟨(h2 e).mpr (Or.inr he), (h4 e he hs).1,
      fun c p hp => (h4 e he hs).2 c p hp, ?_, ?_⟩
    · intro hmem
      exact absurd he ((h5 e).mp hmem).2
    · have := h3 e
      rw [if_pos ⟨he, hs⟩] at this
      have hpos : 0 < r.updateR.available.count e := by
        show 0 < (r.destroyQ.foldl destroyOne r).available.count e
        omega
      exact List.count_pos_iff.mp hpos
  · exact h5
  · intro e hn
    exact ⟨(h2 e).mpr (Or.inl hn), (h9 e hn).1,
      fun p2 c hp => (h9 e hn).2 c p2 hp⟩
  · exact h3

/-- Witness for C6: the concrete registry `c6WitReg` is well-formed;
after `update()` the queue is empty, entity 0 is invalid with signature
0, and id 0 was appended to `m_available` exactly once even though it
was queued twice. -/
theorem c6_update_semantics_witness :
    RegWF0 4 c6WitReg ∧
    c6WitReg.updateR.destroyQ = [] ∧
    c6WitReg.updateR.idx 0 = none ∧
    c6WitReg.updateR.sig 0 = 0 ∧
    c6WitReg.updateR.available.count 0 =
      c6WitReg.available.count 0 + 1 := by
  have hw : RegWF0 4 c6WitReg := by decide
  obtain ⟨hq, hwf2, hdes, halive, hskip, hcount⟩ :=
    c6_update_semantics c6WitReg hw
  refine ⟨hw, hq, ?_, ?_, ?_⟩
  · exact (hdes 0 (by decide) (by decide)).1
  · exact (hdes 0 (by decide) (by decide)).2.1
  · have hc := hcount 0
    rw [if_pos ⟨by decide, by decide⟩] at hc
    exact hc

/-! ## Claim C8 — create -/

/-- C8: `create()` with an empty `m_available` returns the sentinel
`NONE` and leaves the registry state unchanged; otherwise it dequeues
the front id `e`, sets `indices[e]` to the current length of `alive`,
appends `e` to `alive`, changes nothing else, and returns a handle
carrying `e`. -/
theorem c8_create_spec {V : Type} (r : Reg V) :
    (r.available = [] → r.create = (NONE_ID, r)) ∧
    (∀ e rest, r.available = e :: rest →
      (r.create).1 = e ∧
      (r.create).2.available = rest ∧
      (r.create).2.idx e = some r.alive.length ∧
      (r.create).2.alive = r.alive ++ [e] ∧
      (∀ e2, e2 ≠ e → (r.create).2.idx e2 = r.idx e2) ∧
      (r.create).2.pools = r.pools ∧
      (r.create).2.signatures = r.signatures ∧
      (r.create).2.destroyQ = r.destroyQ ∧
      (r.create).2.views = r.views) := by
  constructor
  · intro h
    rw [Reg.create, h]
  · intro e rest h
    rw [Reg.create, h]
    refine ⟨rfl, rfl, ?_, rfl, ?_, rfl, rfl, rfl, rfl⟩
    · show flookup (fset r.indices e r.alive.length) e = some r.alive.length
      rw [flookup_fset, if_pos rfl]
    · intro e2 he2
      show flookup (fset r.indices e r.alive.length) e2 = r.idx e2
      rw [flookup_fset, if_neg he2]
      rfl

/-- Witness for C8 at concrete registries: `initReg Nat 0` has an empty
id queue and `create` returns the sentinel unchanged; `initReg Nat 2`
has queue `[0, 1]` and `create` returns id 0. -/
theorem c8_create_witness :
    (initReg Nat 0).available = [] ∧
    (initReg Nat 0).create = (NONE_ID, initReg Nat 0) ∧
    (initReg Nat 2).available = 0 :: [1] ∧
    ((initReg Nat 2).create).1 = 0 := by
  refine ⟨rfl, (c8_create_spec (initReg Nat 0)).1 rfl, rfl, ?_⟩
  exact ((c8_create_spec (initReg Nat 2)).2 0 [1] rfl).1

/-! ## Claim C9 — operations on invalid entities -/

/-- C9: with an invalid entity — `e` at or beyond the entity bound, or
`indices[e] = INVALID_INDEX` — `valid` is false, `addComponent`,
`removeComponent` and `destroy` leave the registry state unchanged, and
`getComponent` returns nothing. -/
theorem c9_invalid_entity_noop {V : Type} (me : Nat) (r : Reg V)
    (c e : Nat) (v : V) (h : me ≤ e ∨ r.idx e = none) :
    r.valid me e = false ∧
    step me r (Op.addC c e v) = some r ∧
    step me r (Op.removeC c e) = some r ∧
    step me r (Op.destroy e) = some r ∧
    r.getComp me c e = none := by
  have hv : r.valid me e = false := by
    rw [Reg.valid]
    rcases h with h | h
    · rw [decide_eq_false (Nat.not_lt.mpr h)]
      rfl
    · rw [h]
      show (decide (e < me) && false) = false
      rw [Bool.and_false]
  refine ⟨hv, ?_, ?_, ?_, ?_⟩
  · show Reg.addComp me r c e v = some r
    rw [Reg.addComp, hv]
    rfl
  · show Reg.removeComp me r c e = some r
    rw [Reg.removeComp, hv]
    rfl
  · show some (r.destroySubmit me e) = some r
    rw [Reg.destroySubmit, hv]
    rfl
  · rw [Reg.getComp, hv]
    rfl

/-- Witness for C9: entity 7 is out of range for the bound 4, so every
mutation on it is a no-op on the fresh registry and `getComponent`
yields nothing. -/
theorem c9_invalid_entity_witness :
    (4 ≤ 7 ∨ (initReg Nat 4).idx 7 = none) ∧
    (initReg Nat 4).valid 4 7 = false ∧
    step 4 (initReg Nat 4) (Op.addC 0 7 5) = some (initReg Nat 4) ∧
    (initReg Nat 4).getComp 4 0 7 = none := by
  have h := c9_invalid_entity_noop 4 (initReg Nat 4) 0 7 5 (Or.inl (by decide))
  exact ⟨Or.inl (by decide), h.1, h.2.1, h.2.2.2.2⟩

/-! ## Claim C10 — views and destroyed entities -/

/-- C10 (amended): over any run of fewer than `2 ^ 64 - 1` public
registry operations from a fresh registry, `View::entities` (and hence
`each`) never yields an entity that is not live at the time of the
call: a recycled entity was removed — with a version bump — from every
pool that contained it, so a view whose stored versions still match the
sample cannot hold it, and a rebuild draws only live pool members. -/
theorem c10_views_only_live {V : Type} {me : Nat} {l : List (Op V)}
    {r : Reg V} {ord es : List Nat}
    (hrun : run me l (initReg V me) = some r) (hlen : l.length < U64_MAX)
    (hout : entitiesOut me r ord = some es) :
    ∀ e ∈ es, r.valid me e = true := by
  obtain ⟨hw, hb, hvb, _⟩ := run_from_init_view hrun (Nat.le_of_lt hlen)
  rw [entitiesOut] at hout
  cases hsv : stepView me r ord with
  | none =>
    rw [hsv] at hout
    exact Option.noConfusion hout
  | some rv =>
    rw [hsv] at hout
    have hes : es = rv.2.cache.map Prod.fst := (Option.some.inj hout).symm
    obtain ⟨hne, sampled, hsample, hcase⟩ := stepView_spec hsv
    intro e he
    rw [hes] at he
    obtain ⟨pr, hpr, hpre⟩ := List.mem_map.mp he
    rcases hcase with ⟨vs, hlk, hveq, hrv⟩ | ⟨b, hbc, hrv⟩ |
        ⟨hlk, hrep, hrv⟩
    · have hvs2 : rv.2 = vs := by rw [hrv]
      rw [hvs2] at hpr
      obtain ⟨hk, _, sampled1, hsample1, hlenv, hpt, i, hi, p, hp,
        hcache⟩ := hvb (sigOf ord) ord vs hlk
      have hseq : sampled1 = sampled := by
        rw [hsample] at hsample1
        exact (Option.some.inj hsample1).symm
      obtain ⟨pv, hpv, hpvv⟩ := (sampleVersions_spec hsample1).2 i hi
      rw [hp] at hpv
      have hpveq : pv = p := (Option.some.inj hpv).symm
      have hstored : vs.versions.getD i 0 = p.version := by
        rw [hveq, ← hseq, hpvv, hpveq]
      have hcp := hcache hstored pr hpr
      rw [← hpre]
      exact valid_of_contains hw hp hcp
    · have hvs2 : rv.2 = (⟨sampled, b⟩ : ViewSt) := by rw [hrv]
      rw [hvs2] at hpr
      have hsound := buildCache_sound hw hbc pr hpr
      rw [← hpre]
      exact hsound.1
    · exfalso
      have h0lt : 0 < ord.length := List.length_pos.mpr hne
      obtain ⟨p, hp, hpv⟩ := (sampleVersions_spec hsample).2 0 h0lt
      have hrepv : sampled.getD 0 0 = U64_MAX := by
        rw [hrep, List.getD_eq_getElem?_getD, List.getElem?_replicate,
          if_pos h0lt]
        rfl
      have hbv := hb.2 _ p hp
      rw [hpv] at hrepv
      omega

/-- Witness for C10: after `register; create 0; add component` on a
fresh registry with entity bound 4, `view<0>().entities` yields exactly
the live entity 0. -/
theorem c10_views_only_live_witness :
    run 4 viewWitOps (initReg Nat 4) = some viewWitReg ∧
    viewWitOps.length < U64_MAX ∧
    entitiesOut 4 viewWitReg [0] = some [0] ∧
    (0 : Nat) ∈ [0] ∧
    viewWitReg.valid 4 0 = true := by
  refine ⟨by rfl, by decide, by rfl, by decide, ?_⟩
  exact @c10_views_only_live Nat 4 viewWitOps viewWitReg [0] [0]
    (by rfl) (by decide) (by rfl) 0 (by decide)

/-! ## Claim C2 — amended view/each correctness -/

/-- C2 (amended): over any `clear`-free run of fewer than `2 ^ 64 - 1`
public registry operations from a fresh registry, `each` on a view
yields exactly one tuple for every live entity whose signature covers
the view signature and no tuple for any other entity, and every
component pointer of a yielded tuple is non-null and dereferences to
the entity's current component value (`getComponent`). -/
theorem c2_view_each {V : Type} {me : Nat} {l : List (Op V)} {r : Reg V}
    {ord : List Nat} {out : List (Nat × List (Option V))}
    (hrun : run me l (initReg V me) = some r) (hnc : NoClear l)
    (hlen : l.length < U64_MAX) (hout : eachOut me r ord = some out) :
    (∀ pr ∈ out, r.valid me pr.1 = true ∧
      r.sig pr.1 &&& sigOf ord = sigOf ord ∧
      pr.2 = ord.map (fun c => r.getComp me c pr.1) ∧
      ∀ x ∈ pr.2, x.isSome = true) ∧
    (∀ e, r.valid me e = true → r.sig e &&& sigOf ord = sigOf ord →
      (out.map Prod.fst).count e = 1) := by
  obtain ⟨hw, hb, hvb, hfull0⟩ := run_from_init_view hrun
    (Nat.le_of_lt hlen)
  obtain ⟨hsig, hvf⟩ := hfull0 hnc
  rw [eachOut] at hout
  cases hsv : stepView me r ord with
  | none =>
    rw [hsv] at hout
    exact Option.noConfusion hout
  | some rv =>
    rw [hsv] at hout
    have hout2 : out = rv.2.cache.map (fun pr =>
        (pr.1, (ord.zip pr.2).map
          (fun cp => derefPtr rv.1 cp.1 cp.2))) :=
      (Option.some.inj hout).symm
    obtain ⟨f1, _, _, _, _, _⟩ := stepView_fields hsv
    obtain ⟨hne, sampled, hsample, hcase⟩ := stepView_spec hsv
    have hcache_eq : ∃ b, buildCache me r ord = some b ∧
        rv.2.cache = b := by
      rcases hcase with ⟨vs, hlk, hveq, hrv⟩ | ⟨b, hbc, hrv⟩ |
          ⟨hlk, hrep, hrv⟩
      · obtain ⟨b, hbc, hcb⟩ := hvf (sigOf ord) ord vs hlk sampled
          hsample hveq
        refine ⟨b, hbc, ?_⟩
        rw [hrv]
        exact hcb
      · refine ⟨b, hbc, ?_⟩
        rw [hrv]
      · exfalso
        have h0lt : 0 < ord.length := List.length_pos.mpr hne
        obtain ⟨p, hp, hpv⟩ := (sampleVersions_spec hsample).2 0 h0lt
        have hrepv : sampled.getD 0 0 = U64_MAX := by
          rw [hrep, List.getD_eq_getElem?_getD, List.getElem?_replicate,
            if_pos h0lt]
          rfl
        have hbv := hb.2 _ p hp
        rw [hpv] at hrepv
        omega
    obtain ⟨b, hbc, hcb⟩ := hcache_eq
    rw [hcb] at hout2
    constructor
    · intro pr0 hpr0
      rw [hout2] at hpr0
      obtain ⟨prb, hprb, hprb0⟩ := List.mem_map.mp hpr0
      obtain ⟨hval, hsigpr, hptr⟩ := buildCache_sound hw hbc prb hprb
      have hfst : pr0.1 = prb.1 := by
        rw [← hprb0]
      have hsnd : pr0.2 = ord.map
          (fun c => r.getComp me c prb.1) := by
        rw [← hprb0]
        show (ord.zip prb.2).map (fun cp => derefPtr rv.1 cp.1 cp.2) = _
        rw [hptr]
        have hzip : ord.zip (ord.map (fun c => ptrOf me r c prb.1)) =
            ord.map (fun c => (c, ptrOf me r c prb.1)) := by
          have h1 := List.zip_map' id (fun c => ptrOf me r c prb.1) ord
          rw [List.map_id] at h1
          exact h1
        rw [hzip, List.map_map]
        refine List.map_congr_left ?_
        intro c hc
        show derefPtr rv.1 c (ptrOf me r c prb.1) = _
        rw [derefPtr_congr f1 c]
        exact derefPtr_ptrOf hval
      refine ⟨by rw [hfst]; exact hval, by rw [hfst]; exact hsigpr,
        by rw [hfst]; exact hsnd, ?_⟩
      intro x hx
      rw [hsnd] at hx
      obtain ⟨c, hc, hcx⟩ := List.mem_map.mp hx
      have hbit : Nat.testBit (r.sig prb.1) c = true := by
        refine (and_mask_eq_iff _ _).mp hsigpr c ?_
        rw [testBit_sigOf]
        exact decide_eq_true_eq.mpr hc
      obtain ⟨p, hp, hcp⟩ := (hsig prb.1 c).mp hbit
      obtain ⟨v, hv⟩ := pool_get_isSome (hw.poolAt_inv hp).1 hcp
      have hgc : r.getComp me c prb.1 = some v := by
        rw [Reg.getComp, if_pos hval, hp]
        exact hv
      rw [← hcx, hgc]
      rfl
    · intro e hv hsigsup
      have hmapfst : out.map Prod.fst = b.map Prod.fst := by
        rw [hout2, List.map_map]
        rfl
      rw [hmapfst]
      exact buildCache_complete hw hsig hbc e hv hsigsup

/-- Witness for C2: after the `clear`-free run `viewWitOps` on a fresh
registry with entity bound 4, `view<0>().each` yields exactly the tuple
for entity 0 with the non-null pointer to its current component
value 5. -/
theorem c2_view_each_witness :
    run 4 viewWitOps (initReg Nat 4) = some viewWitReg ∧
    NoClear viewWitOps ∧
    viewWitOps.length < U64_MAX ∧
    eachOut 4 viewWitReg [0] = some [(0, [some 5])] ∧
    (viewWitReg.valid 4 0 = true ∧
      viewWitReg.sig 0 &&& sigOf [0] = sigOf [0] ∧
      ((0 : Nat), [some (5 : Nat)]).2 =
        [0].map (fun c => viewWitReg.getComp 4 c ((0 : Nat), [some (5 : Nat)]).1) ∧
      ∀ x ∈ ((0 : Nat), [some (5 : Nat)]).2, x.isSome = true) ∧
    (([(0, [some 5])].map Prod.fst).count 0 = 1) := by
  have h := @c2_view_each Nat 4 viewWitOps viewWitReg [0]
    [(0, [some 5])] (by rfl) (by decide) (by decide) (by rfl)
  refine ⟨by rfl, by decide, by decide, by rfl, ?_, ?_⟩
  · exact h.1 (0, [some 5]) (by decide)
  · exact h.2 0 (by decide) (by decide)

/-! ## Claim C4 — version-cached view reads -/

/-- C4 (amended): every view read first samples the versions of all
participating pools.  If a stored view's versions equal the sample the
cached result is reused with no rebuild and no state change; otherwise
the cache is rebuilt and the sampled versions stored; a view absent
from the map is created with its stored versions at the `u64` maximum,
so its first access rebuilds PROVIDED the sample is not itself the
all-max sentinel vector (the uncorrected claim fails exactly there);
and a second read with no pool mutation in between reuses the cache
and leaves the registry unchanged. -/
theorem c4_view_caching {V : Type} {me : Nat} {r : Reg V}
    {ord sampled : List Nat} (hord : ord ≠ [])
    (hsv : sampleVersions r ord = some sampled) :
    (∀ vs, flookup r.views (sigOf ord, ord) = some vs →
      vs.versions = sampled → stepView me r ord = some (r, vs)) ∧
    (∀ vs, flookup r.views (sigOf ord, ord) = some vs →
      vs.versions ≠ sampled →
      ∃ b, buildCache me r ord = some b ∧
        stepView me r ord = some
          ({ r with views := fset r.views (sigOf ord, ord) ⟨sampled, b⟩ },
            (⟨sampled, b⟩ : ViewSt))) ∧
    (flookup r.views (sigOf ord, ord) = none →
      sampled ≠ List.replicate ord.length U64_MAX →
      ∃ b, buildCache me r ord = some b ∧
        stepView me r ord = some
          ({ r with views := fset r.views (sigOf ord, ord) ⟨sampled, b⟩ },
            (⟨sampled, b⟩ : ViewSt))) ∧
    (ViewSt.init ord.length).versions =
      List.replicate ord.length U64_MAX ∧
    (∀ r2 vs, stepView me r ord = some (r2, vs) →
      stepView me r2 ord = some (r2, vs)) := by
  refine ⟨?_, ?_, ?_, rfl, ?_⟩
  · intro vs hlk hveq
    exact stepView_hit hord hsv hlk hveq
  · intro vs hlk hveq
    obtain ⟨b, hbc⟩ := buildCache_isSome hord (sampleVersions_registered hsv)
    exact ⟨b, hbc, stepView_rebuild hord hsv hlk hveq hbc⟩
  · intro hlk hrep
    obtain ⟨b, hbc⟩ := buildCache_isSome hord (sampleVersions_registered hsv)
    exact ⟨b, hbc, stepView_fresh hord hsv hlk hrep hbc⟩
  · intro r2 vs hstep
    obtain ⟨_, sampled0, hsv0, hcase⟩ := stepView_spec hstep
    have hseq : sampled0 = sampled := by
      rw [hsv] at hsv0
      exact (Option.some.inj hsv0).symm
    rcases hcase with ⟨vs1, hlk1, hveq1, hrv1⟩ | ⟨b, hbc, hrv1⟩ |
        ⟨hlk1, hrep1, hrv1⟩
    · have hr2 : r2 = r := congrArg Prod.fst hrv1
      have hvs : vs = vs1 := congrArg Prod.snd hrv1
      rw [hr2, hvs]
      exact stepView_hit hord hsv hlk1 (by rw [hveq1, hseq])
    · have hr2 : r2 = ({ r with
          views := fset r.views (sigOf ord, ord) ⟨sampled0, b⟩ } : Reg V) :=
        congrArg Prod.fst hrv1
      have hvs : vs = (⟨sampled0, b⟩ : ViewSt) := congrArg Prod.snd hrv1
      have hsv2 : sampleVersions r2 ord = some sampled0 := by
        rw [hr2, sampleVersions_congr_pools rfl ord]
        exact hsv0
      have hlk2 : flookup r2.views (sigOf ord, ord) =
          some (⟨sampled0, b⟩ : ViewSt) := by
        rw [hr2]
        show flookup (fset r.views (sigOf ord, ord) ⟨sampled0, b⟩)
          (sigOf ord, ord) = _
        rw [flookup_fset, if_pos rfl]
      rw [hvs]
      exact stepView_hit hord hsv2 hlk2 rfl
    · have hr2 : r2 = ({ r with
          views := fset r.views (sigOf ord, ord)
            (ViewSt.init ord.length) } : Reg V) :=
        congrArg Prod.fst hrv1
      have hvs : vs = ViewSt.init ord.length := congrArg Prod.snd hrv1
      have hsv2 : sampleVersions r2 ord = some sampled0 := by
        rw [hr2, sampleVersions_congr_pools rfl ord]
        exact hsv0
      have hlk2 : flookup r2.views (sigOf ord, ord) =
          some (ViewSt.init ord.length) := by
        rw [hr2]
        show flookup (fset r.views (sigOf ord, ord)
          (ViewSt.init ord.length)) (sigOf ord, ord) = _
        rw [flookup_fset, if_pos rfl]
      rw [hvs]
      refine stepView_hit hord hsv2 hlk2 ?_
      rw [hrep1]
      rfl

/-- Witness for C4: on the registry after `viewWitOps` (entity bound 4,
pool version 1), the first access to `view<0>` finds no stored view,
the sample `[1]` differs from the sentinel `[u64-max]`, and the read
rebuilds, stores `⟨[1], [(0, [some 0])]⟩` and then reuses it on the
second read. -/
theorem c4_view_caching_witness :
    ([0] : List Nat) ≠ [] ∧
    sampleVersions viewWitReg [0] = some [1] ∧
    (flookup viewWitReg.views (sigOf [0], [0]) = none →
      [1] ≠ List.replicate ([0] : List Nat).length U64_MAX →
      ∃ b, buildCache 4 viewWitReg [0] = some b ∧
        stepView 4 viewWitReg [0] = some
          ({ viewWitReg with
              views := fset viewWitReg.views (sigOf [0], [0]) ⟨[1], b⟩ },
            (⟨[1], b⟩ : ViewSt))) := by
  refine ⟨by decide, by rfl, ?_⟩
  exact (@c4_view_caching Nat 4 viewWitReg [0] [1] (by decide)
    (by rfl)).2.2.1

/-! ## Wrap-around pumps for the C4 and C10 counterexamples -/

theorem bump_bump (v : Nat) : bump (bump v) = (v + 2) % U64_MOD := by
  rw [bump, bump, Nat.mod_add_mod]

theorem uModPos : 0 < U64_MOD := by
  rw [U64_MOD]
  exact Nat.pos_pow_of_pos 64 (by omega)

theorem pumpA_pair (A : List Nat) (W : List ((Nat × List Nat) × ViewSt))
    (v : Nat) :
    run MAX_ENTITIES (Op.removeC 0 0 :: Op.addC 0 0 5 :: []) (RA A W v) =
      some (RA A W (bump (bump v))) := by
  with_unfolding_all rfl

theorem pumpA_run (k : Nat) :
    ∀ (A : List Nat) (W : List ((Nat × List Nat) × ViewSt)) (v : Nat),
      v < U64_MOD →
      run MAX_ENTITIES (pumpOpsA k) (RA A W v) =
        some (RA A W ((v + 2 * k) % U64_MOD)) := by
  induction k with
  | zero =>
    intro A W v hv
    show some (RA A W v) = _
    rw [Nat.mul_zero, Nat.add_zero, Nat.mod_eq_of_lt hv]
  | succ k ih =>
    intro A W v hv
    have h2 : run MAX_ENTITIES (pumpOpsA (k + 1)) (RA A W v) =
        run MAX_ENTITIES (pumpOpsA k) (RA A W (bump (bump v))) := by
      with_unfolding_all rfl
    rw [h2, ih A W (bump (bump v)) (by
      rw [bump_bump]
      exact Nat.mod_lt _ uModPos), bump_bump, Nat.mod_add_mod]
    have harith : v + 2 + 2 * k = v + 2 * (k + 1) := by omega
    rw [harith]

theorem c4Start_run :
    run MAX_ENTITIES c4StartOps (initReg Nat MAX_ENTITIES) =
      some (RA (List.range' 1 999999) [] 1) := by
  rw [initReg_eq_cons]
  rfl

theorem c4Pump_run :
    run MAX_ENTITIES (c4StartOps ++ pumpOpsA (2 ^ 63 - 1))
      (initReg Nat MAX_ENTITIES) =
      some (RA (List.range' 1 999999) [] U64_MAX) := by
  rw [run_append, c4Start_run]
  show run MAX_ENTITIES (pumpOpsA (2 ^ 63 - 1))
    (RA (List.range' 1 999999) [] 1) = _
  rw [pumpA_run (2 ^ 63 - 1) (List.range' 1 999999) [] 1 (by decide)]
  have hv : (1 + 2 * (2 ^ 63 - 1)) % U64_MOD = U64_MAX := by decide
  rw [hv]

/-! ## Claim C4 — counterexample at the `u64`-max sentinel -/

/-- C4 fails as stated on "the very first access always rebuilds":
after `register; create 0; addComponent(0)` and `2 ^ 63 - 1` pairs of
`removeComponent(0); addComponent(0)` — a legal operation sequence —
the pool version has been driven to the `u64` maximum.  The view map
is empty, entity 0 is live and matches the view, a rebuild would yield
it, and yet the very first `each` on `view<0>` returns no tuples: the
fresh view's sentinel version vector coincides with the sampled one,
so the read reuses the initial empty cache instead of rebuilding. -/
theorem c4_counterexample :
    obsC4 (run MAX_ENTITIES (c4StartOps ++ pumpOpsA (2 ^ 63 - 1))
      (initReg Nat MAX_ENTITIES)) =
      some ([], some [], some [(0, [some 0])], true) := by
  rw [c4Pump_run]
  with_unfolding_all rfl

theorem pumpB_pair (A : List Nat) (v : Nat) :
    run MAX_ENTITIES (Op.removeC 0 1 :: Op.addC 0 1 5 :: []) (RB A v) =
      some (RB A (bump (bump v))) := by
  with_unfolding_all rfl

theorem pumpB_run (k : Nat) :
    ∀ (A : List Nat) (v : Nat), v < U64_MOD →
      run MAX_ENTITIES (pumpOpsB k) (RB A v) =
        some (RB A ((v + 2 * k) % U64_MOD)) := by
  induction k with
  | zero =>
    intro A v hv
    show some (RB A v) = _
    rw [Nat.mul_zero, Nat.add_zero, Nat.mod_eq_of_lt hv]
  | succ k ih =>
    intro A v hv
    have h2 : run MAX_ENTITIES (pumpOpsB (k + 1)) (RB A v) =
        run MAX_ENTITIES (pumpOpsB k) (RB A (bump (bump v))) := by
      with_unfolding_all rfl
    rw [h2, ih A (bump (bump v)) (by
      rw [bump_bump]
      exact Nat.mod_lt _ uModPos), bump_bump, Nat.mod_add_mod]
    have harith : v + 2 + 2 * k = v + 2 * (k + 1) := by omega
    rw [harith]

theorem c10Start_run :
    run MAX_ENTITIES c10StartOps (initReg Nat MAX_ENTITIES) =
      some (RB (List.range' 2 999998 ++ [0]) 3) := by
  rw [initReg_eq_cons, range'_1_999999]
  rfl

theorem c10Pump_run :
    run MAX_ENTITIES (c10StartOps ++ pumpOpsB (2 ^ 63 - 1))
      (initReg Nat MAX_ENTITIES) =
      some (RB (List.range' 2 999998 ++ [0]) 1) := by
  rw [run_append, c10Start_run]
  show run MAX_ENTITIES (pumpOpsB (2 ^ 63 - 1))
    (RB (List.range' 2 999998 ++ [0]) 3) = _
  rw [pumpB_run (2 ^ 63 - 1) (List.range' 2 999998 ++ [0]) 3 (by decide)]
  have hv : (3 + 2 * (2 ^ 63 - 1)) % U64_MOD = 1 := by decide
  rw [hv]

/-! ## Claim C10 — counterexample at a `u64` version wrap -/

/-- C10 fails as stated once the `u64` version counter wraps: build a
view cache holding entity 0 at pool version 1; destroy entity 0 and
run `update()` (version 2), recycle with `create` (issuing id 1) and
re-attach component 0 (version 3); then `2 ^ 63 - 1` remove/add pairs
drive the version to `2 ^ 64 + 1 ≡ 1 (mod 2 ^ 64)` — exactly the
stored version.  The next `entities()` call reuses the stale cache and
yields entity 0, which is not live. -/
theorem c10_counterexample :
    obsC10 (run MAX_ENTITIES (c10StartOps ++ pumpOpsB (2 ^ 63 - 1))
      (initReg Nat MAX_ENTITIES)) =
      some (some [0], false) := by
  rw [c10Pump_run]
  with_unfolding_all rfl

end SpireEcs